import Mathlib

/-!
# Page replacement simulator (`src/gpt.c`)

A shallow embedding of the frame table of `src/gpt.c`, of its four victim
selection helpers and of the driver loop of `main`, followed by theorems about
them.  The file `src/memsim.c` is the skeleton of the same program: its four
arrays stay `NULL` (`createMMU`, `allocateFrame` and `selectVictim` are stubs),
so its lookup reads through a null pointer as soon as `numFrames >= 1`; it is
not modelled here.

Modelling conventions.

* The file-scope variables `numFrames`, `frame_page`, `frame_dirty`,
  `frame_ref`, `frame_last`, `next_free_idx`, `fifo_hand`, `clock_hand` and
  `tnow` are the fields of the record `MMU`; every C function becomes a
  function from the old record to its return value and the new record.
* The four `malloc`ed arrays are lists.  `a[i]` is `a.getD i 0` and
  `a[i] = v` is `a.set i v`; on the states described by `MMU.WellFormed` (all four
  lists have length `numFrames`) no access is out of range.
* `char` and `int` cells are `Int`; `int` variables that only ever hold
  indices or counts are `Nat` (signed overflow is undefined in C, so there
  is no wrap to model for them).  `unsigned long long` cells are `Nat`
  reduced modulo `2 ^ 64` at every increment.  `unsigned address` is a `Nat`
  reduced modulo `2 ^ 32`.
* `rand()` and `srand()` belong to the C library.  They are taken as a
  parameter `LibcRand`: a seeding function and a step function on the
  generator state, which is held in the field `rng`.
* The `while (1)` loop of `choose_clock_victim` is a function with fuel that
  returns `none` when the fuel runs out.
* `debugmode` only selects `printf` calls and is left out.
-/

namespace Gpt

/-- The constant `ULLONG_MAX + 1`. -/
def ULL : Nat := 2 ^ 64

/-- The C library generator behind `srand` and `rand`: `srand seed` is the
generator state after seeding, `rand st` is the value drawn (non-negative)
and the next generator state. -/
structure LibcRand where
  srand : Nat → Nat
  rand : Nat → Nat × Nat

/-- The type `enum repl { random, fifo, lru, clock }`. -/
inductive repl where
  | random
  | fifo
  | lru
  | clock
deriving DecidableEq, Repr

/-- The type `page`: `struct { int pageNo; int modified; }`. -/
structure page where
  pageNo : Int
  modified : Int
deriving DecidableEq, Repr

/-- The internal MMU state of `src/gpt.c` (lines 42-54), and the state of the
C library generator. -/
structure MMU where
  numFrames : Nat
  frame_page : List Int
  frame_dirty : List Int
  frame_ref : List Int
  frame_last : List Nat
  next_free_idx : Nat
  fifo_hand : Nat
  clock_hand : Nat
  tnow : Nat
  rng : Nat
deriving DecidableEq, Repr

/-- The function `createMMU` (lines 59-85), called by `main` with the global
`numFrames` as argument; allocation is assumed to succeed. -/
def createMMU (G : LibcRand) (frames : Nat) : MMU :=
  { numFrames := frames
    frame_page := List.replicate frames (-1)
    frame_dirty := List.replicate frames 0
    frame_ref := List.replicate frames 0
    frame_last := List.replicate frames 0
    next_free_idx := 0
    fifo_hand := 0
    clock_hand := 0
    tnow := 0
    rng := G.srand 0xC0FFEE }

/-- The hit branch of `checkInMemory` (lines 94-95) at frame `i`. -/
def touch (s : MMU) (i : Nat) : MMU :=
  { s with
    tnow := (s.tnow + 1) % ULL
    frame_last := s.frame_last.set i ((s.tnow + 1) % ULL)
    frame_ref := s.frame_ref.set i 1 }

/-- The `for` loop of `checkInMemory` (lines 91-99): `k` iterations are left
and the loop variable is `i`. -/
def checkInMemory_loop (s : MMU) (page_number : Int) : Nat → Nat → Int × MMU
  | 0, _ => (-1, s)
  | k + 1, i =>
    if s.frame_page.getD i 0 = page_number then ((i : Int), touch s i)
    else checkInMemory_loop s page_number k (i + 1)

/-- The function `checkInMemory` (lines 89-100). -/
def checkInMemory (s : MMU) (page_number : Int) : Int × MMU :=
  checkInMemory_loop s page_number s.numFrames 0

/-- The `for` loop of `allocateFrame` (lines 107-111): `r` iterations are left
and the loop variable is `k`; the result is the final value of `i`. -/
def allocateFrame_scan (s : MMU) : Nat → Nat → Int
  | 0, _ => -1
  | r + 1, k =>
    if s.frame_page.getD ((s.next_free_idx + k) % s.numFrames) 0 = -1 then
      (((s.next_free_idx + k) % s.numFrames : Nat) : Int)
    else allocateFrame_scan s r (k + 1)

/-- The four stores that install a page in frame `i` (lines 117-120 and
191-194). -/
def install (s : MMU) (i : Nat) (page_number : Int) : MMU :=
  { s with
    frame_page := s.frame_page.set i page_number
    frame_dirty := s.frame_dirty.set i 0
    frame_ref := s.frame_ref.set i 1
    tnow := (s.tnow + 1) % ULL
    frame_last := s.frame_last.set i ((s.tnow + 1) % ULL) }

/-- The function `allocateFrame` (lines 103-124). -/
def allocateFrame (s : MMU) (page_number : Int) : Int × MMU :=
  let i := allocateFrame_scan s s.numFrames 0
  if i = -1 then (-1, s)
  else
    (i, { install s i.toNat page_number with
          next_free_idx := (i.toNat + 1) % s.numFrames })

/-- The function `choose_random_victim` (lines 127-129). -/
def choose_random_victim (G : LibcRand) (s : MMU) : Nat × MMU :=
  ((G.rand s.rng).1 % s.numFrames, { s with rng := (G.rand s.rng).2 })

/-- The `for` loop of `choose_lru_victim` (lines 134-140): `r` iterations are
left, the loop variable is `i`, and `best`, `victim` are the locals. -/
def choose_lru_loop (s : MMU) : Nat → Nat → Nat → Nat → Nat
  | 0, _, _, victim => victim
  | r + 1, i, best, victim =>
    if s.frame_last.getD i 0 < best then
      choose_lru_loop s r (i + 1) (s.frame_last.getD i 0) i
    else choose_lru_loop s r (i + 1) best victim

/-- The function `choose_lru_victim` (lines 131-142). -/
def choose_lru_victim (s : MMU) : Nat × MMU :=
  (choose_lru_loop s s.numFrames 0 (ULL - 1) 0, s)

/-- The function `choose_fifo_victim` (lines 144-149). -/
def choose_fifo_victim (s : MMU) : Nat × MMU :=
  (s.fifo_hand, { s with fifo_hand := (s.fifo_hand + 1) % s.numFrames })

/-- The `while (1)` loop of `choose_clock_victim` (lines 152-161) run for at
most `fuel` iterations: the victim and the new state, or `none` when the loop
has not returned within `fuel` iterations. -/
def choose_clock_loop : Nat → MMU → Option (Nat × MMU)
  | 0, _ => none
  | fuel + 1, s =>
    if s.frame_ref.getD s.clock_hand 0 = 0 then
      some (s.clock_hand, { s with clock_hand := (s.clock_hand + 1) % s.numFrames })
    else
      choose_clock_loop fuel
        { s with
          frame_ref := s.frame_ref.set s.clock_hand 0
          clock_hand := (s.clock_hand + 1) % s.numFrames }

/-- The number of iterations of the `while (1)` loop of `choose_clock_victim`
that the run with `fuel` iterations allowed has started (the iteration that
returns is counted). -/
def choose_clock_iters : Nat → MMU → Nat
  | 0, _ => 0
  | fuel + 1, s =>
    if s.frame_ref.getD s.clock_hand 0 = 0 then 1
    else
      1 + choose_clock_iters fuel
        { s with
          frame_ref := s.frame_ref.set s.clock_hand 0
          clock_hand := (s.clock_hand + 1) % s.numFrames }

/-- The function `choose_clock_victim` (lines 151-162), with `2 * numFrames`
iterations allowed. -/
def choose_clock_victim (s : MMU) : Option (Nat × MMU) :=
  choose_clock_loop (2 * s.numFrames) s

/-- The `switch` of `selectVictim` (lines 170-176). -/
def choose_victim (G : LibcRand) (s : MMU) : repl → Option (Nat × MMU)
  | repl.random => some (choose_random_victim G s)
  | repl.fifo => some (choose_fifo_victim s)
  | repl.lru => some (choose_lru_victim s)
  | repl.clock => choose_clock_victim s

/-- Lines 178-196 of `selectVictim`: capture the victim of frame `f`, then
install the new page there. -/
def evict_and_load (s : MMU) (f : Nat) (page_number : Int) : page × MMU :=
  ({ pageNo := s.frame_page.getD f 0, modified := s.frame_dirty.getD f 0 },
   install s f page_number)

/-- The function `selectVictim` (lines 166-197); `none` only when the CLOCK
loop has not returned. -/
def selectVictim (G : LibcRand) (s : MMU) (page_number : Int) (mode : repl) :
    Option (page × MMU) :=
  match choose_victim G s mode with
  | none => none
  | some (f, s1) => some (evict_and_load s1 f page_number)

/-- The local variables of `main` that live across loop iterations, and the
MMU state. -/
structure Driver where
  mmu : MMU
  allocated : Nat
  no_events : Nat
  disk_reads : Nat
  disk_writes : Nat
deriving DecidableEq, Repr

/-- The values of `page_number`, `frame_no` and `Pvictim` at line 283 of an
iteration; `fault` tells whether the first lookup missed and `victim` is
`Pvictim` when `selectVictim` was called in this iteration. -/
structure Access where
  page_number : Int
  frame_no : Int
  fault : Bool
  victim : Option page
deriving DecidableEq, Repr

/-- The state of `main` at line 259, before the first event is read. -/
def Driver.init (G : LibcRand) (frames : Nat) : Driver :=
  { mmu := createMMU G frames, allocated := 0, no_events := 0,
    disk_reads := 0, disk_writes := 0 }

/-- Line 263: the page number of an address read with `%x` into an
`unsigned`. -/
def pageOf (address : Nat) : Int := ((address % 2 ^ 32 / 2 ^ 12 : Nat) : Int)

/-- Lines 264-283 of `main`: the lookup and the handling of a miss. -/
def access (G : LibcRand) (replace : repl) (d : Driver) (page_number : Int) :
    Option (Access × Driver) :=
  let r := checkInMemory d.mmu page_number
  if r.1 = -1 then
    if d.allocated < r.2.numFrames then
      let a := allocateFrame r.2 page_number
      some ({ page_number := page_number, frame_no := a.1, fault := true, victim := none },
            { d with mmu := a.2, disk_reads := d.disk_reads + 1,
                     allocated := d.allocated + 1 })
    else
      match selectVictim G r.2 page_number replace with
      | none => none
      | some (Pvictim, s1) =>
        let c := checkInMemory s1 page_number
        some ({ page_number := page_number, frame_no := c.1, fault := true,
                victim := some Pvictim },
              { d with mmu := c.2, disk_reads := d.disk_reads + 1,
                       disk_writes :=
                         if Pvictim.modified ≠ 0 then d.disk_writes + 1
                         else d.disk_writes })
  else
    some ({ page_number := page_number, frame_no := r.1, fault := false, victim := none },
          { d with mmu := r.2 })

/-- Lines 285-299 of `main`: the read/write handling; `none` is the
`exit (-1)` of a badly formatted line. -/
def mark (d : Driver) (frame_no : Int) (rw : Char) : Option Driver :=
  if rw = 'R' ∨ rw = 'r' then some { d with no_events := d.no_events + 1 }
  else if rw = 'W' ∨ rw = 'w' then
    some { d with
           mmu := if 0 ≤ frame_no then
                    { d.mmu with frame_dirty := d.mmu.frame_dirty.set frame_no.toNat 1 }
                  else d.mmu
           no_events := d.no_events + 1 }
  else none

/-- One iteration of the `while` loop of `main` (lines 263-299) on the event
with page number `e.1` and access letter `e.2`. -/
def loop_body (G : LibcRand) (replace : repl) (d : Driver) (e : Int × Char) :
    Option (Access × Driver) :=
  match access G replace d e.1 with
  | none => none
  | some (a, d1) =>
    match mark d1 a.frame_no e.2 with
    | none => none
    | some d2 => some (a, d2)

/-- The `while` loop of `main` (lines 261-301) from state `d` over the events
`es`: the per-iteration records and the final state, or `none` when an
iteration does not complete. -/
def runLog (G : LibcRand) (replace : repl) : Driver → List (Int × Char) →
    Option (List Access × Driver)
  | d, [] => some ([], d)
  | d, e :: es =>
    match loop_body G replace d e with
    | none => none
    | some (a, d1) =>
      match runLog G replace d1 es with
      | none => none
      | some (as, d2) => some (a :: as, d2)

/-- The events of a trace of `(address, letter)` lines, as read by lines 260,
263 and 300. -/
def events (trace : List (Nat × Char)) : List (Int × Char) :=
  trace.map (fun l => (pageOf l.1, l.2))

/-- The run of `main` with `numFrames = frames` and policy `replace` over the
events `es`. -/
def run (G : LibcRand) (replace : repl) (frames : Nat) (es : List (Int × Char)) :
    Option (List Access × Driver) :=
  runLog G replace (Driver.init G frames) es

/-- A generator whose `rand` returns the successive values of a counter; used
in concrete runs. -/
def counterRand : LibcRand :=
  { srand := fun _ => 0, rand := fun st => (st, st + 1) }


/-- The states whose four arrays have `numFrames` cells (as allocated by
`createMMU`), with at least one frame, and whose `unsigned long long` cells
hold values below `2 ^ 64`. -/
def MMU.WellFormed (s : MMU) : Prop :=
  1 ≤ s.numFrames ∧ s.frame_page.length = s.numFrames ∧
  s.frame_dirty.length = s.numFrames ∧ s.frame_ref.length = s.numFrames ∧
  s.frame_last.length = s.numFrames ∧ s.tnow < ULL ∧ ∀ x ∈ s.frame_last, x < ULL

instance (s : MMU) : Decidable s.WellFormed := by
  unfold MMU.WellFormed; infer_instance

/-- A three-frame table with pages 7 and 2 resident and frame 2 free. -/
def demoState : MMU :=
  { numFrames := 3, frame_page := [7, 2, -1], frame_dirty := [1, 0, 0],
    frame_ref := [0, 1, 0], frame_last := [3, 5, 0], next_free_idx := 2,
    fifo_hand := 0, clock_hand := 0, tnow := 5, rng := 0 }

/-- A one-frame table holding page 5 whose timestamp is `ULLONG_MAX`. -/
def wrapState : MMU :=
  { numFrames := 1, frame_page := [5], frame_dirty := [0], frame_ref := [1],
    frame_last := [7], next_free_idx := 0, fifo_hand := 0, clock_hand := 0,
    tnow := 18446744073709551615, rng := 0 }

/-- A one-frame table whose only frame is free and whose timestamp is
`ULLONG_MAX`. -/
def wrapFree : MMU :=
  { numFrames := 1, frame_page := [-1], frame_dirty := [0], frame_ref := [0],
    frame_last := [0], next_free_idx := 0, fifo_hand := 0, clock_hand := 0,
    tnow := 18446744073709551615, rng := 0 }

/-- A full two-frame table with both reference bits set and the CLOCK hand
at 0. -/
def clockState : MMU :=
  { numFrames := 2, frame_page := [1, 2], frame_dirty := [0, 0], frame_ref := [1, 1],
    frame_last := [1, 2], next_free_idx := 0, fifo_hand := 0, clock_hand := 0,
    tnow := 2, rng := 0 }

/-- Residency uniqueness: no page number is held by two different frames. -/
def MMU.Unique (s : MMU) : Prop :=
  ∀ i j, i < s.numFrames → j < s.numFrames → i ≠ j →
    s.frame_page.getD i 0 ≠ -1 → s.frame_page.getD i 0 ≠ s.frame_page.getD j 0

/-- The invariant of the driver loop: the table is well formed, both hands
are in range, the first `allocated` frames hold non-negative pages and the
others are free, `next_free_idx` points at the first free frame, and no page
is held twice. -/
def Driver.Inv (d : Driver) : Prop :=
  d.mmu.WellFormed ∧ d.mmu.fifo_hand < d.mmu.numFrames ∧
  d.mmu.clock_hand < d.mmu.numFrames ∧ d.allocated ≤ d.mmu.numFrames ∧
  d.mmu.next_free_idx = d.allocated % d.mmu.numFrames ∧
  (∀ i, i < d.allocated → 0 ≤ d.mmu.frame_page.getD i 0) ∧
  (∀ i, d.allocated ≤ i → i < d.mmu.numFrames → d.mmu.frame_page.getD i 0 = -1) ∧
  d.mmu.Unique

/-- The access letters accepted by lines 285 and 289 of `main`. -/
def validLetter (c : Char) : Prop := c = 'R' ∨ c = 'r' ∨ c = 'W' ∨ c = 'w'

instance (c : Char) : Decidable (validLetter c) := by
  unfold validLetter; infer_instance

/-- The records of the iterations in which the first lookup missed (the page
faults), in trace order. -/
def faults (as : List Access) : List Access := as.filter (fun a => a.fault)

/-- The FIFO bookkeeping after the page faults that loaded the pages `hist`
(in this order): the number of occupied frames, the position of the FIFO hand,
and the page held by the frame of each of the last `numFrames` faults. -/
def Driver.FifoInv (d : Driver) (hist : List Int) : Prop :=
  d.Inv ∧ d.allocated = min hist.length d.mmu.numFrames ∧
  d.mmu.fifo_hand = (hist.length - d.mmu.numFrames) % d.mmu.numFrames ∧
  ∀ i, i < hist.length → hist.length ≤ i + d.mmu.numFrames →
    d.mmu.frame_page.getD (i % d.mmu.numFrames) 0 = hist.getD i 0

/-- A trace of four lines touching pages 1, 2, 1 and 3. -/
def demoTrace : List (Nat × Char) :=
  [(0x1000, 'R'), (0x2000, 'R'), (0x1abc, 'W'), (0x3000, 'w')]

/-- The trace `(0x1000,R), (0x2000,R), (0x3000,W)`. -/
def fifoTrace : List (Nat × Char) := [(0x1000, 'R'), (0x2000, 'R'), (0x3000, 'W')]

/-- The accesses `A, B, C, A, D` with `A = 10`, `B = 11`, `C = 12`, `D = 13`,
all reads. -/
def abcadEvents : List (Int × Char) :=
  [(10, 'R'), (11, 'R'), (12, 'R'), (10, 'R'), (13, 'R')]

/-- The records of the three iterations of the run on `fifoTrace` with two
frames under FIFO. -/
def fifoRecords : List Access :=
  [{ page_number := 1, frame_no := 0, fault := true, victim := none },
   { page_number := 2, frame_no := 1, fault := true, victim := none },
   { page_number := 3, frame_no := 0, fault := true,
     victim := some { pageNo := 1, modified := 0 } }]

/-- The final state of the run on `fifoTrace` with two frames under FIFO. -/
def fifoFinal : Driver :=
  { mmu := { numFrames := 2, frame_page := [3, 2], frame_dirty := [1, 0],
             frame_ref := [1, 1], frame_last := [4, 2], next_free_idx := 0,
             fifo_hand := 1, clock_hand := 0, tnow := 4, rng := 0 }
    allocated := 2, no_events := 3, disk_reads := 3, disk_writes := 0 }

/-- The position (0-based) of the most recent access to page `q` in the list
`ps` of the pages accessed so far (oldest first), or `none` when `q` has not
been accessed. -/
def lastAccess : List Int → Int → Option Nat
  | [], _ => none
  | p :: ps, q =>
    match lastAccess ps q with
    | some i => some (i + 1)
    | none => if p = q then some 0 else none

/-- The LRU bookkeeping after the accesses `hist` (oldest first): every
occupied frame holds a page that has been accessed, the order of the
`frame_last` stamps of occupied frames follows the order of the most recent
accesses to their pages, no stamp exceeds `tnow`, and `tnow` has advanced by
at most two per access. -/
def Driver.LruInv (d : Driver) (hist : List Int) : Prop :=
  d.Inv ∧
  (∀ f, f < d.allocated → ∃ i, lastAccess hist (d.mmu.frame_page.getD f 0) = some i) ∧
  (∀ f g i j, f < d.allocated → g < d.allocated →
    lastAccess hist (d.mmu.frame_page.getD f 0) = some i →
    lastAccess hist (d.mmu.frame_page.getD g 0) = some j → i < j →
    d.mmu.frame_last.getD f 0 < d.mmu.frame_last.getD g 0) ∧
  (∀ f, f < d.allocated → d.mmu.frame_last.getD f 0 ≤ d.mmu.tnow) ∧
  d.mmu.tnow ≤ 2 * hist.length

/-- The accesses `A, B, A` with `A = 10` and `B = 11`, all reads. -/
def abaEvents : List (Int × Char) := [(10, 'R'), (11, 'R'), (10, 'R')]

/-- The records of the run on `abaEvents` with two frames under LRU. -/
def lruRecords : List Access :=
  [{ page_number := 10, frame_no := 0, fault := true, victim := none },
   { page_number := 11, frame_no := 1, fault := true, victim := none },
   { page_number := 10, frame_no := 0, fault := false, victim := none }]

/-- The state after the run on `abaEvents` with two frames under LRU. -/
def lruMid : Driver :=
  { mmu := { numFrames := 2, frame_page := [10, 11], frame_dirty := [0, 0],
             frame_ref := [1, 1], frame_last := [3, 2], next_free_idx := 0,
             fifo_hand := 0, clock_hand := 0, tnow := 3, rng := 0 }
    allocated := 2, no_events := 3, disk_reads := 2, disk_writes := 0 }

/-- The record of the access to `C = 12` from `lruMid`: page `B = 11` is
evicted from frame 1. -/
def lruAccess : Access :=
  { page_number := 12, frame_no := 1, fault := true,
    victim := some { pageNo := 11, modified := 0 } }

/-- The state at line 283 after the access to `C = 12` from `lruMid`. -/
def lruAfter : Driver :=
  { mmu := { numFrames := 2, frame_page := [10, 12], frame_dirty := [0, 0],
             frame_ref := [1, 1], frame_last := [3, 5], next_free_idx := 0,
             fifo_hand := 0, clock_hand := 0, tnow := 5, rng := 0 }
    allocated := 2, no_events := 3, disk_reads := 3, disk_writes := 0 }

/-- The records of the run on `demoTrace` with two frames under the random
policy and the generator `counterRand`. -/
def randRecords : List Access :=
  [{ page_number := 1, frame_no := 0, fault := true, victim := none },
   { page_number := 2, frame_no := 1, fault := true, victim := none },
   { page_number := 1, frame_no := 0, fault := false, victim := none },
   { page_number := 3, frame_no := 0, fault := true,
     victim := some { pageNo := 1, modified := 1 } }]

/-- The final state of the run on `demoTrace` with two frames under the random
policy and the generator `counterRand`. -/
def randFinal : Driver :=
  { mmu := { numFrames := 2, frame_page := [3, 2], frame_dirty := [1, 0],
             frame_ref := [1, 1], frame_last := [5, 2], next_free_idx := 0,
             fifo_hand := 0, clock_hand := 0, tnow := 5, rng := 1 }
    allocated := 2, no_events := 4, disk_reads := 3, disk_writes := 1 }

/-- The fault bookkeeping after `k` page faults: `disk_reads` counts them and
`allocated` is `min k numFrames`. -/
def Driver.CountInv (d : Driver) (k : Nat) : Prop :=
  d.Inv ∧ d.disk_reads = k ∧ d.allocated = min k d.mmu.numFrames

/-- The state after the run on `abaEvents` followed by a read of page 12, with
two frames under LRU. -/
def lruFinal : Driver := { lruAfter with no_events := 4 }

/-- Whether the access letter is a write (`W` or `w`, line 289). -/
def isWrite (c : Char) : Bool := decide (c = 'W' ∨ c = 'w')

/-- The position (0-based) of the most recent page fault on page `q` among the
iteration records `as` (oldest first), that is, of the event that most
recently loaded `q`; `none` when `q` has not been loaded. -/
def lastLoad : List Access → Int → Option Nat
  | [], _ => none
  | a :: as, q =>
    match lastLoad as q with
    | some i => some (i + 1)
    | none => if a.fault = true ∧ a.page_number = q then some 0 else none

/-- The trace `es` contains a write to page `q` at position `l` or later. -/
def writtenSince (es : List (Int × Char)) (q : Int) (l : Nat) : Prop :=
  ∃ i c, l ≤ i ∧ es[i]? = some (q, c) ∧ isWrite c = true

/-- The records of the iterations that evicted a page whose `modified` flag
was set. -/
def dirtyVictims (as : List Access) : List Access :=
  as.filter (fun a =>
    match a.victim with
    | some v => decide (v.modified ≠ 0)
    | none => false)

/-- The dirty-bit bookkeeping after the events `es` with iteration records
`as`: `disk_writes` counts the evictions of dirty pages, and the dirty bit of
each occupied frame is 0 or 1, and 1 exactly when its page has been written at
or after the event that most recently loaded it. -/
def Driver.DirtyInv (d : Driver) (as : List Access) (es : List (Int × Char)) : Prop :=
  d.Inv ∧ as.length = es.length ∧ d.disk_writes = (dirtyVictims as).length ∧
  ∀ f, f < d.allocated →
    (d.mmu.frame_dirty.getD f 0 = 0 ∨ d.mmu.frame_dirty.getD f 0 = 1) ∧
    ∃ l, lastLoad as (d.mmu.frame_page.getD f 0) = some l ∧
      (d.mmu.frame_dirty.getD f 0 = 1 ↔ writtenSince es (d.mmu.frame_page.getD f 0) l)

/-- The events of the first three lines of `demoTrace`. -/
def dirtyTrace : List (Nat × Char) := [(0x1000, 'R'), (0x2000, 'R'), (0x1abc, 'W')]

/-- The records of the run on `dirtyTrace` with two frames under FIFO. -/
def dirtyRecords : List Access :=
  [{ page_number := 1, frame_no := 0, fault := true, victim := none },
   { page_number := 2, frame_no := 1, fault := true, victim := none },
   { page_number := 1, frame_no := 0, fault := false, victim := none }]

/-- The state after the run on `dirtyTrace` with two frames under FIFO: page 1
is dirty. -/
def dirtyMid : Driver :=
  { mmu := { numFrames := 2, frame_page := [1, 2], frame_dirty := [1, 0],
             frame_ref := [1, 1], frame_last := [3, 2], next_free_idx := 0,
             fifo_hand := 0, clock_hand := 0, tnow := 3, rng := 0 }
    allocated := 2, no_events := 3, disk_reads := 2, disk_writes := 0 }

/-- The victim of the access to page 3 from `dirtyMid`: page 1, dirty. -/
def dirtyVictim : page := { pageNo := 1, modified := 1 }

/-- The record of the access to page 3 from `dirtyMid`. -/
def dirtyAccess : Access :=
  { page_number := 3, frame_no := 0, fault := true, victim := some dirtyVictim }

/-- The state at line 283 after the access to page 3 from `dirtyMid`. -/
def dirtyAfter : Driver :=
  { mmu := { numFrames := 2, frame_page := [3, 2], frame_dirty := [0, 0],
             frame_ref := [1, 1], frame_last := [5, 2], next_free_idx := 0,
             fifo_hand := 1, clock_hand := 0, tnow := 5, rng := 0 }
    allocated := 2, no_events := 3, disk_reads := 3, disk_writes := 1 }

/-- A call of one of the three operations of the frame table. -/
inductive Call where
  | check (page_number : Int)
  | alloc (page_number : Int)
  | select (page_number : Int) (mode : repl)
deriving DecidableEq, Repr

/-- The effect of one call: the stamp it has written to `frame_last` (the new
`tnow`, lines 94, 120 and 194), if it has written one, and the new state.
`checkInMemory` and `allocateFrame` write no stamp when they return -1. -/
def Call.step (G : LibcRand) (s : MMU) : Call → Option (Option Nat × MMU)
  | Call.check p =>
    some (if (checkInMemory s p).1 = -1 then none else some (checkInMemory s p).2.tnow,
          (checkInMemory s p).2)
  | Call.alloc p =>
    some (if (allocateFrame s p).1 = -1 then none else some (allocateFrame s p).2.tnow,
          (allocateFrame s p).2)
  | Call.select p mode =>
    match selectVictim G s p mode with
    | none => none
    | some r => some (some r.2.tnow, r.2)

/-- A sequence of calls from state `s`: the stamps written, in order, and the
final state. -/
def runCalls (G : LibcRand) : MMU → List Call → Option (List Nat × MMU)
  | s, [] => some ([], s)
  | s, c :: cs =>
    match Call.step G s c with
    | none => none
    | some (r, s1) =>
      match runCalls G s1 cs with
      | none => none
      | some (st, s2) => some (r.toList ++ st, s2)

/-- The timestamp bookkeeping after `n` stamps: `tnow = n`, no `frame_last`
exceeds `tnow`, the non-zero `frame_last` values are pairwise distinct, and
every occupied frame has a `frame_last` of at least 1. -/
def MMU.StampInv (s : MMU) (n : Nat) : Prop :=
  s.WellFormed ∧ s.fifo_hand < s.numFrames ∧ s.clock_hand < s.numFrames ∧ s.tnow = n ∧
  (∀ i, i < s.numFrames → s.frame_last.getD i 0 ≤ n) ∧
  (∀ i j, i < s.numFrames → j < s.numFrames → i ≠ j → s.frame_last.getD i 0 ≠ 0 →
    s.frame_last.getD i 0 ≠ s.frame_last.getD j 0) ∧
  (∀ i, i < s.numFrames → s.frame_page.getD i 0 ≠ -1 → 1 ≤ s.frame_last.getD i 0)

/-- The calls `allocateFrame(5)`, `checkInMemory(5)`, `checkInMemory(9)`,
`selectVictim(6, fifo)`. -/
def stampCalls : List Call :=
  [Call.alloc 5, Call.check 5, Call.check 9, Call.select 6 repl.fifo]

/-- The state after `stampCalls` from `createMMU` with two frames. -/
def stampFinal : MMU :=
  { numFrames := 2, frame_page := [6, -1], frame_dirty := [0, 0], frame_ref := [1, 0],
    frame_last := [3, 0], next_free_idx := 1, fifo_hand := 1, clock_hand := 0,
    tnow := 3, rng := 0 }

/-- The state of the generator `G` after `createMMU` has seeded it with
`0xC0FFEE` and `rand()` has been called `k` times. -/
def drawState (G : LibcRand) : Nat → Nat
  | 0 => G.srand 0xC0FFEE
  | k + 1 => (G.rand (drawState G k)).2

/-- The value returned by the `k`-th call of `rand()` (counting from 0) after
`createMMU` has seeded the generator `G` with `0xC0FFEE`. -/
def drawValue (G : LibcRand) (k : Nat) : Nat := (G.rand (drawState G k)).1

/-- The state `d` with the generator state replaced by `r`. -/
def Driver.withRng (d : Driver) (r : Nat) : Driver :=
  { d with mmu := { d.mmu with rng := r } }

/-- A generator with the same output stream as `counterRand` and another
representation of its state. -/
def offsetRand : LibcRand :=
  { srand := fun _ => 5, rand := fun st => (st - 5, st + 1) }

/-- The frame indices of the evictions of a run, in order: the `frame_no` of
the iterations in which `selectVictim` was called. -/
def evictFrames (as : List Access) : List Int :=
  (as.filter (fun a => a.victim.isSome)).map (fun a => a.frame_no)

/-- The frame index of the most recent eviction, given the one before the
evictions `l` (if any) and the evictions `l`. -/
def lastEvict : Option Int → List Int → Option Int
  | last, [] => last
  | _, f :: l => lastEvict (some f) l

/-- The CLOCK bookkeeping when the most recent eviction (if any) was at frame
`last`: the hand is one past that frame and its reference bit is set. -/
def Driver.ClockInv (d : Driver) (last : Option Int) : Prop :=
  d.Inv ∧ ∀ w, last = some w →
    ∃ v : Nat, w = (v : Int) ∧ v < d.mmu.numFrames ∧
      d.mmu.clock_hand = (v + 1) % d.mmu.numFrames ∧ d.mmu.frame_ref.getD v 0 ≠ 0

/-- The events `1, 2, 3, 2, 4`, all reads. -/
def clockEvents : List (Int × Char) :=
  [(1, 'R'), (2, 'R'), (3, 'R'), (2, 'R'), (4, 'R')]

/-- The records of the run on `clockEvents` with two frames under CLOCK. -/
def clockRecords : List Access :=
  [{ page_number := 1, frame_no := 0, fault := true, victim := none },
   { page_number := 2, frame_no := 1, fault := true, victim := none },
   { page_number := 3, frame_no := 0, fault := true,
     victim := some { pageNo := 1, modified := 0 } },
   { page_number := 2, frame_no := 1, fault := false, victim := none },
   { page_number := 4, frame_no := 1, fault := true,
     victim := some { pageNo := 2, modified := 0 } }]

/-- The final state of the run on `clockEvents` with two frames under
CLOCK. -/
def clockFinal : Driver :=
  { mmu := { numFrames := 2, frame_page := [3, 4], frame_dirty := [0, 0],
             frame_ref := [0, 1], frame_last := [4, 7], next_free_idx := 0,
             fifo_hand := 0, clock_hand := 0, tnow := 7, rng := 0 }
    allocated := 2, no_events := 5, disk_reads := 4, disk_writes := 0 }

/-- The bookkeeping of the pages seen, after the accesses `hist`: every
resident page has been accessed, and at least one page fault has been counted
for each distinct page. -/
def Driver.SeenInv (d : Driver) (hist : List Int) : Prop :=
  d.Inv ∧ (∀ f, f < d.allocated → d.mmu.frame_page.getD f 0 ∈ hist) ∧
  hist.dedup.length ≤ d.disk_reads

/-- The state of a run that has not evicted yet, after the accesses `hist`:
the resident pages are exactly the pages accessed, one frame and one disk read
per distinct page, and no disk write. -/
def Driver.FillInv (d : Driver) (hist : List Int) : Prop :=
  d.Inv ∧ d.disk_reads = hist.dedup.length ∧ d.allocated = hist.dedup.length ∧
  d.disk_writes = 0 ∧
  ∀ q, q ∈ hist ↔ ∃ f, f < d.allocated ∧ d.mmu.frame_page.getD f 0 = q

/-- The final state of the run on `abaEvents` with three frames under
CLOCK. -/
def fillFinal : Driver :=
  { mmu := { numFrames := 3, frame_page := [10, 11, -1], frame_dirty := [0, 0, 0],
             frame_ref := [1, 1, 0], frame_last := [3, 2, 0], next_free_idx := 2,
             fifo_hand := 0, clock_hand := 0, tnow := 3, rng := 0 }
    allocated := 2, no_events := 3, disk_reads := 2, disk_writes := 0 }

/-! ## Theorems -/

/-! ### Array cells -/

theorem getD_set {α : Type} (l : List α) (i j : Nat) (a d : α) :
    (l.set i a).getD j d = if i = j ∧ i < l.length then a else l.getD j d := by
  simp only [List.getD_eq_getElem?_getD, List.getElem?_set]
  by_cases h : i = j
  · subst h
    by_cases h2 : i < l.length
    · simp [h2]
    · simp [h2, List.getElem?_eq_none (Nat.le_of_not_lt h2)]
  · simp [h]

theorem getD_set_self {α : Type} (l : List α) (i : Nat) (a d : α) (h : i < l.length) :
    (l.set i a).getD i d = a := by
  rw [getD_set]; simp [h]

theorem getD_set_ne {α : Type} (l : List α) (i j : Nat) (a d : α) (h : i ≠ j) :
    (l.set i a).getD j d = l.getD j d := by
  rw [getD_set]; simp [h]

theorem exists_least (P : Nat → Prop) (n : Nat) (h : ∃ i, i < n ∧ P i) :
    ∃ i, i < n ∧ P i ∧ ∀ j, j < i → ¬ P j := by
  classical
  obtain ⟨i, hi, hp⟩ := h
  refine ⟨Nat.find (⟨i, hp⟩ : ∃ i, P i), ?_, Nat.find_spec _, fun j hj => Nat.find_min _ hj⟩
  exact lt_of_le_of_lt (Nat.find_min' _ hp) hi

/-! ### `checkInMemory` -/

theorem checkInMemory_loop_miss (s : MMU) (p : Int) :
    ∀ k i, (∀ j, i ≤ j → j < i + k → s.frame_page.getD j 0 ≠ p) →
      checkInMemory_loop s p k i = (-1, s) := by
  intro k
  induction k with
  | zero => intro i _; rfl
  | succ k ih =>
    intro i h
    have h0 : s.frame_page.getD i 0 ≠ p := h i (le_refl _) (by omega)
    simp only [checkInMemory_loop, if_neg h0]
    exact ih (i + 1) (fun j h1 h2 => h j (by omega) (by omega))

theorem checkInMemory_loop_hit (s : MMU) (p : Int) (i0 : Nat)
    (hp : s.frame_page.getD i0 0 = p) :
    ∀ k i, i ≤ i0 → i0 < i + k → (∀ j, i ≤ j → j < i0 → s.frame_page.getD j 0 ≠ p) →
      checkInMemory_loop s p k i = ((i0 : Int), touch s i0) := by
  intro k
  induction k with
  | zero => intro i h1 h2; omega
  | succ k ih =>
    intro i h1 h2 h3
    by_cases hi : i = i0
    · subst hi
      simp only [checkInMemory_loop, if_pos hp]
    · have h0 : s.frame_page.getD i 0 ≠ p := h3 i (le_refl _) (by omega)
      simp only [checkInMemory_loop, if_neg h0]
      exact ih (i + 1) (by omega) (by omega) (fun j h4 h5 => h3 j (by omega) h5)

theorem checkInMemory_miss (s : MMU) (p : Int)
    (h : ∀ i, i < s.numFrames → s.frame_page.getD i 0 ≠ p) :
    checkInMemory s p = (-1, s) :=
  checkInMemory_loop_miss s p s.numFrames 0 (fun j _ h2 => h j (by omega))

theorem checkInMemory_hit (s : MMU) (p : Int) (i : Nat) (hi : i < s.numFrames)
    (hp : s.frame_page.getD i 0 = p) (hmin : ∀ j, j < i → s.frame_page.getD j 0 ≠ p) :
    checkInMemory s p = ((i : Int), touch s i) :=
  checkInMemory_loop_hit s p i hp s.numFrames 0 (Nat.zero_le _) (by omega)
    (fun j _ h2 => hmin j h2)

/-- C2 (as stated, refuted): on the one-frame table `wrapState`, whose frame 0
holds page 5 and whose `tnow` is `ULLONG_MAX`, `checkInMemory` hits frame 0 and
leaves `tnow = 0`, which is not the old `tnow` plus 1. -/
theorem checkInMemory_tnow_wraps :
    wrapState.WellFormed ∧ wrapState.frame_page.getD 0 0 = 5 ∧
    (checkInMemory wrapState 5).1 = 0 ∧
    (checkInMemory wrapState 5).2.tnow = 0 ∧
    (checkInMemory wrapState 5).2.tnow ≠ wrapState.tnow + 1 := by
  decide

/-- C2 (amended): lookup contract of `checkInMemory`.  If some frame holds `p`,
the call returns the lowest index `i` with `frame_page[i] = p`, sets `tnow` to
`(tnow + 1) mod 2 ^ 64` (so it increases `tnow` by exactly 1 unless `tnow` is
`ULLONG_MAX`), stores the new `tnow` in `frame_last[i]` and 1 in `frame_ref[i]`
and changes nothing else.  If no frame holds `p`, it returns -1 and the whole
state is unchanged. -/
theorem checkInMemory_contract (s : MMU) (p : Int) (hwf : s.WellFormed) :
    ((∃ i, i < s.numFrames ∧ s.frame_page.getD i 0 = p) →
      ∃ i, i < s.numFrames ∧ s.frame_page.getD i 0 = p ∧
        (∀ j, j < i → s.frame_page.getD j 0 ≠ p) ∧
        (checkInMemory s p).1 = (i : Int) ∧
        (checkInMemory s p).2 =
          { s with tnow := (s.tnow + 1) % ULL
                   frame_last := s.frame_last.set i ((s.tnow + 1) % ULL)
                   frame_ref := s.frame_ref.set i 1 } ∧
        (s.tnow + 1 < ULL → (checkInMemory s p).2.tnow = s.tnow + 1) ∧
        (checkInMemory s p).2.frame_last.getD i 0 = (checkInMemory s p).2.tnow ∧
        (checkInMemory s p).2.frame_ref.getD i 0 = 1 ∧
        (∀ j, j ≠ i →
          (checkInMemory s p).2.frame_last.getD j 0 = s.frame_last.getD j 0 ∧
          (checkInMemory s p).2.frame_ref.getD j 0 = s.frame_ref.getD j 0)) ∧
    ((¬ ∃ i, i < s.numFrames ∧ s.frame_page.getD i 0 = p) →
      checkInMemory s p = (-1, s)) := by
  obtain ⟨_, _, _, hr, hl, _, _⟩ := hwf
  constructor
  · intro h
    obtain ⟨i, hi, hp, hmin⟩ := exists_least (fun i => s.frame_page.getD i 0 = p) _ h
    refine ⟨i, hi, hp, hmin, ?_⟩
    rw [checkInMemory_hit s p i hi hp hmin]
    refine ⟨rfl, rfl, ?_, ?_, ?_, ?_⟩
    · intro h; exact Nat.mod_eq_of_lt h
    · exact getD_set_self _ _ _ _ (by omega)
    · exact getD_set_self _ _ _ _ (by omega)
    · intro j hj
      exact ⟨getD_set_ne _ _ _ _ _ (Ne.symm hj), getD_set_ne _ _ _ _ _ (Ne.symm hj)⟩
  · intro h
    exact checkInMemory_miss s p (fun i hi hp => h ⟨i, hi, hp⟩)

/-- Witness of C2 on `demoState`: page 2 is resident (in frame 1) and page 9 is
not. -/
theorem checkInMemory_contract_witness :
    demoState.WellFormed ∧
    (∃ i, i < demoState.numFrames ∧ demoState.frame_page.getD i 0 = 2) ∧
    (¬ ∃ i, i < demoState.numFrames ∧ demoState.frame_page.getD i 0 = 9) ∧
    (∃ i, i < demoState.numFrames ∧ demoState.frame_page.getD i 0 = 2 ∧
        (∀ j, j < i → demoState.frame_page.getD j 0 ≠ 2) ∧
        (checkInMemory demoState 2).1 = (i : Int) ∧
        (checkInMemory demoState 2).2 =
          { demoState with tnow := (demoState.tnow + 1) % ULL
                           frame_last := demoState.frame_last.set i ((demoState.tnow + 1) % ULL)
                           frame_ref := demoState.frame_ref.set i 1 } ∧
        (demoState.tnow + 1 < ULL → (checkInMemory demoState 2).2.tnow = demoState.tnow + 1) ∧
        (checkInMemory demoState 2).2.frame_last.getD i 0 = (checkInMemory demoState 2).2.tnow ∧
        (checkInMemory demoState 2).2.frame_ref.getD i 0 = 1 ∧
        (∀ j, j ≠ i →
          (checkInMemory demoState 2).2.frame_last.getD j 0 = demoState.frame_last.getD j 0 ∧
          (checkInMemory demoState 2).2.frame_ref.getD j 0 = demoState.frame_ref.getD j 0)) ∧
    checkInMemory demoState 9 = (-1, demoState) :=
  ⟨by decide, ⟨1, by decide, by decide⟩, by decide,
   (checkInMemory_contract demoState 2 (by decide)).1 ⟨1, by decide, by decide⟩,
   (checkInMemory_contract demoState 9 (by decide)).2 (by decide)⟩

/-! ### `allocateFrame` -/

theorem install_getD (s : MMU) (i : Nat) (p : Int) (hwf : s.WellFormed)
    (hi : i < s.numFrames) :
    (install s i p).frame_page.getD i 0 = p ∧
    (install s i p).frame_dirty.getD i 0 = 0 ∧
    (install s i p).frame_ref.getD i 0 = 1 ∧
    (install s i p).frame_last.getD i 0 = (s.tnow + 1) % ULL ∧
    ∀ j, j ≠ i →
      (install s i p).frame_page.getD j 0 = s.frame_page.getD j 0 ∧
      (install s i p).frame_dirty.getD j 0 = s.frame_dirty.getD j 0 ∧
      (install s i p).frame_ref.getD j 0 = s.frame_ref.getD j 0 ∧
      (install s i p).frame_last.getD j 0 = s.frame_last.getD j 0 := by
  obtain ⟨_, hp, hd, hr, hl, _, _⟩ := hwf
  refine ⟨getD_set_self _ _ _ _ (by omega), getD_set_self _ _ _ _ (by omega),
    getD_set_self _ _ _ _ (by omega), getD_set_self _ _ _ _ (by omega), ?_⟩
  intro j hj
  exact ⟨getD_set_ne _ _ _ _ _ (Ne.symm hj), getD_set_ne _ _ _ _ _ (Ne.symm hj),
    getD_set_ne _ _ _ _ _ (Ne.symm hj), getD_set_ne _ _ _ _ _ (Ne.symm hj)⟩

theorem cyclic_cover (a n i : Nat) (hi : i < n) : ∃ m, m < n ∧ (a + m) % n = i := by
  have hn : 0 < n := by omega
  have hc : a % n < n := Nat.mod_lt _ hn
  refine ⟨(i + n - a % n) % n, Nat.mod_lt _ hn, ?_⟩
  calc (a + (i + n - a % n) % n) % n
      = (a % n + (i + n - a % n)) % n := by
        rw [Nat.add_mod, Nat.mod_mod]
        conv_rhs => rw [Nat.add_mod, Nat.mod_mod]
    _ = (i + n) % n := by congr 1; omega
    _ = i := by rw [Nat.add_mod_right, Nat.mod_eq_of_lt hi]

theorem allocateFrame_scan_none (s : MMU) :
    ∀ r k, (∀ m, k ≤ m → m < k + r →
        s.frame_page.getD ((s.next_free_idx + m) % s.numFrames) 0 ≠ -1) →
      allocateFrame_scan s r k = -1 := by
  intro r
  induction r with
  | zero => intro k _; rfl
  | succ r ih =>
    intro k h
    have h0 := h k (le_refl _) (by omega)
    simp only [allocateFrame_scan, if_neg h0]
    exact ih (k + 1) (fun m h1 h2 => h m (by omega) (by omega))

theorem allocateFrame_scan_hit (s : MMU) (m0 : Nat)
    (hp : s.frame_page.getD ((s.next_free_idx + m0) % s.numFrames) 0 = -1) :
    ∀ r k, k ≤ m0 → m0 < k + r →
      (∀ m, k ≤ m → m < m0 →
        s.frame_page.getD ((s.next_free_idx + m) % s.numFrames) 0 ≠ -1) →
      allocateFrame_scan s r k = (((s.next_free_idx + m0) % s.numFrames : Nat) : Int) := by
  intro r
  induction r with
  | zero => intro k h1 h2; omega
  | succ r ih =>
    intro k h1 h2 h3
    by_cases hk : k = m0
    · subst hk
      simp only [allocateFrame_scan, if_pos hp]
    · have h0 := h3 k (le_refl _) (by omega)
      simp only [allocateFrame_scan, if_neg h0]
      exact ih (k + 1) (by omega) (by omega) (fun m h4 h5 => h3 m (by omega) h5)

theorem allocateFrame_full (s : MMU) (p : Int)
    (h : ∀ i, i < s.numFrames → s.frame_page.getD i 0 ≠ -1) :
    allocateFrame s p = (-1, s) := by
  have hs : allocateFrame_scan s s.numFrames 0 = -1 := by
    apply allocateFrame_scan_none
    intro m _ hm
    exact h _ (Nat.mod_lt _ (by omega))
  simp [allocateFrame, hs]

theorem allocateFrame_free (s : MMU) (p : Int)
    (h : ∃ i, i < s.numFrames ∧ s.frame_page.getD i 0 = -1) :
    ∃ k, k < s.numFrames ∧
      s.frame_page.getD ((s.next_free_idx + k) % s.numFrames) 0 = -1 ∧
      (∀ m, m < k → s.frame_page.getD ((s.next_free_idx + m) % s.numFrames) 0 ≠ -1) ∧
      allocateFrame s p =
        ((((s.next_free_idx + k) % s.numFrames : Nat) : Int),
          { install s ((s.next_free_idx + k) % s.numFrames) p with
            next_free_idx := ((s.next_free_idx + k) % s.numFrames + 1) % s.numFrames }) := by
  obtain ⟨i, hi, hp⟩ := h
  obtain ⟨m, hm, hmi⟩ := cyclic_cover s.next_free_idx s.numFrames i hi
  obtain ⟨k, hk, hkp, hmin⟩ := exists_least
    (fun m => s.frame_page.getD ((s.next_free_idx + m) % s.numFrames) 0 = -1) s.numFrames
    ⟨m, hm, by simpa [hmi] using hp⟩
  refine ⟨k, hk, hkp, hmin, ?_⟩
  have hs := allocateFrame_scan_hit s k hkp s.numFrames 0 (Nat.zero_le _) (by omega)
    (fun m _ h2 => hmin m h2)
  have hne : (((s.next_free_idx + k) % s.numFrames : Nat) : Int) ≠ -1 := by omega
  simp only [allocateFrame, hs, if_neg hne, Int.toNat_ofNat]

/-- C4 (as stated, refuted): on the one-frame table `wrapFree`, whose only
frame is free and whose `tnow` is `ULLONG_MAX`, `allocateFrame` installs the
page in frame 0 with `frame_last[0] = 0`, which is not the old `tnow` plus 1. -/
theorem allocateFrame_stamp_wraps :
    wrapFree.WellFormed ∧ wrapFree.next_free_idx < wrapFree.numFrames ∧
    wrapFree.frame_page.getD 0 0 = -1 ∧
    (allocateFrame wrapFree 5).1 = 0 ∧
    (allocateFrame wrapFree 5).2.frame_last.getD 0 0 = 0 ∧
    (allocateFrame wrapFree 5).2.frame_last.getD 0 0 ≠ wrapFree.tnow + 1 := by
  decide

/-- C4 (amended): allocation contract of `allocateFrame`.  When at least one
frame is free, the call returns the first free index `i` met when scanning
`next_free_idx`, `next_free_idx + 1`, ... cyclically modulo `numFrames`;
afterwards frame `i` holds the page with dirty = 0, referenced = 1 and
last_used = `(old tnow + 1) mod 2 ^ 64` (which is `old tnow + 1` unless `tnow`
was `ULLONG_MAX`), `tnow` is that stamp, `next_free_idx = (i + 1) mod
numFrames`, and every other frame is unchanged. -/
theorem allocateFrame_contract (s : MMU) (p : Int) (hwf : s.WellFormed)
    (hfree : ∃ i, i < s.numFrames ∧ s.frame_page.getD i 0 = -1) :
    ∃ k i, k < s.numFrames ∧ i = (s.next_free_idx + k) % s.numFrames ∧
      i < s.numFrames ∧ s.frame_page.getD i 0 = -1 ∧
      (∀ m, m < k → s.frame_page.getD ((s.next_free_idx + m) % s.numFrames) 0 ≠ -1) ∧
      (allocateFrame s p).1 = (i : Int) ∧
      (allocateFrame s p).2 =
        { s with frame_page := s.frame_page.set i p
                 frame_dirty := s.frame_dirty.set i 0
                 frame_ref := s.frame_ref.set i 1
                 tnow := (s.tnow + 1) % ULL
                 frame_last := s.frame_last.set i ((s.tnow + 1) % ULL)
                 next_free_idx := (i + 1) % s.numFrames } ∧
      (allocateFrame s p).2.frame_page.getD i 0 = p ∧
      (allocateFrame s p).2.frame_dirty.getD i 0 = 0 ∧
      (allocateFrame s p).2.frame_ref.getD i 0 = 1 ∧
      (allocateFrame s p).2.frame_last.getD i 0 = (s.tnow + 1) % ULL ∧
      (s.tnow + 1 < ULL → (allocateFrame s p).2.frame_last.getD i 0 = s.tnow + 1) ∧
      (allocateFrame s p).2.next_free_idx = (i + 1) % s.numFrames ∧
      (∀ j, j ≠ i →
        (allocateFrame s p).2.frame_page.getD j 0 = s.frame_page.getD j 0 ∧
        (allocateFrame s p).2.frame_dirty.getD j 0 = s.frame_dirty.getD j 0 ∧
        (allocateFrame s p).2.frame_ref.getD j 0 = s.frame_ref.getD j 0 ∧
        (allocateFrame s p).2.frame_last.getD j 0 = s.frame_last.getD j 0) := by
  obtain ⟨k, hk, hkp, hmin, heq⟩ := allocateFrame_free s p hfree
  have hi : (s.next_free_idx + k) % s.numFrames < s.numFrames := Nat.mod_lt _ (by omega)
  obtain ⟨h1, h2, h3, h4, h5⟩ :=
    install_getD s ((s.next_free_idx + k) % s.numFrames) p hwf hi
  refine ⟨k, _, hk, rfl, hi, hkp, hmin, ?_⟩
  rw [heq]
  refine ⟨rfl, rfl, h1, h2, h3, h4, ?_, rfl, h5⟩
  intro h
  rw [← Nat.mod_eq_of_lt h]
  exact h4

/-- Witness of C4 on `demoState`, whose frame 2 is free. -/
theorem allocateFrame_contract_witness :
    demoState.WellFormed ∧
    (∃ i, i < demoState.numFrames ∧ demoState.frame_page.getD i 0 = -1) ∧
    (allocateFrame demoState 9).1 = 2 ∧
    (allocateFrame demoState 9).2.frame_page = [7, 2, 9] ∧
    (allocateFrame demoState 9).2.next_free_idx = 0 ∧
    ∃ k i, k < demoState.numFrames ∧
      i = (demoState.next_free_idx + k) % demoState.numFrames ∧
      (allocateFrame demoState 9).1 = (i : Int) := by
  refine ⟨by decide, ⟨2, by decide, by decide⟩, by decide, by decide, by decide, ?_⟩
  obtain ⟨k, i, hk, hi, _, _, _, h1, _⟩ :=
    allocateFrame_contract demoState 9 (by decide) ⟨2, by decide, by decide⟩
  exact ⟨k, i, hk, hi, h1⟩

/-- C5: `allocateFrame` returns -1 if and only if no frame is free, and in that
case the whole state is left unchanged. -/
theorem allocateFrame_fails_iff (s : MMU) (p : Int) :
    ((allocateFrame s p).1 = -1 ↔ ∀ i, i < s.numFrames → s.frame_page.getD i 0 ≠ -1) ∧
    ((allocateFrame s p).1 = -1 → (allocateFrame s p).2 = s) := by
  have key : (allocateFrame s p).1 = -1 →
      ∀ i, i < s.numFrames → s.frame_page.getD i 0 ≠ -1 := by
    intro h i hi hp
    obtain ⟨k, _, _, _, heq⟩ := allocateFrame_free s p ⟨i, hi, hp⟩
    rw [heq] at h
    simp only at h
    omega
  refine ⟨⟨key, fun h => by rw [allocateFrame_full s p h]⟩, fun h => ?_⟩
  rw [allocateFrame_full s p (key h)]

/-! ### `choose_lru_victim` -/

theorem getD_mem_of_lt {α : Type} (l : List α) (i : Nat) (d : α) (h : i < l.length) :
    l.getD i d ∈ l := by
  rw [List.getD_eq_getElem _ _ h]
  exact List.getElem_mem h

theorem choose_lru_loop_spec (s : MMU) :
    ∀ r i best victim,
      (∀ j, j < i → best ≤ s.frame_last.getD j 0) →
      s.frame_last.getD victim 0 ≤ best →
      (∀ j, j < victim → best < s.frame_last.getD j 0) →
      (victim = 0 ∨ victim < i) →
      (choose_lru_loop s r i best victim = 0 ∨ choose_lru_loop s r i best victim < i + r) ∧
      (∀ j, j < i + r →
        s.frame_last.getD (choose_lru_loop s r i best victim) 0 ≤ s.frame_last.getD j 0) ∧
      (∀ j, j < choose_lru_loop s r i best victim →
        s.frame_last.getD (choose_lru_loop s r i best victim) 0 < s.frame_last.getD j 0) := by
  intro r
  induction r with
  | zero =>
    intro i best victim h1 h2 h3 h4
    simp only [choose_lru_loop, Nat.add_zero]
    exact ⟨h4, fun j hj => le_trans h2 (h1 j hj), fun j hj => lt_of_le_of_lt h2 (h3 j hj)⟩
  | succ r ih =>
    intro i best victim h1 h2 h3 h4
    by_cases hlt : s.frame_last.getD i 0 < best
    · simp only [choose_lru_loop, if_pos hlt]
      have := ih (i + 1) (s.frame_last.getD i 0) i
        (fun j hj => by
          by_cases hji : j = i
          · subst hji; exact le_refl _
          · exact le_of_lt (lt_of_lt_of_le hlt (h1 j (by omega))))
        (le_refl _)
        (fun j hj => lt_of_lt_of_le hlt (h1 j hj))
        (Or.inr (by omega))
      rw [show i + 1 + r = i + (r + 1) by omega] at this
      exact this
    · simp only [choose_lru_loop, if_neg hlt]
      have := ih (i + 1) best victim
        (fun j hj => by
          by_cases hji : j = i
          · subst hji; exact Nat.le_of_not_lt hlt
          · exact h1 j (by omega))
        h2 h3 (by omega)
      rw [show i + 1 + r = i + (r + 1) by omega] at this
      exact this

theorem choose_lru_victim_lt (s : MMU) (hwf : s.WellFormed) :
    (choose_lru_victim s).1 < s.numFrames := by
  obtain ⟨hN, _, _, _, hl, _, hb⟩ := hwf
  have h0 : s.frame_last.getD 0 0 ≤ ULL - 1 := by
    have := hb _ (getD_mem_of_lt s.frame_last 0 0 (by omega))
    omega
  obtain ⟨h1, _, _⟩ := choose_lru_loop_spec s s.numFrames 0 (ULL - 1) 0
    (fun j hj => by omega) h0 (fun j hj => by omega) (Or.inl rfl)
  simp only [choose_lru_victim]
  omega

/-- C7: `choose_lru_victim` changes no state and returns an index `v` in
`[0, numFrames)` whose `frame_last` is minimal, the lowest index attaining the
minimum; when the `frame_last` values are pairwise distinct, `frame_last[v]` is
strictly below every other one. -/
theorem choose_lru_victim_min (s : MMU) (hwf : s.WellFormed) :
    (choose_lru_victim s).2 = s ∧
    (choose_lru_victim s).1 < s.numFrames ∧
    (∀ j, j < s.numFrames →
      s.frame_last.getD (choose_lru_victim s).1 0 ≤ s.frame_last.getD j 0) ∧
    (∀ j, j < (choose_lru_victim s).1 →
      s.frame_last.getD (choose_lru_victim s).1 0 < s.frame_last.getD j 0) ∧
    ((∀ i j, i < s.numFrames → j < s.numFrames → i ≠ j →
        s.frame_last.getD i 0 ≠ s.frame_last.getD j 0) →
      ∀ j, j < s.numFrames → j ≠ (choose_lru_victim s).1 →
        s.frame_last.getD (choose_lru_victim s).1 0 < s.frame_last.getD j 0) := by
  obtain ⟨hN, _, _, _, hl, _, hb⟩ := hwf
  have h0 : s.frame_last.getD 0 0 ≤ ULL - 1 := by
    have := hb _ (getD_mem_of_lt s.frame_last 0 0 (by omega))
    omega
  obtain ⟨h1, h2, h3⟩ := choose_lru_loop_spec s s.numFrames 0 (ULL - 1) 0
    (fun j hj => by omega) h0 (fun j hj => by omega) (Or.inl rfl)
  have hv : (choose_lru_victim s).1 < s.numFrames := by
    simp only [choose_lru_victim]
    omega
  refine ⟨rfl, hv, fun j hj => h2 j (by omega), h3, ?_⟩
  intro hd j hj hne
  exact lt_of_le_of_ne (h2 j (by omega)) (hd _ _ hv hj (Ne.symm hne))

/-- Witness of C7 on `demoState`, whose `frame_last` is `[3, 5, 0]`: the victim
is frame 2. -/
theorem choose_lru_victim_min_witness :
    demoState.WellFormed ∧ (choose_lru_victim demoState).1 = 2 ∧
    (choose_lru_victim demoState).2 = demoState ∧
    (choose_lru_victim demoState).1 < demoState.numFrames :=
  ⟨by decide, by decide, (choose_lru_victim_min demoState (by decide)).1,
   (choose_lru_victim_min demoState (by decide)).2.1⟩

/-! ### `choose_clock_victim` -/

theorem cyclic_ne (h n t : Nat) (hh : h < n) (ht0 : 0 < t) (ht : t < n) :
    (h + t) % n ≠ h := by
  by_cases hlt : h + t < n
  · rw [Nat.mod_eq_of_lt hlt]; omega
  · rw [Nat.mod_eq_sub_mod (by omega), Nat.mod_eq_of_lt (by omega)]; omega

/-- The run of the CLOCK loop when the first clear reference bit is `k < numFrames`
frames ahead of the hand: `k` second-chance steps, then the return. -/
theorem choose_clock_loop_run :
    ∀ k (s : MMU), 1 ≤ s.numFrames → s.frame_ref.length = s.numFrames →
      s.clock_hand < s.numFrames → k < s.numFrames →
      (∀ m, m < k → s.frame_ref.getD ((s.clock_hand + m) % s.numFrames) 0 ≠ 0) →
      s.frame_ref.getD ((s.clock_hand + k) % s.numFrames) 0 = 0 →
      ∃ s', (∀ fuel, k + 1 ≤ fuel →
              choose_clock_loop fuel s = some ((s.clock_hand + k) % s.numFrames, s') ∧
              choose_clock_iters fuel s = k + 1) ∧
            (∀ fuel, fuel ≤ k → choose_clock_loop fuel s = none) ∧
            s' = { s with frame_ref := s'.frame_ref
                          clock_hand := ((s.clock_hand + k) % s.numFrames + 1) % s.numFrames } ∧
            s'.frame_ref.length = s.numFrames ∧
            ∀ j, s'.frame_ref.getD j 0 =
              if ∃ m, m < k ∧ j = (s.clock_hand + m) % s.numFrames then 0
              else s.frame_ref.getD j 0 := by
  intro k
  induction k with
  | zero =>
    intro s _ hlen hh _ _ hz
    have hmod : (s.clock_hand + 0) % s.numFrames = s.clock_hand := by
      rw [Nat.add_zero, Nat.mod_eq_of_lt hh]
    rw [hmod] at hz
    refine ⟨{ s with clock_hand := (s.clock_hand + 1) % s.numFrames }, ?_, ?_, ?_, hlen, ?_⟩
    · intro fuel hf
      obtain ⟨f, rfl⟩ : ∃ f, fuel = f + 1 := ⟨fuel - 1, by omega⟩
      rw [hmod]
      exact ⟨by simp only [choose_clock_loop, if_pos hz],
        by simp only [choose_clock_iters, if_pos hz, Nat.zero_add]⟩
    · intro fuel hf
      obtain rfl : fuel = 0 := by omega
      rfl
    · rw [hmod]
    · intro j
      simp
  | succ k ih =>
    intro s hN hlen hh hk hnz hz
    have h0 : s.frame_ref.getD s.clock_hand 0 ≠ 0 := by
      have := hnz 0 (by omega)
      rwa [Nat.add_zero, Nat.mod_eq_of_lt hh] at this
    have hshift : ∀ m, ((s.clock_hand + 1) % s.numFrames + m) % s.numFrames =
        (s.clock_hand + (m + 1)) % s.numFrames := by
      intro m
      rw [Nat.mod_add_mod]
      congr 1
      omega
    have hkeep : ∀ m, m + 1 < s.numFrames →
        (s.frame_ref.set s.clock_hand 0).getD ((s.clock_hand + (m + 1)) % s.numFrames) 0 =
          s.frame_ref.getD ((s.clock_hand + (m + 1)) % s.numFrames) 0 := by
      intro m hm
      exact getD_set_ne _ _ _ _ _
        (Ne.symm (cyclic_ne s.clock_hand s.numFrames (m + 1) hh (by omega) hm))
    obtain ⟨s', hrun, hnone, hs', hlen', href⟩ := ih
      { s with frame_ref := s.frame_ref.set s.clock_hand 0
               clock_hand := (s.clock_hand + 1) % s.numFrames }
      hN (by simp [hlen]) (Nat.mod_lt _ (by omega)) (by show k < s.numFrames; omega)
      (fun m hm => by
        show (s.frame_ref.set s.clock_hand 0).getD
          (((s.clock_hand + 1) % s.numFrames + m) % s.numFrames) 0 ≠ 0
        rw [hshift, hkeep m (by omega)]
        exact hnz (m + 1) (by omega))
      (by
        show (s.frame_ref.set s.clock_hand 0).getD
          (((s.clock_hand + 1) % s.numFrames + k) % s.numFrames) 0 = 0
        rw [hshift, hkeep k (by omega)]
        exact hz)
    simp only [hshift] at hrun hs' href
    refine ⟨s', ?_, ?_, ?_, hlen', ?_⟩
    · intro fuel hf
      obtain ⟨f, rfl⟩ : ∃ f, fuel = f + 1 := ⟨fuel - 1, by omega⟩
      simp only [choose_clock_loop, choose_clock_iters, if_neg h0]
      obtain ⟨h1, h2⟩ := hrun f (by omega)
      exact ⟨h1, by rw [h2]; omega⟩
    · intro fuel hf
      cases fuel with
      | zero => rfl
      | succ f =>
        simp only [choose_clock_loop, if_neg h0]
        exact hnone f (by omega)
    · rw [hs']
    · intro j
      rw [href j]
      by_cases hj : j = s.clock_hand
      · subst hj
        have hex : ∃ m, m < k + 1 ∧ s.clock_hand = (s.clock_hand + m) % s.numFrames :=
          ⟨0, by omega, by rw [Nat.add_zero, Nat.mod_eq_of_lt hh]⟩
        rw [if_pos hex]
        split
        · rfl
        · exact getD_set_self _ _ _ _ (by omega)
      · have hiff : (∃ m, m < k ∧ j = (s.clock_hand + (m + 1)) % s.numFrames) ↔
            (∃ m, m < k + 1 ∧ j = (s.clock_hand + m) % s.numFrames) := by
          constructor
          · rintro ⟨m, hm, hjm⟩
            exact ⟨m + 1, by omega, hjm⟩
          · rintro ⟨m, hm, hjm⟩
            cases m with
            | zero =>
              exfalso; apply hj
              rw [hjm, Nat.add_zero, Nat.mod_eq_of_lt hh]
            | succ m => exact ⟨m, by omega, hjm⟩
        simp only [hiff]
        split
        · rfl
        · exact getD_set_ne _ _ _ _ _ (Ne.symm hj)

/-- The run of the CLOCK loop when every reference bit is set: one full pass
clears all bits and the frame under the initial hand is returned. -/
theorem choose_clock_loop_all_set (s : MMU) (hN : 1 ≤ s.numFrames)
    (hlen : s.frame_ref.length = s.numFrames) (hh : s.clock_hand < s.numFrames)
    (hall : ∀ j, j < s.numFrames → s.frame_ref.getD j 0 ≠ 0) :
    ∃ s', (∀ fuel, s.numFrames + 1 ≤ fuel →
            choose_clock_loop fuel s = some (s.clock_hand, s') ∧
            choose_clock_iters fuel s = s.numFrames + 1) ∧
          (∀ fuel, fuel ≤ s.numFrames → choose_clock_loop fuel s = none) ∧
          s' = { s with frame_ref := s'.frame_ref
                        clock_hand := (s.clock_hand + 1) % s.numFrames } ∧
          s'.frame_ref.length = s.numFrames ∧
          ∀ j, j < s.numFrames → s'.frame_ref.getD j 0 = 0 := by
  have h0 : s.frame_ref.getD s.clock_hand 0 ≠ 0 := hall _ hh
  have hshift : ∀ m, ((s.clock_hand + 1) % s.numFrames + m) % s.numFrames =
      (s.clock_hand + (m + 1)) % s.numFrames := by
    intro m
    rw [Nat.mod_add_mod]
    congr 1
    omega
  have hlast : (s.clock_hand + (s.numFrames - 1 + 1)) % s.numFrames = s.clock_hand := by
    rw [show s.clock_hand + (s.numFrames - 1 + 1) = s.clock_hand + s.numFrames by omega,
      Nat.add_mod_right, Nat.mod_eq_of_lt hh]
  obtain ⟨s', hrun, hnone, hs', hlen', href⟩ := choose_clock_loop_run (s.numFrames - 1)
    { s with frame_ref := s.frame_ref.set s.clock_hand 0
             clock_hand := (s.clock_hand + 1) % s.numFrames }
    hN (by simp [hlen]) (Nat.mod_lt _ (by omega)) (by show s.numFrames - 1 < s.numFrames; omega)
    (fun m hm => by
      show (s.frame_ref.set s.clock_hand 0).getD
        (((s.clock_hand + 1) % s.numFrames + m) % s.numFrames) 0 ≠ 0
      have hm' : m < s.numFrames - 1 := hm
      rw [hshift, getD_set_ne _ _ _ _ _
        (Ne.symm (cyclic_ne s.clock_hand s.numFrames (m + 1) hh (by omega) (by omega)))]
      exact hall _ (Nat.mod_lt _ (by omega)))
    (by
      show (s.frame_ref.set s.clock_hand 0).getD
        (((s.clock_hand + 1) % s.numFrames + (s.numFrames - 1)) % s.numFrames) 0 = 0
      rw [hshift, hlast]
      exact getD_set_self _ _ _ _ (by omega))
  simp only [hshift, hlast] at hrun hs' href
  refine ⟨s', ?_, ?_, ?_, hlen', ?_⟩
  · intro fuel hf
    obtain ⟨f, rfl⟩ : ∃ f, fuel = f + 1 := ⟨fuel - 1, by omega⟩
    simp only [choose_clock_loop, choose_clock_iters, if_neg h0]
    obtain ⟨h1, h2⟩ := hrun f (by omega)
    exact ⟨h1, by rw [h2]; omega⟩
  · intro fuel hf
    cases fuel with
    | zero => rfl
    | succ f =>
      simp only [choose_clock_loop, if_neg h0]
      exact hnone f (by omega)
  · rw [hs']
  · intro j hj
    rw [href j]
    split
    · rfl
    · rename_i hno
      by_cases hjh : j = s.clock_hand
      · subst hjh
        exact getD_set_self _ _ _ _ (by omega)
      · exfalso
        obtain ⟨m, hm, hmj⟩ := cyclic_cover s.clock_hand s.numFrames j hj
        cases m with
        | zero =>
          apply hjh
          rw [← hmj, Nat.add_zero, Nat.mod_eq_of_lt hh]
        | succ m => exact hno ⟨m, by omega, hmj.symm⟩

/-- C9: CLOCK second-chance result.  With `N = numFrames >= 1` and
`h = clock_hand < N`: if `k < N` is the first offset with
`frame_ref[(h + k) mod N] = 0`, `choose_clock_victim` returns
`v = (h + k) mod N`, clears the reference bit of exactly the frames
`(h + m) mod N` with `m < k` visited before `v`, and leaves the other bits
unchanged; if every reference bit is set it returns `v = h` and clears all `N`
bits.  In both cases `clock_hand` becomes `(v + 1) mod N` and nothing but
`frame_ref` and `clock_hand` changes. -/
theorem choose_clock_victim_result (s : MMU) (hN : 1 ≤ s.numFrames)
    (hlen : s.frame_ref.length = s.numFrames) (hh : s.clock_hand < s.numFrames) :
    (∀ k, k < s.numFrames →
      (∀ m, m < k → s.frame_ref.getD ((s.clock_hand + m) % s.numFrames) 0 ≠ 0) →
      s.frame_ref.getD ((s.clock_hand + k) % s.numFrames) 0 = 0 →
      ∃ s', choose_clock_victim s = some ((s.clock_hand + k) % s.numFrames, s') ∧
        s' = { s with frame_ref := s'.frame_ref
                      clock_hand := ((s.clock_hand + k) % s.numFrames + 1) % s.numFrames } ∧
        s'.frame_ref.length = s.numFrames ∧
        ∀ j, s'.frame_ref.getD j 0 =
          if ∃ m, m < k ∧ j = (s.clock_hand + m) % s.numFrames then 0
          else s.frame_ref.getD j 0) ∧
    ((∀ j, j < s.numFrames → s.frame_ref.getD j 0 ≠ 0) →
      ∃ s', choose_clock_victim s = some (s.clock_hand, s') ∧
        s' = { s with frame_ref := s'.frame_ref
                      clock_hand := (s.clock_hand + 1) % s.numFrames } ∧
        s'.frame_ref.length = s.numFrames ∧
        ∀ j, j < s.numFrames → s'.frame_ref.getD j 0 = 0) := by
  constructor
  · intro k hk hnz hz
    obtain ⟨s', hrun, _, hs', hlen', href⟩ := choose_clock_loop_run k s hN hlen hh hk hnz hz
    exact ⟨s', (hrun (2 * s.numFrames) (by omega)).1, hs', hlen', href⟩
  · intro hall
    obtain ⟨s', hrun, _, hs', hlen', href⟩ := choose_clock_loop_all_set s hN hlen hh hall
    exact ⟨s', (hrun (2 * s.numFrames) (by omega)).1, hs', hlen', href⟩

/-- Witness of C9 on `clockState`: two frames, reference bits `[1, 1]`, hand 0;
the victim is frame 0, both bits are cleared and the hand is 1. -/
theorem choose_clock_victim_result_witness :
    1 ≤ clockState.numFrames ∧ clockState.frame_ref.length = clockState.numFrames ∧
    clockState.clock_hand < clockState.numFrames ∧
    (∀ j, j < clockState.numFrames → clockState.frame_ref.getD j 0 ≠ 0) ∧
    choose_clock_victim clockState =
      some (0, { clockState with frame_ref := [0, 0], clock_hand := 1 }) ∧
    ∃ s', choose_clock_victim clockState = some (clockState.clock_hand, s') ∧
        s' = { clockState with frame_ref := s'.frame_ref
                               clock_hand := (clockState.clock_hand + 1) % clockState.numFrames } ∧
        s'.frame_ref.length = clockState.numFrames ∧
        ∀ j, j < clockState.numFrames → s'.frame_ref.getD j 0 = 0 :=
  ⟨by decide, by decide, by decide, by decide, by decide,
   (choose_clock_victim_result clockState (by decide) (by decide) (by decide)).2 (by decide)⟩

/-- C10: CLOCK termination.  With `numFrames = N >= 1`, `clock_hand < N` and
arbitrary reference bits, the `while (1)` loop of `choose_clock_victim` returns
in its `n`-th iteration for some `1 <= n <= 2 * N`: with at least `n`
iterations allowed it returns a result `r` after exactly `n` iterations, with
fewer it has not returned yet. -/
theorem choose_clock_victim_terminates (s : MMU) (hN : 1 ≤ s.numFrames)
    (hlen : s.frame_ref.length = s.numFrames) (hh : s.clock_hand < s.numFrames) :
    ∃ n r, 1 ≤ n ∧ n ≤ 2 * s.numFrames ∧
      (∀ fuel, n ≤ fuel →
        choose_clock_loop fuel s = some r ∧ choose_clock_iters fuel s = n) ∧
      (∀ fuel, fuel < n → choose_clock_loop fuel s = none) ∧
      choose_clock_victim s = some r := by
  by_cases hex : ∃ k, k < s.numFrames ∧
      s.frame_ref.getD ((s.clock_hand + k) % s.numFrames) 0 = 0
  · obtain ⟨k, hk, hz, hmin⟩ := exists_least
      (fun k => s.frame_ref.getD ((s.clock_hand + k) % s.numFrames) 0 = 0) _ hex
    obtain ⟨s', hrun, hnone, _⟩ := choose_clock_loop_run k s hN hlen hh hk hmin hz
    exact ⟨k + 1, _, by omega, by omega, hrun, fun fuel hf => hnone fuel (by omega),
      (hrun (2 * s.numFrames) (by omega)).1⟩
  · have hall : ∀ j, j < s.numFrames → s.frame_ref.getD j 0 ≠ 0 := by
      intro j hj hz
      obtain ⟨m, hm, hmj⟩ := cyclic_cover s.clock_hand s.numFrames j hj
      exact hex ⟨m, hm, by rw [hmj]; exact hz⟩
    obtain ⟨s', hrun, hnone, _⟩ := choose_clock_loop_all_set s hN hlen hh hall
    exact ⟨s.numFrames + 1, _, by omega, by omega, hrun,
      fun fuel hf => hnone fuel (by omega), (hrun (2 * s.numFrames) (by omega)).1⟩

/-- Witness of C10 on `clockState` (two frames, both reference bits set): the
loop returns in its third iteration. -/
theorem choose_clock_victim_terminates_witness :
    1 ≤ clockState.numFrames ∧ clockState.frame_ref.length = clockState.numFrames ∧
    clockState.clock_hand < clockState.numFrames ∧
    choose_clock_iters (2 * clockState.numFrames) clockState = 3 ∧
    choose_clock_loop 2 clockState = none ∧
    ∃ n r, 1 ≤ n ∧ n ≤ 2 * clockState.numFrames ∧
      (∀ fuel, n ≤ fuel →
        choose_clock_loop fuel clockState = some r ∧ choose_clock_iters fuel clockState = n) ∧
      (∀ fuel, fuel < n → choose_clock_loop fuel clockState = none) ∧
      choose_clock_victim clockState = some r :=
  ⟨by decide, by decide, by decide, by decide, by decide,
   choose_clock_victim_terminates clockState (by decide) (by decide) (by decide)⟩

/-! ### `selectVictim` -/

/-- What the `switch` of `selectVictim` does under each policy: it yields a
frame index below `numFrames` and touches only `frame_ref`, the two hands and
the generator state. -/
theorem choose_victim_spec (G : LibcRand) (s : MMU) (mode : repl) (hwf : s.WellFormed)
    (hfifo : s.fifo_hand < s.numFrames) (hclock : s.clock_hand < s.numFrames) :
    ∃ f s1, choose_victim G s mode = some (f, s1) ∧ f < s.numFrames ∧
      s1 = { s with frame_ref := s1.frame_ref, fifo_hand := s1.fifo_hand
                    clock_hand := s1.clock_hand, rng := s1.rng } ∧
      s1.frame_ref.length = s.numFrames ∧
      s1.fifo_hand < s.numFrames ∧ s1.clock_hand < s.numFrames := by
  have hN : 1 ≤ s.numFrames := hwf.1
  have hlen : s.frame_ref.length = s.numFrames := hwf.2.2.2.1
  cases mode with
  | random =>
    exact ⟨_, _, rfl, Nat.mod_lt _ (by omega), rfl, hlen, hfifo, hclock⟩
  | fifo =>
    exact ⟨_, _, rfl, hfifo, rfl, hlen, Nat.mod_lt _ (by omega), hclock⟩
  | lru =>
    exact ⟨_, _, rfl, choose_lru_victim_lt s hwf, rfl, hlen, hfifo, hclock⟩
  | clock =>
    by_cases hex : ∃ k, k < s.numFrames ∧
        s.frame_ref.getD ((s.clock_hand + k) % s.numFrames) 0 = 0
    · obtain ⟨k, hk, hz, hmin⟩ := exists_least
        (fun k => s.frame_ref.getD ((s.clock_hand + k) % s.numFrames) 0 = 0) _ hex
      obtain ⟨s', hrun, _, hs', hlen', _⟩ := choose_clock_loop_run k s hN hlen hclock hk hmin hz
      refine ⟨_, s', (hrun (2 * s.numFrames) (by omega)).1, Nat.mod_lt _ (by omega), ?_,
        hlen', ?_, ?_⟩
      · conv_lhs => rw [hs']
        congr 1 <;> rw [hs']
      · rw [hs']; exact hfifo
      · rw [hs']; exact Nat.mod_lt _ (by omega)
    · have hall : ∀ j, j < s.numFrames → s.frame_ref.getD j 0 ≠ 0 := by
        intro j hj hz
        obtain ⟨m, hm, hmj⟩ := cyclic_cover s.clock_hand s.numFrames j hj
        exact hex ⟨m, hm, by rw [hmj]; exact hz⟩
      obtain ⟨s', hrun, _, hs', hlen', _⟩ := choose_clock_loop_all_set s hN hlen hclock hall
      refine ⟨_, s', (hrun (2 * s.numFrames) (by omega)).1, hclock, ?_, hlen', ?_, ?_⟩
      · conv_lhs => rw [hs']
        congr 1 <;> rw [hs']
      · rw [hs']; exact hfifo
      · rw [hs']; exact Nat.mod_lt _ (by omega)

theorem selectVictim_spec (G : LibcRand) (s : MMU) (p : Int) (mode : repl)
    (hwf : s.WellFormed) (hfifo : s.fifo_hand < s.numFrames)
    (hclock : s.clock_hand < s.numFrames) :
    ∃ f s1, choose_victim G s mode = some (f, s1) ∧ f < s.numFrames ∧
      s1 = { s with frame_ref := s1.frame_ref, fifo_hand := s1.fifo_hand
                    clock_hand := s1.clock_hand, rng := s1.rng } ∧
      s1.frame_ref.length = s.numFrames ∧
      s1.fifo_hand < s.numFrames ∧ s1.clock_hand < s.numFrames ∧
      selectVictim G s p mode =
        some ({ pageNo := s.frame_page.getD f 0, modified := s.frame_dirty.getD f 0 },
              install s1 f p) := by
  obtain ⟨f, s1, hc, hf, hs1, hlen, h1, h2⟩ := choose_victim_spec G s mode hwf hfifo hclock
  refine ⟨f, s1, hc, hf, hs1, hlen, h1, h2, ?_⟩
  simp only [selectVictim, hc, evict_and_load]
  rw [hs1]

/-- C3 (as stated, refuted): on the full one-frame table `wrapState`, whose
`tnow` is `ULLONG_MAX`, `selectVictim` under FIFO evicts page 5 from frame 0
and installs page 6 there with `frame_last[0] = 0`, which is not the old
`tnow` plus 1. -/
theorem selectVictim_stamp_wraps :
    wrapState.WellFormed ∧ wrapState.frame_page.getD 0 0 ≠ -1 ∧
    choose_victim counterRand wrapState repl.fifo = some (0, wrapState) ∧
    selectVictim counterRand wrapState 6 repl.fifo =
      some ({ pageNo := 5, modified := 0 },
            { wrapState with frame_page := [6], frame_last := [0], tnow := 0 }) ∧
    (0 : Nat) ≠ wrapState.tnow + 1 := by
  decide

/-- C3 (amended): evict-and-load contract of `selectVictim`.  For every
policy and new page, with `f` the frame index chosen by the policy's helper,
the returned record is `{pageNo = frame_page[f], modified = frame_dirty[f]}`
as they were before the call, and afterwards frame `f` holds the new page
with dirty = 0, referenced = 1 and last_used = `(old tnow + 1) mod 2 ^ 64`
(which is `old tnow + 1` unless `tnow` was `ULLONG_MAX`), while the resident
page, dirty bit and last_used of every other frame are unchanged. -/
theorem selectVictim_contract (G : LibcRand) (s : MMU) (p : Int) (mode : repl)
    (hwf : s.WellFormed) (hfifo : s.fifo_hand < s.numFrames)
    (hclock : s.clock_hand < s.numFrames) :
    ∃ f s1 s', choose_victim G s mode = some (f, s1) ∧ f < s.numFrames ∧
      selectVictim G s p mode =
        some ({ pageNo := s.frame_page.getD f 0, modified := s.frame_dirty.getD f 0 }, s') ∧
      s'.frame_page.getD f 0 = p ∧
      s'.frame_dirty.getD f 0 = 0 ∧
      s'.frame_ref.getD f 0 = 1 ∧
      s'.frame_last.getD f 0 = (s.tnow + 1) % ULL ∧
      (s.tnow + 1 < ULL → s'.frame_last.getD f 0 = s.tnow + 1) ∧
      s'.tnow = (s.tnow + 1) % ULL ∧
      (∀ j, j ≠ f →
        s'.frame_page.getD j 0 = s.frame_page.getD j 0 ∧
        s'.frame_dirty.getD j 0 = s.frame_dirty.getD j 0 ∧
        s'.frame_last.getD j 0 = s.frame_last.getD j 0) := by
  obtain ⟨f, s1, hc, hf, hs1, hlen, _, _, hsel⟩ := selectVictim_spec G s p mode hwf hfifo hclock
  obtain ⟨hN, hp, hd, hr, hl, ht, hb⟩ := hwf
  have hpage : s1.frame_page = s.frame_page := by rw [hs1]
  have hdirty : s1.frame_dirty = s.frame_dirty := by rw [hs1]
  have hlast : s1.frame_last = s.frame_last := by rw [hs1]
  have htnow : s1.tnow = s.tnow := by rw [hs1]
  have hnum : s1.numFrames = s.numFrames := by rw [hs1]
  have hwf1 : s1.WellFormed :=
    ⟨by omega, by rw [hpage, hnum]; exact hp, by rw [hdirty, hnum]; exact hd,
     by rw [hnum]; exact hlen, by rw [hlast, hnum]; exact hl, by rw [htnow]; exact ht,
     by rw [hlast]; exact hb⟩
  obtain ⟨h1, h2, h3, h4, h5⟩ := install_getD s1 f p hwf1 (by omega)
  rw [htnow] at h4
  refine ⟨f, s1, install s1 f p, hc, hf, hsel, h1, h2, h3, h4, ?_, ?_, ?_⟩
  · intro h
    rw [h4, Nat.mod_eq_of_lt h]
  · show (s1.tnow + 1) % ULL = (s.tnow + 1) % ULL
    rw [htnow]
  · intro j hj
    obtain ⟨a, b, _, c⟩ := h5 j hj
    rw [hpage] at a
    rw [hdirty] at b
    rw [hlast] at c
    exact ⟨a, b, c⟩

/-- Witness of C3 on the full table `clockState` under CLOCK: both reference
bits are set, so frame 0 is chosen; page 1 is evicted clean and page 9 loaded
with stamp 3. -/
theorem selectVictim_contract_witness :
    clockState.WellFormed ∧ clockState.fifo_hand < clockState.numFrames ∧
    clockState.clock_hand < clockState.numFrames ∧
    selectVictim counterRand clockState 9 repl.clock =
      some ({ pageNo := 1, modified := 0 },
            { clockState with frame_page := [9, 2], frame_ref := [1, 0],
                              frame_last := [3, 2], tnow := 3, clock_hand := 1 }) ∧
    ∃ f s1 s', choose_victim counterRand clockState repl.clock = some (f, s1) ∧
      f < clockState.numFrames ∧
      selectVictim counterRand clockState 9 repl.clock =
        some ({ pageNo := clockState.frame_page.getD f 0,
                modified := clockState.frame_dirty.getD f 0 }, s') ∧
      s'.frame_page.getD f 0 = 9 ∧
      s'.frame_dirty.getD f 0 = 0 ∧
      s'.frame_ref.getD f 0 = 1 ∧
      s'.frame_last.getD f 0 = (clockState.tnow + 1) % ULL ∧
      (clockState.tnow + 1 < ULL → s'.frame_last.getD f 0 = clockState.tnow + 1) ∧
      s'.tnow = (clockState.tnow + 1) % ULL ∧
      (∀ j, j ≠ f →
        s'.frame_page.getD j 0 = clockState.frame_page.getD j 0 ∧
        s'.frame_dirty.getD j 0 = clockState.frame_dirty.getD j 0 ∧
        s'.frame_last.getD j 0 = clockState.frame_last.getD j 0) :=
  ⟨by decide, by decide, by decide, by decide,
   selectVictim_contract counterRand clockState 9 repl.clock (by decide) (by decide)
     (by decide)⟩

/-! ### The driver loop -/

theorem set_bounded (l : List Nat) (i v b : Nat) (hv : v < b) (h : ∀ x ∈ l, x < b) :
    ∀ x ∈ l.set i v, x < b := by
  intro x hx
  rcases List.mem_or_eq_of_mem_set hx with h1 | h1
  · exact h x h1
  · rw [h1]; exact hv

theorem ULL_pos : 0 < ULL := by decide

theorem touch_wf (s : MMU) (i : Nat) (hwf : s.WellFormed) : (touch s i).WellFormed := by
  obtain ⟨hN, hp, hd, hr, hl, ht, hb⟩ := hwf
  refine ⟨hN, hp, hd, ?_, ?_, Nat.mod_lt _ ULL_pos, ?_⟩
  · simp only [touch, List.length_set]; exact hr
  · simp only [touch, List.length_set]; exact hl
  · exact set_bounded _ _ _ _ (Nat.mod_lt _ ULL_pos) hb

theorem install_wf (s : MMU) (i : Nat) (p : Int) (hwf : s.WellFormed) :
    (install s i p).WellFormed := by
  obtain ⟨hN, hp, hd, hr, hl, ht, hb⟩ := hwf
  refine ⟨hN, ?_, ?_, ?_, ?_, Nat.mod_lt _ ULL_pos, ?_⟩
  · simp only [install, List.length_set]; exact hp
  · simp only [install, List.length_set]; exact hd
  · simp only [install, List.length_set]; exact hr
  · simp only [install, List.length_set]; exact hl
  · exact set_bounded _ _ _ _ (Nat.mod_lt _ ULL_pos) hb

theorem getD_replicate_lt {α : Type} (n i : Nat) (a d : α) (h : i < n) :
    (List.replicate n a).getD i d = a := by
  simp [List.getD_eq_getElem?_getD, List.getElem?_replicate, h]

theorem init_inv (G : LibcRand) (frames : Nat) (hN : 1 ≤ frames) :
    (Driver.init G frames).Inv := by
  refine ⟨⟨hN, ?_, ?_, ?_, ?_, ULL_pos, ?_⟩, hN, hN, Nat.zero_le _, ?_, ?_, ?_, ?_⟩
  · simp [Driver.init, createMMU]
  · simp [Driver.init, createMMU]
  · simp [Driver.init, createMMU]
  · simp [Driver.init, createMMU]
  · intro x hx
    simp only [Driver.init, createMMU] at hx
    rw [List.eq_of_mem_replicate hx]
    exact ULL_pos
  · simp [Driver.init, createMMU]
  · intro i hi
    exact absurd hi (Nat.not_lt_zero _)
  · intro i _ hi
    exact getD_replicate_lt _ _ _ _ hi
  · intro i j hi _ _ hne
    exact absurd (getD_replicate_lt frames i (-1 : Int) 0 hi) hne

/-- The three ways an iteration can go at lines 264-283 of `main`, in a state
that satisfies the loop invariant: a hit, a miss served by `allocateFrame`, or
a miss served by `selectVictim`. -/
theorem access_cases (G : LibcRand) (replace : repl) (d : Driver) (p : Int)
    (hinv : d.Inv) :
    (∃ i, i < d.mmu.numFrames ∧ d.mmu.frame_page.getD i 0 = p ∧
      (∀ j, j < i → d.mmu.frame_page.getD j 0 ≠ p) ∧
      access G replace d p =
        some ({ page_number := p, frame_no := (i : Int), fault := false, victim := none },
              { d with mmu := touch d.mmu i })) ∨
    ((∀ i, i < d.mmu.numFrames → d.mmu.frame_page.getD i 0 ≠ p) ∧
      d.allocated < d.mmu.numFrames ∧
      access G replace d p =
        some ({ page_number := p, frame_no := (d.allocated : Int), fault := true,
                victim := none },
              { d with mmu := { install d.mmu d.allocated p with
                                next_free_idx := (d.allocated + 1) % d.mmu.numFrames }
                       disk_reads := d.disk_reads + 1
                       allocated := d.allocated + 1 })) ∨
    ((∀ i, i < d.mmu.numFrames → d.mmu.frame_page.getD i 0 ≠ p) ∧
      d.allocated = d.mmu.numFrames ∧
      ∃ f s1, choose_victim G d.mmu replace = some (f, s1) ∧ f < d.mmu.numFrames ∧
        s1 = { d.mmu with frame_ref := s1.frame_ref, fifo_hand := s1.fifo_hand
                          clock_hand := s1.clock_hand, rng := s1.rng } ∧
        s1.frame_ref.length = d.mmu.numFrames ∧
        s1.fifo_hand < d.mmu.numFrames ∧ s1.clock_hand < d.mmu.numFrames ∧
        access G replace d p =
          some ({ page_number := p, frame_no := (f : Int), fault := true,
                  victim := some { pageNo := d.mmu.frame_page.getD f 0
                                   modified := d.mmu.frame_dirty.getD f 0 } },
                { d with mmu := touch (install s1 f p) f
                         disk_reads := d.disk_reads + 1
                         disk_writes :=
                           if d.mmu.frame_dirty.getD f 0 ≠ 0 then d.disk_writes + 1
                           else d.disk_writes })) := by
  obtain ⟨hwf, hfifo, hclock, hle, hnfi, hocc, hfree, _⟩ := hinv
  by_cases hex : ∃ i, i < d.mmu.numFrames ∧ d.mmu.frame_page.getD i 0 = p
  · left
    obtain ⟨i, hi, hp, hmin⟩ := exists_least (fun i => d.mmu.frame_page.getD i 0 = p) _ hex
    refine ⟨i, hi, hp, hmin, ?_⟩
    have hne : ((i : Nat) : Int) ≠ -1 := by omega
    simp only [access, checkInMemory_hit d.mmu p i hi hp hmin, if_neg hne]
  · right
    have hmiss : ∀ i, i < d.mmu.numFrames → d.mmu.frame_page.getD i 0 ≠ p :=
      fun i hi hp => hex ⟨i, hi, hp⟩
    by_cases hal : d.allocated < d.mmu.numFrames
    · left
      refine ⟨hmiss, hal, ?_⟩
      obtain ⟨k, hk, hkp, hkmin, heq⟩ :=
        allocateFrame_free d.mmu p ⟨d.allocated, hal, hfree _ (le_refl _) hal⟩
      have hstart : (d.mmu.next_free_idx + 0) % d.mmu.numFrames = d.allocated := by
        rw [Nat.add_zero, hnfi, Nat.mod_mod, Nat.mod_eq_of_lt hal]
      have hk0 : k = 0 := by
        by_contra hne
        apply hkmin 0 (by omega)
        rw [hstart]
        exact hfree _ (le_refl _) hal
      subst hk0
      rw [hstart] at heq
      simp only [access, checkInMemory_miss d.mmu p hmiss, if_pos hal, heq, if_true]
    · right
      have hfull : d.allocated = d.mmu.numFrames := by omega
      refine ⟨hmiss, hfull, ?_⟩
      obtain ⟨f, s1, hc, hf, hs1, hlen, h1, h2, hsel⟩ :=
        selectVictim_spec G d.mmu p replace hwf hfifo hclock
      refine ⟨f, s1, hc, hf, hs1, hlen, h1, h2, ?_⟩
      have hnum : s1.numFrames = d.mmu.numFrames := by rw [hs1]
      have hpage : s1.frame_page = d.mmu.frame_page := by rw [hs1]
      have hsecond : checkInMemory (install s1 f p) p = ((f : Int), touch (install s1 f p) f) := by
        apply checkInMemory_hit
        · show f < s1.numFrames
          omega
        · show (s1.frame_page.set f p).getD f 0 = p
          rw [hpage]
          exact getD_set_self _ _ _ _ (by rw [hwf.2.1]; exact hf)
        · intro j hj
          show (s1.frame_page.set f p).getD j 0 ≠ p
          rw [hpage, getD_set_ne _ _ _ _ _ (by omega)]
          exact hmiss j (by omega)
      simp only [access, checkInMemory_miss d.mmu p hmiss, if_neg hal, hsel, hsecond, if_true]

theorem unique_after_set (l : List Int) (n f : Nat) (p : Int) (hlen : l.length = n)
    (hf : f < n) (hmiss : ∀ i, i < n → l.getD i 0 ≠ p)
    (hu : ∀ i j, i < n → j < n → i ≠ j → l.getD i 0 ≠ -1 → l.getD i 0 ≠ l.getD j 0) :
    ∀ i j, i < n → j < n → i ≠ j → (l.set f p).getD i 0 ≠ -1 →
      (l.set f p).getD i 0 ≠ (l.set f p).getD j 0 := by
  intro i j hi hj hij hne
  by_cases hif : i = f
  · subst hif
    rw [getD_set_self _ _ _ _ (by omega), getD_set_ne _ _ _ _ _ hij]
    exact Ne.symm (hmiss j hj)
  · rw [getD_set_ne _ _ _ _ _ (Ne.symm hif)] at hne ⊢
    by_cases hjf : j = f
    · subst hjf
      rw [getD_set_self _ _ _ _ (by omega)]
      exact hmiss i hi
    · rw [getD_set_ne _ _ _ _ _ (Ne.symm hjf)]
      exact hu i j hi hj hij hne

/-- Lines 264-283 of `main` keep the loop invariant, for a non-negative page
number. -/
theorem access_inv (G : LibcRand) (replace : repl) (d : Driver) (p : Int)
    (hinv : d.Inv) (hp : 0 ≤ p) :
    ∃ a d1, access G replace d p = some (a, d1) ∧ d1.Inv ∧
      d1.mmu.numFrames = d.mmu.numFrames := by
  have hinv' := hinv
  obtain ⟨hwf, hfifo, hclock, hle, hnfi, hocc, hfree, huniq⟩ := hinv'
  have hplen : d.mmu.frame_page.length = d.mmu.numFrames := hwf.2.1
  rcases access_cases G replace d p hinv with
    ⟨i, hi, _, _, heq⟩ | ⟨hmiss, hal, heq⟩ | ⟨hmiss, hfull, f, s1, _, hf, hs1, hlen, h1, h2, heq⟩
  · exact ⟨_, _, heq, ⟨touch_wf _ _ hwf, hfifo, hclock, hle, hnfi, hocc, hfree, huniq⟩, rfl⟩
  · refine ⟨_, _, heq, ⟨install_wf _ _ _ hwf, hfifo, hclock, hal, rfl, ?_, ?_, ?_⟩, rfl⟩
    · intro i hi
      show 0 ≤ (d.mmu.frame_page.set d.allocated p).getD i 0
      by_cases hia : i = d.allocated
      · subst hia
        rw [getD_set_self _ _ _ _ (by omega)]
        exact hp
      · rw [getD_set_ne _ _ _ _ _ (Ne.symm hia)]
        have hi' : i < d.allocated + 1 := hi
        exact hocc i (by omega)
    · intro i hi1 hi2
      show (d.mmu.frame_page.set d.allocated p).getD i 0 = -1
      have hi1' : d.allocated + 1 ≤ i := hi1
      rw [getD_set_ne _ _ _ _ _ (by omega)]
      exact hfree i (by omega) hi2
    · exact unique_after_set _ _ _ _ hplen hal hmiss huniq
  · have hnum : s1.numFrames = d.mmu.numFrames := by rw [hs1]
    have hpage : s1.frame_page = d.mmu.frame_page := by rw [hs1]
    have hdirty : s1.frame_dirty = d.mmu.frame_dirty := by rw [hs1]
    have hlast : s1.frame_last = d.mmu.frame_last := by rw [hs1]
    have htnow : s1.tnow = d.mmu.tnow := by rw [hs1]
    have hnfi1 : s1.next_free_idx = d.mmu.next_free_idx := by rw [hs1]
    obtain ⟨hN, hp', hd', hr', hl', ht', hb'⟩ := hwf
    have hwf1 : s1.WellFormed :=
      ⟨by omega, by rw [hpage, hnum]; exact hp', by rw [hdirty, hnum]; exact hd',
       by rw [hnum]; exact hlen, by rw [hlast, hnum]; exact hl', by rw [htnow]; exact ht',
       by rw [hlast]; exact hb'⟩
    refine ⟨_, _, heq, ⟨touch_wf _ _ (install_wf _ _ _ hwf1), ?_, ?_, ?_, ?_, ?_, ?_, ?_⟩, hnum⟩
    · show s1.fifo_hand < s1.numFrames
      omega
    · show s1.clock_hand < s1.numFrames
      omega
    · show d.allocated ≤ s1.numFrames
      omega
    · show s1.next_free_idx = d.allocated % s1.numFrames
      rw [hnfi1, hnum]; exact hnfi
    · intro i hi
      show 0 ≤ (s1.frame_page.set f p).getD i 0
      rw [hpage]
      by_cases hif : i = f
      · subst hif
        rw [getD_set_self _ _ _ _ (by omega)]
        exact hp
      · rw [getD_set_ne _ _ _ _ _ (Ne.symm hif)]
        exact hocc i hi
    · intro i hi1 hi2
      exfalso
      have hi1' : d.allocated ≤ i := hi1
      have hi2' : i < s1.numFrames := hi2
      omega
    · show ∀ i j, i < s1.numFrames → j < s1.numFrames → i ≠ j →
        (s1.frame_page.set f p).getD i 0 ≠ -1 →
        (s1.frame_page.set f p).getD i 0 ≠ (s1.frame_page.set f p).getD j 0
      rw [hpage, hnum]
      exact unique_after_set _ _ _ _ hplen hf hmiss huniq

/-- Lines 285-299 of `main` complete for the four access letters and touch
only `frame_dirty` and `no_events`. -/
theorem mark_spec (d : Driver) (frame_no : Int) (rw : Char) :
    (validLetter rw → ∃ d2, mark d frame_no rw = some d2) ∧
    ∀ d2, mark d frame_no rw = some d2 →
      d2 = { d with mmu := { d.mmu with frame_dirty := d2.mmu.frame_dirty }
                    no_events := d.no_events + 1 } ∧
      d2.mmu.frame_dirty.length = d.mmu.frame_dirty.length := by
  constructor
  · intro hv
    by_cases h1 : rw = 'R' ∨ rw = 'r'
    · exact ⟨{ d with no_events := d.no_events + 1 }, by simp only [mark, if_pos h1]⟩
    · have h2 : rw = 'W' ∨ rw = 'w' := by
        rcases hv with h | h | h | h
        · exact absurd (Or.inl h) h1
        · exact absurd (Or.inr h) h1
        · exact Or.inl h
        · exact Or.inr h
      exact ⟨{ d with
               mmu := if 0 ≤ frame_no then
                        { d.mmu with frame_dirty := d.mmu.frame_dirty.set frame_no.toNat 1 }
                      else d.mmu
               no_events := d.no_events + 1 },
        by simp only [mark, if_neg h1, if_pos h2]⟩
  · intro d2 h
    by_cases h1 : rw = 'R' ∨ rw = 'r'
    · simp only [mark, if_pos h1, Option.some.injEq] at h
      subst h
      exact ⟨rfl, rfl⟩
    · by_cases h2 : rw = 'W' ∨ rw = 'w'
      · simp only [mark, if_neg h1, if_pos h2, Option.some.injEq] at h
        subst h
        by_cases h3 : 0 ≤ frame_no
        · simp only [if_pos h3, List.length_set]
          exact ⟨trivial, trivial⟩
        · simp only [if_neg h3]
          exact ⟨trivial, trivial⟩
      · simp only [mark, if_neg h1, if_neg h2] at h
        exact absurd h (by simp)

theorem mark_inv (d d2 : Driver) (frame_no : Int) (rw : Char) (hinv : d.Inv)
    (h : mark d frame_no rw = some d2) :
    d2.Inv ∧ d2.mmu.numFrames = d.mmu.numFrames := by
  obtain ⟨heq, hlen⟩ := (mark_spec d frame_no rw).2 d2 h
  obtain ⟨⟨hN, hp, hd, hr, hl, ht, hb⟩, hfifo, hclock, hle, hnfi, hocc, hfree, huniq⟩ := hinv
  rw [heq]
  exact ⟨⟨⟨hN, hp, by show d2.mmu.frame_dirty.length = d.mmu.numFrames; omega, hr, hl, ht, hb⟩,
    hfifo, hclock, hle, hnfi, hocc, hfree, huniq⟩, rfl⟩

theorem loop_body_inv (G : LibcRand) (replace : repl) (d : Driver) (e : Int × Char)
    (hinv : d.Inv) (hp : 0 ≤ e.1) :
    (validLetter e.2 → ∃ a d2, loop_body G replace d e = some (a, d2)) ∧
    ∀ a d2, loop_body G replace d e = some (a, d2) →
      d2.Inv ∧ d2.mmu.numFrames = d.mmu.numFrames := by
  obtain ⟨a, d1, hacc, hinv1, hnum1⟩ := access_inv G replace d e.1 hinv hp
  constructor
  · intro hv
    obtain ⟨d2, hm⟩ := (mark_spec d1 a.frame_no e.2).1 hv
    exact ⟨a, d2, by simp only [loop_body, hacc, hm]⟩
  · intro a' d2 h
    simp only [loop_body, hacc] at h
    cases hm : mark d1 a.frame_no e.2 with
    | none => simp [hm] at h
    | some d2' =>
      simp only [hm, Option.some.injEq, Prod.mk.injEq] at h
      obtain ⟨_, rfl⟩ := h
      obtain ⟨h1, h2⟩ := mark_inv d1 d2' a.frame_no e.2 hinv1 hm
      exact ⟨h1, by rw [h2, hnum1]⟩

theorem runLog_inv (G : LibcRand) (replace : repl) :
    ∀ (es : List (Int × Char)) (d : Driver), d.Inv → (∀ e ∈ es, 0 ≤ e.1) →
      ((∀ e ∈ es, validLetter e.2) → ∃ as d2, runLog G replace d es = some (as, d2)) ∧
      ∀ as d2, runLog G replace d es = some (as, d2) →
        d2.Inv ∧ d2.mmu.numFrames = d.mmu.numFrames := by
  intro es
  induction es with
  | nil =>
    intro d hinv _
    refine ⟨fun _ => ⟨[], d, rfl⟩, ?_⟩
    intro as d2 h
    simp only [runLog, Option.some.injEq, Prod.mk.injEq] at h
    obtain ⟨_, rfl⟩ := h
    exact ⟨hinv, rfl⟩
  | cons e es ih =>
    intro d hinv hpages
    obtain ⟨hsome, hstep⟩ := loop_body_inv G replace d e hinv (hpages e (List.mem_cons_self _ _))
    constructor
    · intro hv
      obtain ⟨a, d1, hb⟩ := hsome (hv e (List.mem_cons_self _ _))
      obtain ⟨hinv1, _⟩ := hstep a d1 hb
      obtain ⟨as, d2, hr⟩ := (ih d1 hinv1 (fun x hx => hpages x (List.mem_cons_of_mem _ hx))).1
        (fun x hx => hv x (List.mem_cons_of_mem _ hx))
      exact ⟨a :: as, d2, by simp only [runLog, hb, hr]⟩
    · intro as d2 h
      cases hb : loop_body G replace d e with
      | none => simp [runLog, hb] at h
      | some r =>
        obtain ⟨a, d1⟩ := r
        obtain ⟨hinv1, hnum1⟩ := hstep a d1 hb
        cases hr : runLog G replace d1 es with
        | none => simp [runLog, hb, hr] at h
        | some r2 =>
          obtain ⟨as', d2'⟩ := r2
          simp only [runLog, hb, hr, Option.some.injEq, Prod.mk.injEq] at h
          obtain ⟨_, rfl⟩ := h
          obtain ⟨h1, h2⟩ := (ih d1 hinv1
            (fun x hx => hpages x (List.mem_cons_of_mem _ hx))).2 as' d2' hr
          exact ⟨h1, by rw [h2, hnum1]⟩

/-- C1: residency uniqueness.  For `numFrames >= 1`, every policy and every
trace of events with non-negative page numbers, in the state reached after
the trace (any number of iterations of the driver loop from the state set up
by `createMMU`), and in the state reached at line 283 of a further iteration,
no page number is held by two different frames; and the run completes
whenever every access letter is one of `R`, `r`, `W`, `w`. -/
theorem residency_unique (G : LibcRand) (replace : repl) (frames : Nat)
    (es : List (Int × Char)) (hN : 1 ≤ frames) (hpages : ∀ e ∈ es, 0 ≤ e.1) :
    (∀ as d, run G replace frames es = some (as, d) →
      d.mmu.Unique ∧
      ∀ p, 0 ≤ p → ∀ a d1, access G replace d p = some (a, d1) → d1.mmu.Unique) ∧
    ((∀ e ∈ es, validLetter e.2) → ∃ as d, run G replace frames es = some (as, d)) := by
  obtain ⟨hsome, hstep⟩ := runLog_inv G replace es (Driver.init G frames)
    (init_inv G frames hN) hpages
  refine ⟨?_, hsome⟩
  intro as d h
  obtain ⟨hinv, _⟩ := hstep as d h
  refine ⟨hinv.2.2.2.2.2.2.2, ?_⟩
  intro p hp a d1 hacc
  obtain ⟨a', d1', hacc', hinv1, _⟩ := access_inv G replace d p hinv hp
  rw [hacc] at hacc'
  simp only [Option.some.injEq, Prod.mk.injEq] at hacc'
  obtain ⟨_, rfl⟩ := hacc'
  exact hinv1.2.2.2.2.2.2.2

/-- Witness of C1 on `demoTrace` with two frames under LRU: the run completes
and ends with pages 1 and 3 resident. -/
theorem residency_unique_witness :
    1 ≤ 2 ∧ (∀ e ∈ events demoTrace, 0 ≤ e.1) ∧
    (∀ e ∈ events demoTrace, validLetter e.2) ∧
    (run counterRand repl.lru 2 (events demoTrace)).map (fun r => r.2.mmu.frame_page)
      = some [1, 3] ∧
    ((∀ as d, run counterRand repl.lru 2 (events demoTrace) = some (as, d) →
      d.mmu.Unique ∧
      ∀ p, 0 ≤ p → ∀ a d1, access counterRand repl.lru d p = some (a, d1) → d1.mmu.Unique) ∧
    ((∀ e ∈ events demoTrace, validLetter e.2) →
      ∃ as d, run counterRand repl.lru 2 (events demoTrace) = some (as, d))) :=
  ⟨by decide, by decide, by decide, by decide,
   residency_unique counterRand repl.lru 2 (events demoTrace) (by decide) (by decide)⟩

/-! ### FIFO -/

theorem mod_ne_of_lt (i l n : Nat) (h1 : i < l) (h2 : l < i + n) : i % n ≠ l % n := by
  have hn : 0 < n := by omega
  have := cyclic_ne (i % n) n (l - i) (Nat.mod_lt _ hn) (by omega) (by omega)
  rw [Nat.mod_add_mod, show i + (l - i) = l by omega] at this
  exact Ne.symm this

theorem sub_mod_self (l n : Nat) (h : n ≤ l) : (l - n) % n = l % n := by
  conv_rhs => rw [show l = (l - n) + n by omega, Nat.add_mod_right]

/-- One pass through lines 264-283 under FIFO: a hit changes nothing of the
FIFO bookkeeping; a fault loads the page, with no victim during the first
`numFrames` faults and afterwards with the page loaded `numFrames` faults
earlier as victim. -/
theorem fifo_access (G : LibcRand) (d : Driver) (p : Int) (hist : List Int)
    (hinv : d.FifoInv hist) (hp : 0 ≤ p) :
    ∃ a d1, access G repl.fifo d p = some (a, d1) ∧ a.page_number = p ∧
      d1.mmu.numFrames = d.mmu.numFrames ∧
      ((a.fault = false ∧ d1.FifoInv hist) ∨
       (a.fault = true ∧ d1.FifoInv (hist ++ [p]) ∧
        (hist.length < d.mmu.numFrames → a.victim = none) ∧
        (d.mmu.numFrames ≤ hist.length →
          ∃ v, a.victim = some v ∧
            v.pageNo = hist.getD (hist.length - d.mmu.numFrames) 0))) := by
  obtain ⟨hI, hal, hhand, hpg⟩ := hinv
  obtain ⟨a0, d0, hacc0, hinv1, hnum1⟩ := access_inv G repl.fifo d p hI hp
  have hN : 1 ≤ d.mmu.numFrames := hI.1.1
  have hplen : d.mmu.frame_page.length = d.mmu.numFrames := hI.1.2.1
  rcases access_cases G repl.fifo d p hI with
    ⟨i, hi, _, _, heq⟩ | ⟨hmiss, hlt, heq⟩ | ⟨hmiss, hfull, f, s1, hc, hf, hs1, hlen, h1, h2, heq⟩
  · rw [heq] at hacc0
    simp only [Option.some.injEq, Prod.mk.injEq] at hacc0
    obtain ⟨_, rfl⟩ := hacc0
    exact ⟨_, _, heq, rfl, rfl, Or.inl ⟨rfl, hinv1, hal, hhand, hpg⟩⟩
  · rw [heq] at hacc0
    simp only [Option.some.injEq, Prod.mk.injEq] at hacc0
    obtain ⟨_, rfl⟩ := hacc0
    have hL : hist.length = d.allocated := by omega
    refine ⟨_, _, heq, rfl, rfl, Or.inr ⟨rfl, ⟨hinv1, ?_, ?_, ?_⟩, fun _ => rfl, ?_⟩⟩
    · show d.allocated + 1 = min (hist ++ [p]).length d.mmu.numFrames
      rw [List.length_append, List.length_singleton]
      omega
    · show d.mmu.fifo_hand = ((hist ++ [p]).length - d.mmu.numFrames) % d.mmu.numFrames
      rw [List.length_append, List.length_singleton, hhand]
      congr 1
      omega
    · intro i hi1 hi2
      rw [List.length_append, List.length_singleton] at hi1 hi2
      show (d.mmu.frame_page.set d.allocated p).getD (i % d.mmu.numFrames) 0 =
        (hist ++ [p]).getD i 0
      rw [Nat.mod_eq_of_lt (by omega)]
      by_cases hia : i = d.allocated
      · subst hia
        rw [getD_set_self _ _ _ _ (by omega),
          List.getD_append_right _ _ _ _ (by omega), hL, Nat.sub_self]
        rfl
      · rw [getD_set_ne _ _ _ _ _ (Ne.symm hia), List.getD_append _ _ _ _ (by omega)]
        have := hpg i (by omega) (by omega)
        rwa [Nat.mod_eq_of_lt (by omega)] at this
    · intro h
      omega
  · rw [heq] at hacc0
    simp only [Option.some.injEq, Prod.mk.injEq] at hacc0
    obtain ⟨_, rfl⟩ := hacc0
    have hL : d.mmu.numFrames ≤ hist.length := by omega
    simp only [choose_victim, choose_fifo_victim, Option.some.injEq, Prod.mk.injEq] at hc
    obtain ⟨hf0, hs0⟩ := hc
    have hfL : f = hist.length % d.mmu.numFrames := by
      rw [← hf0, hhand]
      exact sub_mod_self _ _ hL
    have hpage : s1.frame_page = d.mmu.frame_page := by rw [← hs0]
    have hhand1 : s1.fifo_hand = (d.mmu.fifo_hand + 1) % d.mmu.numFrames := by rw [← hs0]
    refine ⟨_, _, heq, rfl, hnum1, Or.inr ⟨rfl, ⟨hinv1, ?_, ?_, ?_⟩, fun h => by omega, ?_⟩⟩
    · show d.allocated = min (hist ++ [p]).length s1.numFrames
      rw [List.length_append, List.length_singleton, show s1.numFrames = d.mmu.numFrames from hnum1]
      omega
    · show s1.fifo_hand = ((hist ++ [p]).length - s1.numFrames) % s1.numFrames
      rw [List.length_append, List.length_singleton,
        show s1.numFrames = d.mmu.numFrames from hnum1, hhand1, hhand, Nat.mod_add_mod]
      congr 1
      omega
    · intro i hi1 hi2
      rw [List.length_append, List.length_singleton] at hi1
      have hi2' : hist.length + 1 ≤ i + d.mmu.numFrames := by
        have : (hist ++ [p]).length ≤ i + s1.numFrames := hi2
        rw [List.length_append, List.length_singleton,
          show s1.numFrames = d.mmu.numFrames from hnum1] at this
        exact this
      show (s1.frame_page.set f p).getD (i % s1.numFrames) 0 = (hist ++ [p]).getD i 0
      rw [show s1.numFrames = d.mmu.numFrames from hnum1, hpage]
      by_cases hiL : i = hist.length
      · subst hiL
        rw [← hfL, getD_set_self _ _ _ _ (by omega),
          List.getD_append_right _ _ _ _ (le_refl _), Nat.sub_self]
        rfl
      · have hne : f ≠ i % d.mmu.numFrames := by
          rw [hfL]
          exact Ne.symm (mod_ne_of_lt i hist.length d.mmu.numFrames (by omega) (by omega))
        rw [getD_set_ne _ _ _ _ _ hne, List.getD_append _ _ _ _ (by omega)]
        exact hpg i (by omega) (by omega)
    · intro _
      refine ⟨_, rfl, ?_⟩
      show d.mmu.frame_page.getD f 0 = hist.getD (hist.length - d.mmu.numFrames) 0
      have := hpg (hist.length - d.mmu.numFrames) (by omega) (by omega)
      rw [sub_mod_self _ _ hL, ← hfL] at this
      exact this

theorem mark_fifo (d d2 : Driver) (frame_no : Int) (rw : Char) (hist : List Int)
    (hinv : d.FifoInv hist) (h : mark d frame_no rw = some d2) :
    d2.FifoInv hist ∧ d2.mmu.numFrames = d.mmu.numFrames := by
  obtain ⟨hI, hal, hhand, hpg⟩ := hinv
  obtain ⟨hI2, hnum⟩ := mark_inv d d2 frame_no rw hI h
  obtain ⟨heq, _⟩ := (mark_spec d frame_no rw).2 d2 h
  refine ⟨⟨hI2, ?_, ?_, ?_⟩, hnum⟩
  · rw [heq]; exact hal
  · rw [heq]; exact hhand
  · rw [heq]; exact hpg

theorem init_fifo (G : LibcRand) (frames : Nat) (hN : 1 ≤ frames) :
    (Driver.init G frames).FifoInv [] := by
  refine ⟨init_inv G frames hN, ?_, ?_, ?_⟩
  · simp [Driver.init]
  · simp [Driver.init, createMMU]
  · intro i hi
    exact absurd hi (Nat.not_lt_zero _)

theorem fifo_runLog (G : LibcRand) :
    ∀ (es : List (Int × Char)) (d : Driver) (hist : List Int),
      d.FifoInv hist → (∀ e ∈ es, 0 ≤ e.1) →
      ∀ as d2, runLog G repl.fifo d es = some (as, d2) →
        as.map (fun a => a.page_number) = es.map (fun e => e.1) ∧
        d2.mmu.numFrames = d.mmu.numFrames ∧
        d2.FifoInv (hist ++ (faults as).map (fun a => a.page_number)) ∧
        ∀ j a, (faults as)[j]? = some a →
          (hist.length + j < d.mmu.numFrames → a.victim = none) ∧
          (d.mmu.numFrames ≤ hist.length + j →
            ∃ v, a.victim = some v ∧
              v.pageNo = (hist ++ (faults as).map (fun a => a.page_number)).getD
                (hist.length + j - d.mmu.numFrames) 0) := by
  intro es
  induction es with
  | nil =>
    intro d hist hinv _ as d2 h
    simp only [runLog, Option.some.injEq, Prod.mk.injEq] at h
    obtain ⟨rfl, rfl⟩ := h
    refine ⟨rfl, rfl, by simpa [faults] using hinv, ?_⟩
    intro j a hj
    simp [faults] at hj
  | cons e es ih =>
    intro d hist hinv hpages as d2 h
    obtain ⟨a, d1, hacc, hpn, hnum1, hcase⟩ :=
      fifo_access G d e.1 hist hinv (hpages e (List.mem_cons_self _ _))
    have hpages' : ∀ x ∈ es, 0 ≤ x.1 := fun x hx => hpages x (List.mem_cons_of_mem _ hx)
    cases hm : mark d1 a.frame_no e.2 with
    | none => simp [runLog, loop_body, hacc, hm] at h
    | some d1' =>
      cases hr : runLog G repl.fifo d1' es with
      | none => simp [runLog, loop_body, hacc, hm, hr] at h
      | some r =>
        obtain ⟨as', d2'⟩ := r
        simp only [runLog, loop_body, hacc, hm, hr, Option.some.injEq, Prod.mk.injEq] at h
        obtain ⟨rfl, rfl⟩ := h
        rcases hcase with ⟨hfault, hinv1⟩ | ⟨hfault, hinv1, hvnone, hvsome⟩
        · obtain ⟨hinv1', hnum1'⟩ := mark_fifo d1 d1' a.frame_no e.2 hist hinv1 hm
          obtain ⟨ih1, ih2, ih3, ih4⟩ := ih d1' hist hinv1' hpages' as' d2' hr
          have hf : faults (a :: as') = faults as' := by
            simp [faults, List.filter_cons, hfault]
          rw [hf]
          refine ⟨by simp [hpn, ih1], by rw [ih2, hnum1', hnum1], ih3, ?_⟩
          intro j a' hj
          have := ih4 j a' hj
          rw [hnum1', hnum1] at this
          exact this
        · obtain ⟨hinv1', hnum1'⟩ := mark_fifo d1 d1' a.frame_no e.2 _ hinv1 hm
          obtain ⟨ih1, ih2, ih3, ih4⟩ := ih d1' (hist ++ [e.1]) hinv1' hpages' as' d2' hr
          have hf : faults (a :: as') = a :: faults as' := by
            simp [faults, List.filter_cons, hfault]
          have happ : hist ++ (faults (a :: as')).map (fun a => a.page_number) =
              (hist ++ [e.1]) ++ (faults as').map (fun a => a.page_number) := by
            rw [hf, List.map_cons, hpn, List.append_assoc]
            rfl
          rw [happ]
          refine ⟨by simp [hpn, ih1], by rw [ih2, hnum1', hnum1], ih3, ?_⟩
          intro j a' hj
          rw [hf] at hj
          cases j with
          | zero =>
            simp only [List.getElem?_cons_zero, Option.some.injEq] at hj
            subst hj
            refine ⟨fun h => hvnone (by omega), fun h => ?_⟩
            obtain ⟨v, hv1, hv2⟩ := hvsome (by omega)
            refine ⟨v, hv1, ?_⟩
            have hN : 1 ≤ d.mmu.numFrames := hinv.1.1.1
            rw [hv2, List.append_assoc, List.getD_append _ _ _ _ (by omega)]
            rfl
          | succ j =>
            simp only [List.getElem?_cons_succ] at hj
            have := ih4 j a' hj
            rw [hnum1', hnum1, List.length_append, List.length_singleton] at this
            rw [show hist.length + (j + 1) = hist.length + 1 + j by omega]
            exact this

/-- C6: FIFO eviction order.  In a run over non-negative page numbers with
`numFrames = N >= 1` under policy fifo, number the page faults 0, 1, 2, ... in
trace order.  The first `N` faults evict nothing, and for every `j >= N` the
page evicted at fault `j` is the page loaded at fault `j - N`, whatever hits
occur in between.  This holds for the faults of the completed iterations and
for a fault at lines 264-283 of the iteration that follows them.  (The
iteration records carry the page numbers of the trace in order.) -/
theorem fifo_eviction_order (G : LibcRand) (frames : Nat) (es : List (Int × Char))
    (as : List Access) (d : Driver) (hN : 1 ≤ frames) (hpages : ∀ e ∈ es, 0 ≤ e.1)
    (hrun : run G repl.fifo frames es = some (as, d)) :
    as.map (fun a => a.page_number) = es.map (fun e => e.1) ∧
    (∀ j a, (faults as)[j]? = some a →
      (j < frames → a.victim = none) ∧
      (frames ≤ j →
        ∃ b v, (faults as)[j - frames]? = some b ∧ a.victim = some v ∧
          v.pageNo = b.page_number)) ∧
    (∀ p a d1, 0 ≤ p → access G repl.fifo d p = some (a, d1) → a.fault = true →
      ((faults as).length < frames → a.victim = none) ∧
      (frames ≤ (faults as).length →
        ∃ b v, (faults as)[(faults as).length - frames]? = some b ∧ a.victim = some v ∧
          v.pageNo = b.page_number)) := by
  obtain ⟨h1, h2, h3, h4⟩ := fifo_runLog G es (Driver.init G frames) []
    (init_fifo G frames hN) hpages as d hrun
  have hfr : (Driver.init G frames).mmu.numFrames = frames := rfl
  rw [hfr] at h2
  rw [List.nil_append] at h3
  refine ⟨h1, ?_, ?_⟩
  · intro j a hj
    obtain ⟨hnone, hsome⟩ := h4 j a hj
    have hjlt : j < (faults as).length := by
      obtain ⟨h, _⟩ := List.getElem?_eq_some.1 hj
      exact h
    constructor
    · intro h
      exact hnone (by simpa [Driver.init, createMMU] using h)
    · intro h
      obtain ⟨v, hv1, hv2⟩ := hsome (by simpa [Driver.init, createMMU] using h)
      have hlt : j - frames < (faults as).length := by omega
      refine ⟨(faults as)[j - frames], v, List.getElem?_eq_getElem hlt, hv1, ?_⟩
      rw [hv2]
      simp only [List.nil_append, List.length_nil, Nat.zero_add]
      rw [hfr, List.getD_eq_getElem _ _ (by simpa using hlt), List.getElem_map]
  · intro p a d1 hp hacc hfault
    obtain ⟨a', d1', hacc', _, _, hcase⟩ := fifo_access G d p _ h3 hp
    rw [hacc] at hacc'
    simp only [Option.some.injEq, Prod.mk.injEq] at hacc'
    obtain ⟨rfl, _⟩ := hacc'
    rcases hcase with ⟨hf, _⟩ | ⟨_, _, hvnone, hvsome⟩
    · rw [hf] at hfault
      exact absurd hfault (by simp)
    · rw [List.length_map, h2] at hvnone hvsome
      refine ⟨hvnone, fun h => ?_⟩
      obtain ⟨v, hv1, hv2⟩ := hvsome h
      have hlt : (faults as).length - frames < (faults as).length := by omega
      refine ⟨(faults as)[(faults as).length - frames], v, List.getElem?_eq_getElem hlt,
        hv1, ?_⟩
      rw [hv2, List.getD_eq_getElem _ _ (by simpa using hlt), List.getElem_map]

/-- Witness of C6: with two frames, `fifoTrace` gives three faults, the third
evicting page 1 clean, so `disk_reads = 3` and `disk_writes = 0`; with three
frames, the accesses `A, B, C, A, D` evict `A` at the fault on `D`. -/
theorem fifo_eviction_order_witness :
    1 ≤ 2 ∧ (∀ e ∈ events fifoTrace, 0 ≤ e.1) ∧
    run counterRand repl.fifo 2 (events fifoTrace) = some (fifoRecords, fifoFinal) ∧
    fifoFinal.disk_reads = 3 ∧ fifoFinal.disk_writes = 0 ∧
    (run counterRand repl.fifo 3 abcadEvents).map
        (fun r => (faults r.1).map (fun a => (a.page_number, a.victim))) =
      some [(10, none), (11, none), (12, none),
            (13, some { pageNo := 10, modified := 0 })] ∧
    ((2 < 2 → (some { pageNo := 1, modified := 0 } : Option page) = none) ∧
     (2 ≤ 2 → ∃ b v, (faults fifoRecords)[2 - 2]? = some b ∧
        (some { pageNo := 1, modified := 0 } : Option page) = some v ∧
        v.pageNo = b.page_number)) :=
  ⟨by decide, by decide, by decide, by decide, by decide, by decide,
   (fifo_eviction_order counterRand 2 (events fifoTrace) fifoRecords fifoFinal
      (by decide) (by decide) (by decide)).2.1 2
      { page_number := 3, frame_no := 0, fault := true,
        victim := some { pageNo := 1, modified := 0 } } (by decide)⟩

/-! ### LRU -/

theorem lastAccess_snoc (ps : List Int) (p q : Int) :
    lastAccess (ps ++ [p]) q = if p = q then some ps.length else lastAccess ps q := by
  induction ps with
  | nil =>
    simp only [List.nil_append, lastAccess, List.length_nil]
  | cons x xs ih =>
    have e : lastAccess ((x :: xs) ++ [p]) q =
        match lastAccess (xs ++ [p]) q with
        | some i => some (i + 1)
        | none => if x = q then some 0 else none := rfl
    rw [e, ih]
    by_cases hpq : p = q
    · simp only [if_pos hpq, List.length_cons]
    · simp only [if_neg hpq, lastAccess]

theorem lastAccess_some (ps : List Int) (q : Int) :
    ∀ i, lastAccess ps q = some i → i < ps.length ∧ ps.getD i 0 = q := by
  induction ps with
  | nil => intro i h; simp [lastAccess] at h
  | cons x xs ih =>
    intro i h
    simp only [lastAccess] at h
    cases hl : lastAccess xs q with
    | some k =>
      simp only [hl, Option.some.injEq] at h
      subst h
      obtain ⟨h1, h2⟩ := ih k hl
      exact ⟨by simp only [List.length_cons]; omega, by simpa using h2⟩
    | none =>
      simp only [hl] at h
      by_cases hxq : x = q
      · simp only [if_pos hxq, Option.some.injEq] at h
        subst h
        exact ⟨by simp, by simpa using hxq⟩
      · simp only [if_neg hxq] at h
        exact absurd h (by simp)

theorem choose_lru_victim_le (s : MMU) (hwf : s.WellFormed) :
    ∀ j, j < s.numFrames →
      s.frame_last.getD (choose_lru_victim s).1 0 ≤ s.frame_last.getD j 0 := by
  obtain ⟨hN, _, _, _, hl, _, hb⟩ := hwf
  have h0 : s.frame_last.getD 0 0 ≤ ULL - 1 := by
    have := hb _ (getD_mem_of_lt s.frame_last 0 0 (by omega))
    omega
  obtain ⟨_, h2, _⟩ := choose_lru_loop_spec s s.numFrames 0 (ULL - 1) 0
    (fun j hj => by omega) h0 (fun j hj => by omega) (Or.inl rfl)
  intro j hj
  exact h2 j (by omega)

/-- How an access to page `p` served in frame `x` updates the LRU
bookkeeping. -/
theorem lru_update (d d1 : Driver) (hist : List Int) (p : Int) (x : Nat)
    (hinv : d.LruInv hist) (hinv1 : d1.Inv) (hx : x < d1.allocated)
    (hpx : d1.mmu.frame_page.getD x 0 = p)
    (hlx : d1.mmu.frame_last.getD x 0 = d1.mmu.tnow)
    (ht : d.mmu.tnow < d1.mmu.tnow) (ht2 : d1.mmu.tnow ≤ d.mmu.tnow + 2)
    (hrest : ∀ y, y < d1.allocated → y ≠ x →
      y < d.allocated ∧ d1.mmu.frame_page.getD y 0 = d.mmu.frame_page.getD y 0 ∧
      d1.mmu.frame_last.getD y 0 = d.mmu.frame_last.getD y 0 ∧
      d.mmu.frame_page.getD y 0 ≠ p) :
    d1.LruInv (hist ++ [p]) := by
  obtain ⟨_, hacc, hord, hle, hbound⟩ := hinv
  have hold : ∀ y, y < d1.allocated → y ≠ x →
      lastAccess (hist ++ [p]) (d1.mmu.frame_page.getD y 0) =
        lastAccess hist (d.mmu.frame_page.getD y 0) := by
    intro y hy hyx
    obtain ⟨_, h2, _, h4⟩ := hrest y hy hyx
    rw [lastAccess_snoc, h2, if_neg (Ne.symm h4)]
  have hnew : lastAccess (hist ++ [p]) (d1.mmu.frame_page.getD x 0) = some hist.length := by
    rw [lastAccess_snoc, hpx, if_pos rfl]
  refine ⟨hinv1, ?_, ?_, ?_, ?_⟩
  · intro f hf
    by_cases hfx : f = x
    · subst hfx; exact ⟨_, hnew⟩
    · rw [hold f hf hfx]
      exact hacc f (hrest f hf hfx).1
  · intro f g i j hf hg hi hj hij
    by_cases hgx : g = x
    · subst hgx
      by_cases hfx : f = g
      · subst hfx
        rw [hi] at hj
        simp only [Option.some.injEq] at hj
        omega
      · obtain ⟨h1, _, h3, _⟩ := hrest f hf hfx
        rw [h3, hlx]
        exact lt_of_le_of_lt (hle f h1) ht
    · rw [hold g hg hgx] at hj
      obtain ⟨g1, _, g3, _⟩ := hrest g hg hgx
      by_cases hfx : f = x
      · subst hfx
        rw [hnew] at hi
        simp only [Option.some.injEq] at hi
        have := (lastAccess_some hist _ j hj).1
        omega
      · rw [hold f hf hfx] at hi
        obtain ⟨f1, _, f3, _⟩ := hrest f hf hfx
        rw [f3, g3]
        exact hord f g i j f1 g1 hi hj hij
  · intro f hf
    by_cases hfx : f = x
    · subst hfx; rw [hlx]
    · obtain ⟨h1, _, h3, _⟩ := hrest f hf hfx
      rw [h3]
      exact le_trans (hle f h1) (le_of_lt ht)
  · rw [List.length_append, List.length_singleton]
    omega

/-- One pass through lines 264-283 under LRU, while `tnow` is at least two
increments away from wrapping: the LRU bookkeeping is kept, and a victim, when
there is one, is a resident page whose most recent access is older than that
of every other resident page. -/
theorem lru_access (G : LibcRand) (d : Driver) (p : Int) (hist : List Int)
    (hinv : d.LruInv hist) (hp : 0 ≤ p) (hnw : d.mmu.tnow + 2 < ULL) :
    ∃ a d1, access G repl.lru d p = some (a, d1) ∧ d1.LruInv (hist ++ [p]) ∧
      d1.mmu.numFrames = d.mmu.numFrames ∧
      ∀ v, a.victim = some v →
        (∀ g, g < d.mmu.numFrames → 0 ≤ d.mmu.frame_page.getD g 0) ∧
        (∃ f, f < d.mmu.numFrames ∧ d.mmu.frame_page.getD f 0 = v.pageNo) ∧
        ∃ iv, lastAccess hist v.pageNo = some iv ∧
          ∀ g, g < d.mmu.numFrames → d.mmu.frame_page.getD g 0 ≠ v.pageNo →
            ∃ ig, lastAccess hist (d.mmu.frame_page.getD g 0) = some ig ∧ iv < ig := by
  have hinv' := hinv
  obtain ⟨hI, hacc, hord, hle, hbound⟩ := hinv'
  have hI' := hI
  obtain ⟨hwf, hfifo, hclock, hale, hnfi, hocc, hfree, huniq⟩ := hI'
  obtain ⟨hN, hplen, hdlen, hrlen, hllen, _, _⟩ := hwf
  obtain ⟨a0, d0, hacc0, hinv1, hnum1⟩ := access_inv G repl.lru d p hI hp
  have ht1 : (d.mmu.tnow + 1) % ULL = d.mmu.tnow + 1 := Nat.mod_eq_of_lt (by omega)
  have ht2 : (d.mmu.tnow + 1 + 1) % ULL = d.mmu.tnow + 2 := Nat.mod_eq_of_lt (by omega)
  rcases access_cases G repl.lru d p hI with
    ⟨i, hi, hpi, _, heq⟩ | ⟨hmiss, hlt, heq⟩ | ⟨hmiss, hfull, f, s1, hc, hf, hs1, hlen, h1, h2, heq⟩
  · rw [heq] at hacc0
    simp only [Option.some.injEq, Prod.mk.injEq] at hacc0
    obtain ⟨_, rfl⟩ := hacc0
    have hia : i < d.allocated := by
      by_contra hcon
      have := hfree i (by omega) hi
      omega
    refine ⟨_, _, heq, ?_, rfl, fun v hv => by simp at hv⟩
    apply lru_update d _ hist p i hinv hinv1 hia hpi
    · show (d.mmu.frame_last.set i ((d.mmu.tnow + 1) % ULL)).getD i 0 = (d.mmu.tnow + 1) % ULL
      exact getD_set_self _ _ _ _ (by omega)
    · show d.mmu.tnow < (d.mmu.tnow + 1) % ULL
      omega
    · show (d.mmu.tnow + 1) % ULL ≤ d.mmu.tnow + 2
      omega
    · intro y hy hyi
      have hy' : y < d.allocated := hy
      refine ⟨hy', rfl, ?_, ?_⟩
      · show (d.mmu.frame_last.set i ((d.mmu.tnow + 1) % ULL)).getD y 0 = _
        exact getD_set_ne _ _ _ _ _ (Ne.symm hyi)
      · rw [← hpi]
        exact huniq y i (by omega) hi hyi (by have := hocc y hy'; omega)
  · rw [heq] at hacc0
    simp only [Option.some.injEq, Prod.mk.injEq] at hacc0
    obtain ⟨_, rfl⟩ := hacc0
    refine ⟨_, _, heq, ?_, rfl, fun v hv => by simp at hv⟩
    apply lru_update d _ hist p d.allocated hinv hinv1
    · show d.allocated < d.allocated + 1
      omega
    · show (d.mmu.frame_page.set d.allocated p).getD d.allocated 0 = p
      exact getD_set_self _ _ _ _ (by omega)
    · show (d.mmu.frame_last.set d.allocated ((d.mmu.tnow + 1) % ULL)).getD d.allocated 0 =
        (d.mmu.tnow + 1) % ULL
      exact getD_set_self _ _ _ _ (by omega)
    · show d.mmu.tnow < (d.mmu.tnow + 1) % ULL
      omega
    · show (d.mmu.tnow + 1) % ULL ≤ d.mmu.tnow + 2
      omega
    · intro y hy hya
      have hy' : y < d.allocated + 1 := hy
      refine ⟨by omega, ?_, ?_, hmiss y (by omega)⟩
      · show (d.mmu.frame_page.set d.allocated p).getD y 0 = _
        exact getD_set_ne _ _ _ _ _ (Ne.symm hya)
      · show (d.mmu.frame_last.set d.allocated ((d.mmu.tnow + 1) % ULL)).getD y 0 = _
        exact getD_set_ne _ _ _ _ _ (Ne.symm hya)
  · rw [heq] at hacc0
    simp only [Option.some.injEq, Prod.mk.injEq] at hacc0
    obtain ⟨_, rfl⟩ := hacc0
    simp only [choose_victim, Option.some.injEq] at hc
    have hfv : (choose_lru_victim d.mmu).1 = f := by rw [hc]
    have hs : s1 = d.mmu := by
      have : (choose_lru_victim d.mmu).2 = s1 := by rw [hc]
      rw [← this]; rfl
    subst hs
    refine ⟨_, _, heq, ?_, rfl, ?_⟩
    · apply lru_update d _ hist p f hinv hinv1
      · show f < d.allocated
        omega
      · show (d.mmu.frame_page.set f p).getD f 0 = p
        exact getD_set_self _ _ _ _ (by omega)
      · show ((d.mmu.frame_last.set f ((d.mmu.tnow + 1) % ULL)).set f
            (((d.mmu.tnow + 1) % ULL + 1) % ULL)).getD f 0 = ((d.mmu.tnow + 1) % ULL + 1) % ULL
        exact getD_set_self _ _ _ _ (by rw [List.length_set]; omega)
      · show d.mmu.tnow < ((d.mmu.tnow + 1) % ULL + 1) % ULL
        rw [ht1, ht2]; omega
      · show ((d.mmu.tnow + 1) % ULL + 1) % ULL ≤ d.mmu.tnow + 2
        rw [ht1, ht2]
      · intro y hy hyf
        have hy' : y < d.allocated := hy
        refine ⟨hy', ?_, ?_, hmiss y (by omega)⟩
        · show (d.mmu.frame_page.set f p).getD y 0 = _
          exact getD_set_ne _ _ _ _ _ (Ne.symm hyf)
        · show ((d.mmu.frame_last.set f ((d.mmu.tnow + 1) % ULL)).set f
              (((d.mmu.tnow + 1) % ULL + 1) % ULL)).getD y 0 = _
          rw [getD_set_ne _ _ _ _ _ (Ne.symm hyf), getD_set_ne _ _ _ _ _ (Ne.symm hyf)]
    · intro v hv
      simp only [Option.some.injEq] at hv
      subst hv
      refine ⟨fun g hg => hocc g (by omega), ⟨f, hf, rfl⟩, ?_⟩
      obtain ⟨iv, hiv⟩ := hacc f (by omega)
      refine ⟨iv, hiv, ?_⟩
      intro g hg hne
      obtain ⟨ig, hig⟩ := hacc g (by omega)
      refine ⟨ig, hig, ?_⟩
      by_contra hcon
      have hneq : ig ≠ iv := by
        intro h
        subst h
        apply hne
        rw [← (lastAccess_some hist _ ig hig).2, ← (lastAccess_some hist _ ig hiv).2]
      have hlt := hord g f ig iv (by omega) (by omega) hig hiv (by omega)
      have hmin := choose_lru_victim_le d.mmu hI.1 g hg
      rw [hfv] at hmin
      omega

theorem mark_lru (d d2 : Driver) (frame_no : Int) (rw : Char) (hist : List Int)
    (hinv : d.LruInv hist) (h : mark d frame_no rw = some d2) :
    d2.LruInv hist ∧ d2.mmu.numFrames = d.mmu.numFrames ∧
    d2.mmu.frame_page = d.mmu.frame_page := by
  obtain ⟨hI, hacc, hord, hle, hbound⟩ := hinv
  obtain ⟨hI2, hnum⟩ := mark_inv d d2 frame_no rw hI h
  obtain ⟨heq, _⟩ := (mark_spec d frame_no rw).2 d2 h
  refine ⟨⟨hI2, ?_, ?_, ?_, ?_⟩, hnum, by rw [heq]⟩
  · rw [heq]; exact hacc
  · rw [heq]; exact hord
  · rw [heq]; exact hle
  · rw [heq]; exact hbound

theorem init_lru (G : LibcRand) (frames : Nat) (hN : 1 ≤ frames) :
    (Driver.init G frames).LruInv [] := by
  refine ⟨init_inv G frames hN, ?_, ?_, ?_, ?_⟩
  · intro f hf
    exact absurd hf (Nat.not_lt_zero _)
  · intro f g i j hf
    exact absurd hf (Nat.not_lt_zero _)
  · intro f hf
    exact absurd hf (Nat.not_lt_zero _)
  · simp [Driver.init, createMMU]

theorem lru_runLog (G : LibcRand) :
    ∀ (es : List (Int × Char)) (d : Driver) (hist : List Int),
      d.LruInv hist → (∀ e ∈ es, 0 ≤ e.1) → 2 * (hist.length + es.length) < ULL →
      ∀ as d2, runLog G repl.lru d es = some (as, d2) →
        d2.LruInv (hist ++ es.map (fun e => e.1)) ∧
        d2.mmu.numFrames = d.mmu.numFrames := by
  intro es
  induction es with
  | nil =>
    intro d hist hinv _ _ as d2 h
    simp only [runLog, Option.some.injEq, Prod.mk.injEq] at h
    obtain ⟨_, rfl⟩ := h
    exact ⟨by simpa using hinv, rfl⟩
  | cons e es ih =>
    intro d hist hinv hpages hlen as d2 h
    rw [List.length_cons] at hlen
    have hb := hinv.2.2.2.2
    obtain ⟨a, d1, hacc, hinv1, hnum1, _⟩ :=
      lru_access G d e.1 hist hinv (hpages e (List.mem_cons_self _ _)) (by omega)
    cases hm : mark d1 a.frame_no e.2 with
    | none => simp [runLog, loop_body, hacc, hm] at h
    | some d1' =>
      cases hr : runLog G repl.lru d1' es with
      | none => simp [runLog, loop_body, hacc, hm, hr] at h
      | some r =>
        obtain ⟨as', d2'⟩ := r
        simp only [runLog, loop_body, hacc, hm, hr, Option.some.injEq, Prod.mk.injEq] at h
        obtain ⟨_, rfl⟩ := h
        obtain ⟨hinv1', hnum1', _⟩ := mark_lru d1 d1' a.frame_no e.2 _ hinv1 hm
        obtain ⟨ih1, ih2⟩ := ih d1' (hist ++ [e.1]) hinv1'
          (fun x hx => hpages x (List.mem_cons_of_mem _ hx))
          (by rw [List.length_append, List.length_singleton]; omega) as' d2' hr
        refine ⟨?_, by rw [ih2, hnum1', hnum1]⟩
        rw [List.map_cons, show hist ++ e.1 :: es.map (fun e => e.1) =
          (hist ++ [e.1]) ++ es.map (fun e => e.1) by simp]
        exact ih1

/-- C8: LRU over a trace.  Run the driver with `numFrames >= 1` under policy
lru over the events `pre` (non-negative page numbers, fewer than `2 ^ 63`
events, so that `tnow` does not wrap; the driver counts events in an `int`),
and let the access to the next page `p` (lines 264-283) evict the victim `v`.
Then every
frame is occupied, `v` is resident, and the most recent access to `v` lies
earlier in the trace than the most recent access to every other resident
page. -/
theorem lru_evicts_least_recent (G : LibcRand) (frames : Nat) (pre : List (Int × Char))
    (p : Int) (as : List Access) (d : Driver) (a : Access) (d1 : Driver) (v : page)
    (hN : 1 ≤ frames) (hpages : ∀ x ∈ pre, 0 ≤ x.1) (hp : 0 ≤ p)
    (hlen : 2 * (pre.length + 1) < ULL)
    (hrun : run G repl.lru frames pre = some (as, d))
    (hacc : access G repl.lru d p = some (a, d1)) (hv : a.victim = some v) :
    (∀ g, g < frames → 0 ≤ d.mmu.frame_page.getD g 0) ∧
    (∃ f, f < frames ∧ d.mmu.frame_page.getD f 0 = v.pageNo) ∧
    ∃ iv, lastAccess (pre.map (fun x => x.1)) v.pageNo = some iv ∧
      ∀ g, g < frames → d.mmu.frame_page.getD g 0 ≠ v.pageNo →
        ∃ ig, lastAccess (pre.map (fun x => x.1)) (d.mmu.frame_page.getD g 0) = some ig ∧
          iv < ig := by
  obtain ⟨hinv, hnum⟩ := lru_runLog G pre (Driver.init G frames) [] (init_lru G frames hN)
    hpages (by simp only [List.length_nil]; omega) as d hrun
  rw [List.nil_append] at hinv
  have hfr : d.mmu.numFrames = frames := hnum
  have hb := hinv.2.2.2.2
  rw [List.length_map] at hb
  obtain ⟨a', d1', hacc', _, _, hvict⟩ := lru_access G d p (pre.map (fun x => x.1)) hinv
    hp (by omega)
  rw [hacc] at hacc'
  simp only [Option.some.injEq, Prod.mk.injEq] at hacc'
  obtain ⟨rfl, _⟩ := hacc'
  have := hvict v hv
  rw [hfr] at this
  exact this

/-- Witness of C8: with two frames, after the accesses `A, B, A` the access to
`C` evicts `B`, whose most recent access (position 1) is older than that of `A`
(position 2). -/
theorem lru_evicts_least_recent_witness :
    1 ≤ 2 ∧ (∀ x ∈ abaEvents, 0 ≤ x.1) ∧ (0 : Int) ≤ 12 ∧
    2 * (abaEvents.length + 1) < ULL ∧
    run counterRand repl.lru 2 abaEvents = some (lruRecords, lruMid) ∧
    access counterRand repl.lru lruMid 12 = some (lruAccess, lruAfter) ∧
    lruAccess.victim = some { pageNo := 11, modified := 0 } ∧
    lastAccess (abaEvents.map (fun x => x.1)) 11 = some 1 ∧
    lastAccess (abaEvents.map (fun x => x.1)) 10 = some 2 ∧
    ((∀ g, g < 2 → 0 ≤ lruMid.mmu.frame_page.getD g 0) ∧
     (∃ f, f < 2 ∧ lruMid.mmu.frame_page.getD f 0 = 11) ∧
     ∃ iv, lastAccess (abaEvents.map (fun x => x.1)) 11 = some iv ∧
      ∀ g, g < 2 → lruMid.mmu.frame_page.getD g 0 ≠ 11 →
        ∃ ig, lastAccess (abaEvents.map (fun x => x.1)) (lruMid.mmu.frame_page.getD g 0)
            = some ig ∧ iv < ig) :=
  ⟨by decide, by decide, by decide, by decide, by decide, by decide, by decide, by decide,
   by decide,
   lru_evicts_least_recent counterRand 2 abaEvents 12 lruRecords lruMid lruAccess
     lruAfter { pageNo := 11, modified := 0 } (by decide) (by decide) (by decide)
     (by decide) (by decide) (by decide) (by decide)⟩

/-! ### Frames, counters and indices along a run -/

theorem loop_body_some (G : LibcRand) (replace : repl) (d d2 : Driver) (e : Int × Char)
    (a : Access) (h : loop_body G replace d e = some (a, d2)) :
    ∃ d1, access G replace d e.1 = some (a, d1) ∧ mark d1 a.frame_no e.2 = some d2 := by
  cases hacc : access G replace d e.1 with
  | none => simp [loop_body, hacc] at h
  | some r =>
    obtain ⟨a', d1⟩ := r
    cases hm : mark d1 a'.frame_no e.2 with
    | none => simp [loop_body, hacc, hm] at h
    | some d2' =>
      simp only [loop_body, hacc, hm, Option.some.injEq, Prod.mk.injEq] at h
      obtain ⟨rfl, rfl⟩ := h
      exact ⟨d1, rfl, hm⟩

theorem runLog_cons_some (G : LibcRand) (replace : repl) (d d2 : Driver) (e : Int × Char)
    (es : List (Int × Char)) (as : List Access)
    (h : runLog G replace d (e :: es) = some (as, d2)) :
    ∃ a d1 as', loop_body G replace d e = some (a, d1) ∧
      runLog G replace d1 es = some (as', d2) ∧ as = a :: as' := by
  cases hb : loop_body G replace d e with
  | none => simp [runLog, hb] at h
  | some r =>
    obtain ⟨a, d1⟩ := r
    cases hr : runLog G replace d1 es with
    | none => simp [runLog, hb, hr] at h
    | some r2 =>
      obtain ⟨as', d2'⟩ := r2
      simp only [runLog, hb, hr, Option.some.injEq, Prod.mk.injEq] at h
      obtain ⟨rfl, rfl⟩ := h
      exact ⟨a, d1, as', rfl, hr, rfl⟩

theorem runLog_append_some (G : LibcRand) (replace : repl) :
    ∀ (es1 es2 : List (Int × Char)) (d d2 : Driver) (as : List Access),
      runLog G replace d (es1 ++ es2) = some (as, d2) →
      ∃ as1 d1 as2, runLog G replace d es1 = some (as1, d1) ∧
        runLog G replace d1 es2 = some (as2, d2) ∧ as = as1 ++ as2 := by
  intro es1
  induction es1 with
  | nil =>
    intro es2 d d2 as h
    exact ⟨[], d, as, rfl, h, rfl⟩
  | cons e es ih =>
    intro es2 d d2 as h
    obtain ⟨a, d1, as', hb, hr, rfl⟩ := runLog_cons_some G replace d d2 e (es ++ es2) as h
    obtain ⟨as1, d1', as2, h1, h2, rfl⟩ := ih es2 d1 d2 as' hr
    exact ⟨a :: as1, d1', as2, by simp only [runLog, hb, h1], h2, rfl⟩

/-- The lookup that follows `selectVictim` finds the page in the frame that
was just overwritten. -/
theorem second_lookup (s s1 : MMU) (f : Nat) (p : Int)
    (hplen : s.frame_page.length = s.numFrames) (hf : f < s.numFrames)
    (hnum : s1.numFrames = s.numFrames) (hpage : s1.frame_page = s.frame_page)
    (hmiss : ∀ i, i < s.numFrames → s.frame_page.getD i 0 ≠ p) :
    checkInMemory (install s1 f p) p = ((f : Int), touch (install s1 f p) f) := by
  apply checkInMemory_hit
  · show f < s1.numFrames
    omega
  · show (s1.frame_page.set f p).getD f 0 = p
    rw [hpage]
    exact getD_set_self _ _ _ _ (by omega)
  · intro j hj
    show (s1.frame_page.set f p).getD j 0 ≠ p
    rw [hpage, getD_set_ne _ _ _ _ _ (by omega)]
    exact hmiss j (by omega)

/-- Summary of lines 264-283 in a state that satisfies the loop invariant: the
frame `x` that ends up holding the page, and what happened to the other
frames and to the counters. -/
theorem access_frame (G : LibcRand) (replace : repl) (d : Driver) (p : Int)
    (hinv : d.Inv) (hp : 0 ≤ p) :
    ∃ (a : Access) (d1 : Driver) (x : Nat), access G replace d p = some (a, d1) ∧ d1.Inv ∧
      d1.mmu.numFrames = d.mmu.numFrames ∧ a.page_number = p ∧
      a.frame_no = (x : Int) ∧ x < d.mmu.numFrames ∧ x < d1.allocated ∧
      d1.mmu.frame_page.getD x 0 = p ∧
      (∀ y, y ≠ x →
        d1.mmu.frame_page.getD y 0 = d.mmu.frame_page.getD y 0 ∧
        d1.mmu.frame_dirty.getD y 0 = d.mmu.frame_dirty.getD y 0) ∧
      (a.fault = false →
        d.mmu.frame_page.getD x 0 = p ∧
        d1.mmu.frame_dirty.getD x 0 = d.mmu.frame_dirty.getD x 0 ∧
        d1.allocated = d.allocated ∧ d1.disk_reads = d.disk_reads ∧
        d1.disk_writes = d.disk_writes ∧ a.victim = none) ∧
      (a.fault = true →
        (∀ i, i < d.mmu.numFrames → d.mmu.frame_page.getD i 0 ≠ p) ∧
        d1.mmu.frame_dirty.getD x 0 = 0 ∧ d1.disk_reads = d.disk_reads + 1 ∧
        ((a.victim = none ∧ d.allocated < d.mmu.numFrames ∧ x = d.allocated ∧
          d1.allocated = d.allocated + 1 ∧ d1.disk_writes = d.disk_writes) ∨
         (d.allocated = d.mmu.numFrames ∧ d1.allocated = d.allocated ∧
          a.victim = some { pageNo := d.mmu.frame_page.getD x 0
                            modified := d.mmu.frame_dirty.getD x 0 } ∧
          d1.disk_writes =
            (if d.mmu.frame_dirty.getD x 0 ≠ 0 then d.disk_writes + 1 else d.disk_writes) ∧
          ∃ s1, choose_victim G d.mmu replace = some (x, s1)))) := by
  have hinv' := hinv
  obtain ⟨hwf, hfifo, hclock, hale, hnfi, hocc, hfree, huniq⟩ := hinv'
  obtain ⟨hN, hplen, hdlen, hrlen, hllen, _, _⟩ := hwf
  obtain ⟨a0, d0, hacc0, hinv1, hnum1⟩ := access_inv G replace d p hinv hp
  rcases access_cases G replace d p hinv with
    ⟨i, hi, hpi, _, heq⟩ | ⟨hmiss, hlt, heq⟩ | ⟨hmiss, hfull, f, s1, hc, hf, hs1, hlen, h1, h2, heq⟩
  · rw [heq] at hacc0
    simp only [Option.some.injEq, Prod.mk.injEq] at hacc0
    obtain ⟨_, rfl⟩ := hacc0
    have hia : i < d.allocated := by
      by_contra hcon
      have := hfree i (by omega) hi
      omega
    refine ⟨_, _, i, heq, hinv1, rfl, rfl, rfl, hi, hia, hpi, fun y _ => ⟨rfl, rfl⟩,
      fun _ => ⟨hpi, rfl, rfl, rfl, rfl, rfl⟩, fun h => ?_⟩
    exact absurd h (by simp)
  · rw [heq] at hacc0
    simp only [Option.some.injEq, Prod.mk.injEq] at hacc0
    obtain ⟨_, rfl⟩ := hacc0
    refine ⟨_, _, d.allocated, heq, hinv1, rfl, rfl, rfl, hlt, Nat.lt_succ_self _, ?_, ?_,
      fun h => absurd h (by simp), fun _ => ⟨hmiss, ?_, rfl, Or.inl ⟨rfl, hlt, rfl, rfl, rfl⟩⟩⟩
    · show (d.mmu.frame_page.set d.allocated p).getD d.allocated 0 = p
      exact getD_set_self _ _ _ _ (by omega)
    · intro y hy
      constructor
      · show (d.mmu.frame_page.set d.allocated p).getD y 0 = _
        exact getD_set_ne _ _ _ _ _ (Ne.symm hy)
      · show (d.mmu.frame_dirty.set d.allocated 0).getD y 0 = _
        exact getD_set_ne _ _ _ _ _ (Ne.symm hy)
    · show (d.mmu.frame_dirty.set d.allocated 0).getD d.allocated 0 = 0
      exact getD_set_self _ _ _ _ (by omega)
  · rw [heq] at hacc0
    simp only [Option.some.injEq, Prod.mk.injEq] at hacc0
    obtain ⟨_, rfl⟩ := hacc0
    have hpage : s1.frame_page = d.mmu.frame_page := by rw [hs1]
    have hdirty : s1.frame_dirty = d.mmu.frame_dirty := by rw [hs1]
    refine ⟨_, _, f, heq, hinv1, hnum1, rfl, rfl, hf, by show f < d.allocated; omega, ?_, ?_,
      fun h => absurd h (by simp),
      fun _ => ⟨hmiss, ?_, rfl, Or.inr ⟨hfull, rfl, rfl, rfl, s1, hc⟩⟩⟩
    · show (s1.frame_page.set f p).getD f 0 = p
      rw [hpage]
      exact getD_set_self _ _ _ _ (by omega)
    · intro y hy
      constructor
      · show (s1.frame_page.set f p).getD y 0 = _
        rw [hpage]
        exact getD_set_ne _ _ _ _ _ (Ne.symm hy)
      · show (s1.frame_dirty.set f 0).getD y 0 = _
        rw [hdirty]
        exact getD_set_ne _ _ _ _ _ (Ne.symm hy)
    · show (s1.frame_dirty.set f 0).getD f 0 = 0
      rw [hdirty]
      exact getD_set_self _ _ _ _ (by omega)

theorem run_inv (G : LibcRand) (replace : repl) (frames : Nat) (es : List (Int × Char))
    (as : List Access) (d : Driver) (hN : 1 ≤ frames) (hpages : ∀ e ∈ es, 0 ≤ e.1)
    (hrun : run G replace frames es = some (as, d)) :
    d.Inv ∧ d.mmu.numFrames = frames :=
  (runLog_inv G replace es (Driver.init G frames) (init_inv G frames hN) hpages).2 as d hrun

/-- C11: valid victim index.  In every state reached by the driver with
`numFrames = N >= 1` over non-negative page numbers, the four arrays have `N`
cells, `fifo_hand` and `clock_hand` are below `N` (also at line 283 of a
further iteration), and under each of the four policies, whatever `rand()`
returns, the helper called by `selectVictim` yields a frame index below `N`
and leaves both hands below `N`. -/
theorem victim_index_valid (G : LibcRand) (replace : repl) (frames : Nat)
    (es : List (Int × Char)) (as : List Access) (d : Driver) (hN : 1 ≤ frames)
    (hpages : ∀ e ∈ es, 0 ≤ e.1) (hrun : run G replace frames es = some (as, d)) :
    d.mmu.numFrames = frames ∧
    d.mmu.frame_page.length = frames ∧ d.mmu.frame_dirty.length = frames ∧
    d.mmu.frame_ref.length = frames ∧ d.mmu.frame_last.length = frames ∧
    d.mmu.fifo_hand < frames ∧ d.mmu.clock_hand < frames ∧
    (∀ mode, ∃ f s1, choose_victim G d.mmu mode = some (f, s1) ∧ f < frames ∧
      s1.fifo_hand < frames ∧ s1.clock_hand < frames) ∧
    (∀ p, 0 ≤ p → ∃ a d1, access G replace d p = some (a, d1) ∧
      d1.mmu.fifo_hand < frames ∧ d1.mmu.clock_hand < frames) := by
  obtain ⟨hinv, hnum⟩ := run_inv G replace frames es as d hN hpages hrun
  have hinv' := hinv
  obtain ⟨hwf, hfifo, hclock, _⟩ := hinv'
  have hwf' := hwf
  obtain ⟨_, hp, hd, hr, hl, _, _⟩ := hwf'
  rw [hnum] at hp hd hr hl hfifo hclock
  refine ⟨hnum, hp, hd, hr, hl, hfifo, hclock, ?_, ?_⟩
  · intro mode
    obtain ⟨f, s1, hc, hf, _, _, h1, h2⟩ :=
      choose_victim_spec G d.mmu mode hwf (by omega) (by omega)
    rw [hnum] at hf h1 h2
    exact ⟨f, s1, hc, hf, h1, h2⟩
  · intro p hp0
    obtain ⟨a, d1, hacc, hinv1, hnum1⟩ := access_inv G replace d p hinv hp0
    have h1 := hinv1.2.1
    have h2 := hinv1.2.2.1
    rw [hnum1, hnum] at h1 h2
    exact ⟨a, d1, hacc, h1, h2⟩

/-- Witness of C11 on `demoTrace` with two frames under the random policy. -/
theorem victim_index_valid_witness :
    1 ≤ 2 ∧ (∀ e ∈ events demoTrace, 0 ≤ e.1) ∧
    run counterRand repl.random 2 (events demoTrace) = some (randRecords, randFinal) ∧
    randFinal.mmu.fifo_hand < 2 ∧ randFinal.mmu.clock_hand < 2 ∧
    ∀ mode, ∃ f s1, choose_victim counterRand randFinal.mmu mode = some (f, s1) ∧ f < 2 ∧
      s1.fifo_hand < 2 ∧ s1.clock_hand < 2 :=
  ⟨by decide, by decide, by decide, by decide, by decide,
   (victim_index_valid counterRand repl.random 2 (events demoTrace) randRecords randFinal
      (by decide) (by decide) (by decide)).2.2.2.2.2.2.2.1⟩

theorem allocateFrame_next (d : Driver) (p : Int) (hinv : d.Inv)
    (hlt : d.allocated < d.mmu.numFrames) :
    allocateFrame d.mmu p =
      ((d.allocated : Int),
        { install d.mmu d.allocated p with
          next_free_idx := (d.allocated + 1) % d.mmu.numFrames }) := by
  obtain ⟨_, _, _, _, hnfi, _, hfree, _⟩ := hinv
  obtain ⟨k, hk, hkp, hkmin, heq⟩ :=
    allocateFrame_free d.mmu p ⟨d.allocated, hlt, hfree _ (le_refl _) hlt⟩
  have hstart : (d.mmu.next_free_idx + 0) % d.mmu.numFrames = d.allocated := by
    rw [Nat.add_zero, hnfi, Nat.mod_mod, Nat.mod_eq_of_lt hlt]
  have hk0 : k = 0 := by
    by_contra hne
    apply hkmin 0 (by omega)
    rw [hstart]
    exact hfree _ (le_refl _) hlt
  subst hk0
  rw [hstart] at heq
  exact heq

/-- C18: the driver always marks the right frame.  In every state reached by
the driver with `numFrames = N >= 1` over non-negative page numbers, lines
264-283 of the next iteration complete with `frame_no` in `[0, N)` and
`frame_page[frame_no]` equal to the page of the event, so a write marks that
frame dirty; when the lookup misses and `allocated < N`, `allocateFrame`
returns that frame and not -1; when it misses and `allocated >= N`, the lookup
after `selectVictim` returns exactly the frame `selectVictim` has just
overwritten. -/
theorem driver_frame_no (G : LibcRand) (replace : repl) (frames : Nat)
    (es : List (Int × Char)) (as : List Access) (d : Driver) (p : Int) (hN : 1 ≤ frames)
    (hpages : ∀ e ∈ es, 0 ≤ e.1) (hp : 0 ≤ p)
    (hrun : run G replace frames es = some (as, d)) :
    ∃ (a : Access) (d1 : Driver) (x : Nat), access G replace d p = some (a, d1) ∧
      a.frame_no = (x : Int) ∧ 0 ≤ a.frame_no ∧ x < frames ∧
      d1.mmu.frame_page.getD x 0 = p ∧
      (∀ rw d2, (rw = 'W' ∨ rw = 'w') → mark d1 a.frame_no rw = some d2 →
        d2.mmu.frame_dirty.getD x 0 = 1 ∧ d2.mmu.frame_page.getD x 0 = p) ∧
      ((checkInMemory d.mmu p).1 = -1 → d.allocated < frames →
        (allocateFrame d.mmu p).1 = (x : Int) ∧ (allocateFrame d.mmu p).1 ≠ -1) ∧
      ((checkInMemory d.mmu p).1 = -1 → ¬ d.allocated < frames →
        ∃ s1 v, choose_victim G d.mmu replace = some (x, s1) ∧
          selectVictim G d.mmu p replace = some (v, install s1 x p) ∧
          (checkInMemory (install s1 x p) p).1 = (x : Int)) := by
  obtain ⟨hinv, hnum⟩ := run_inv G replace frames es as d hN hpages hrun
  have hinv' := hinv
  obtain ⟨hwf, hfifo, hclock, hale, hnfi, hocc, hfree, huniq⟩ := hinv'
  have hplen : d.mmu.frame_page.length = d.mmu.numFrames := hwf.2.1
  obtain ⟨a0, d0, hacc0, hinv1, hnum1⟩ := access_inv G replace d p hinv hp
  have hdlen1 : d0.mmu.frame_dirty.length = d0.mmu.numFrames := hinv1.1.2.2.1
  have hmark : ∀ (x : Nat), x < frames → a0.frame_no = (x : Int) →
      d0.mmu.frame_page.getD x 0 = p →
      ∀ rw d2, (rw = 'W' ∨ rw = 'w') → mark d0 a0.frame_no rw = some d2 →
        d2.mmu.frame_dirty.getD x 0 = 1 ∧ d2.mmu.frame_page.getD x 0 = p := by
    intro x hx hfx hpx rw d2 hw hm
    have h1 : ¬ (rw = 'R' ∨ rw = 'r') := by
      rcases hw with h | h <;> subst h <;> decide
    have h0 : (0 : Int) ≤ (x : Int) := by omega
    simp only [mark, if_neg h1, if_pos hw, hfx, if_pos h0, Int.toNat_ofNat,
      Option.some.injEq] at hm
    subst hm
    exact ⟨getD_set_self _ _ _ _ (by omega), hpx⟩
  rcases access_cases G replace d p hinv with
    ⟨i, hi, hpi, hmin, heq⟩ | ⟨hmiss, hlt, heq⟩ |
    ⟨hmiss, hfull, f, s1, hc, hf, hs1, hlen, h1, h2, heq⟩
  · rw [heq] at hacc0
    simp only [Option.some.injEq, Prod.mk.injEq] at hacc0
    obtain ⟨rfl, rfl⟩ := hacc0
    have hhit := checkInMemory_hit d.mmu p i hi hpi hmin
    have hne : (checkInMemory d.mmu p).1 ≠ -1 := by
      rw [hhit]
      show ((i : Nat) : Int) ≠ -1
      omega
    exact ⟨_, _, i, heq, rfl, by show (0 : Int) ≤ (i : Int); omega, by omega, hpi,
      hmark i (by omega) rfl hpi, fun h => absurd h hne, fun h => absurd h hne⟩
  · rw [heq] at hacc0
    simp only [Option.some.injEq, Prod.mk.injEq] at hacc0
    obtain ⟨rfl, rfl⟩ := hacc0
    have hpx : (d.mmu.frame_page.set d.allocated p).getD d.allocated 0 = p :=
      getD_set_self _ _ _ _ (by omega)
    refine ⟨_, _, d.allocated, heq, rfl, by show (0 : Int) ≤ (d.allocated : Int); omega,
      by omega, hpx, hmark d.allocated (by omega) rfl hpx, ?_, ?_⟩
    · intro _ _
      rw [allocateFrame_next d p hinv hlt]
      exact ⟨rfl, by show ((d.allocated : Nat) : Int) ≠ -1; omega⟩
    · intro _ h
      exact absurd (by omega) h
  · rw [heq] at hacc0
    simp only [Option.some.injEq, Prod.mk.injEq] at hacc0
    obtain ⟨rfl, rfl⟩ := hacc0
    have hpage : s1.frame_page = d.mmu.frame_page := by rw [hs1]
    have hnum11 : s1.numFrames = d.mmu.numFrames := by rw [hs1]
    have hpx : (s1.frame_page.set f p).getD f 0 = p := by
      rw [hpage]
      exact getD_set_self _ _ _ _ (by omega)
    refine ⟨_, _, f, heq, rfl, by show (0 : Int) ≤ (f : Int); omega, by omega, hpx,
      hmark f (by omega) rfl hpx, ?_, ?_⟩
    · intro _ h
      omega
    · intro _ _
      refine ⟨s1, { pageNo := s1.frame_page.getD f 0, modified := s1.frame_dirty.getD f 0 },
        hc, ?_, ?_⟩
      · simp only [selectVictim, hc, evict_and_load]
      · rw [second_lookup d.mmu s1 f p hplen hf hnum11 hpage hmiss]

/-- Witness of C18 on `lruMid` (reached by `abaEvents` with two frames under
LRU): the access to page 12 misses with the table full, and the frame found
is frame 1, which holds page 12 afterwards. -/
theorem driver_frame_no_witness :
    1 ≤ 2 ∧ (∀ e ∈ abaEvents, 0 ≤ e.1) ∧ (0 : Int) ≤ 12 ∧
    run counterRand repl.lru 2 abaEvents = some (lruRecords, lruMid) ∧
    access counterRand repl.lru lruMid 12 = some (lruAccess, lruAfter) ∧
    lruAccess.frame_no = 1 ∧ lruAfter.mmu.frame_page.getD 1 0 = 12 ∧
    ∃ (a : Access) (d1 : Driver) (x : Nat),
      access counterRand repl.lru lruMid 12 = some (a, d1) ∧
      a.frame_no = (x : Int) ∧ 0 ≤ a.frame_no ∧ x < 2 ∧
      d1.mmu.frame_page.getD x 0 = 12 := by
  refine ⟨by decide, by decide, by decide, by decide, by decide, by decide, by decide, ?_⟩
  obtain ⟨a, d1, x, h1, h2, h3, h4, h5, _⟩ :=
    driver_frame_no counterRand repl.lru 2 abaEvents lruRecords lruMid 12
      (by decide) (by decide) (by decide) (by decide)
  exact ⟨a, d1, x, h1, h2, h3, h4, h5⟩

theorem faults_cons (a : Access) (as : List Access) :
    faults (a :: as) = if a.fault = true then a :: faults as else faults as := by
  by_cases h : a.fault = true
  · simp [faults, List.filter_cons, h]
  · simp [faults, List.filter_cons, h]

theorem faults_append (as1 as2 : List Access) :
    faults (as1 ++ as2) = faults as1 ++ faults as2 := by
  simp [faults]

theorem count_runLog (G : LibcRand) (replace : repl) :
    ∀ (es : List (Int × Char)) (d : Driver) (k : Nat),
      d.CountInv k → (∀ e ∈ es, 0 ≤ e.1) →
      ∀ as d2, runLog G replace d es = some (as, d2) →
        d2.CountInv (k + (faults as).length) ∧ as.length = es.length ∧
        d2.mmu.numFrames = d.mmu.numFrames := by
  intro es
  induction es with
  | nil =>
    intro d k hinv _ as d2 h
    simp only [runLog, Option.some.injEq, Prod.mk.injEq] at h
    obtain ⟨rfl, rfl⟩ := h
    exact ⟨by simpa [faults] using hinv, rfl, rfl⟩
  | cons e es ih =>
    intro d k hinv hpages as d2 h
    obtain ⟨a, d1', as', hb, hr, rfl⟩ := runLog_cons_some G replace d d2 e es as h
    obtain ⟨d1, hacc, hm⟩ := loop_body_some G replace d d1' e a hb
    obtain ⟨hI, hreads, halloc⟩ := hinv
    obtain ⟨a0, d0, x, hacc0, hinv1, hnum1, _, _, _, _, _, _, hhit, hfault⟩ :=
      access_frame G replace d e.1 hI (hpages e (List.mem_cons_self _ _))
    rw [hacc] at hacc0
    simp only [Option.some.injEq, Prod.mk.injEq] at hacc0
    obtain ⟨rfl, rfl⟩ := hacc0
    obtain ⟨hI2, hnum2⟩ := mark_inv d1 d1' a.frame_no e.2 hinv1 hm
    obtain ⟨heq, _⟩ := (mark_spec d1 a.frame_no e.2).2 d1' hm
    have hr2 : d1'.disk_reads = d1.disk_reads := by rw [heq]
    have ha2 : d1'.allocated = d1.allocated := by rw [heq]
    have hstep : d1'.CountInv (k + (if a.fault = true then 1 else 0)) := by
      refine ⟨hI2, ?_, ?_⟩
      · by_cases hf : a.fault = true
        · rw [if_pos hf, hr2, (hfault hf).2.2.1]; omega
        · have hf' : a.fault = false := by simpa using hf
          rw [if_neg hf, hr2, (hhit hf').2.2.2.1]; omega
      · rw [hnum2, hnum1, ha2]
        by_cases hf : a.fault = true
        · rw [if_pos hf]
          rcases (hfault hf).2.2.2 with ⟨_, h1, _, h2, _⟩ | ⟨h1, h2, _⟩
          · rw [h2]; omega
          · rw [h2]; omega
        · have hf' : a.fault = false := by simpa using hf
          rw [if_neg hf, (hhit hf').2.2.1]; omega
    obtain ⟨ih1, ih2, ih3⟩ := ih d1' _ hstep
      (fun x hx => hpages x (List.mem_cons_of_mem _ hx)) as' d2 hr
    refine ⟨?_, by simp [ih2], by rw [ih3, hnum2, hnum1]⟩
    rw [faults_cons]
    by_cases hf : a.fault = true
    · rw [if_pos hf] at ih1 ⊢
      rw [List.length_cons, show k + ((faults as').length + 1) = k + 1 + (faults as').length by omega]
      exact ih1
    · rw [if_neg hf] at ih1 ⊢
      exact ih1

theorem init_count (G : LibcRand) (frames : Nat) (hN : 1 ≤ frames) :
    (Driver.init G frames).CountInv 0 :=
  ⟨init_inv G frames hN, rfl, by simp [Driver.init]⟩

theorem occupied_iff (d : Driver) (hinv : d.Inv) (i : Nat) (hi : i < d.mmu.numFrames) :
    d.mmu.frame_page.getD i 0 ≠ -1 ↔ i < d.allocated := by
  obtain ⟨_, _, _, _, _, hocc, hfree, _⟩ := hinv
  constructor
  · intro h
    by_contra hcon
    exact h (hfree i (by omega) hi)
  · intro h
    have := hocc i h
    omega

/-- C13: no frame is ever freed.  In a run with `numFrames = N >= 1` over
non-negative page numbers, after `k` page faults the occupied frames are
exactly the indices below `min k N`, which is the value of `allocated` and at
most `N`; when the run is continued, the number of faults and the set of
occupied frames only grow, so once all `N` frames are occupied no later state
has a free frame. -/
theorem frames_never_freed (G : LibcRand) (replace : repl) (frames : Nat)
    (es1 es2 : List (Int × Char)) (as1 as2 : List Access) (d1 d2 : Driver)
    (hN : 1 ≤ frames) (hpages : ∀ e ∈ es1 ++ es2, 0 ≤ e.1)
    (h1 : run G replace frames es1 = some (as1, d1))
    (h2 : run G replace frames (es1 ++ es2) = some (as2, d2)) :
    d1.allocated = min (faults as1).length frames ∧ d1.allocated ≤ frames ∧
    d1.disk_reads = (faults as1).length ∧
    (∀ i, i < frames →
      (d1.mmu.frame_page.getD i 0 ≠ -1 ↔ i < min (faults as1).length frames)) ∧
    (faults as1).length ≤ (faults as2).length ∧ d1.allocated ≤ d2.allocated ∧
    (∀ i, i < frames → d1.mmu.frame_page.getD i 0 ≠ -1 → d2.mmu.frame_page.getD i 0 ≠ -1) ∧
    ((∀ i, i < frames → d1.mmu.frame_page.getD i 0 ≠ -1) →
      ∀ i, i < frames → d2.mmu.frame_page.getD i 0 ≠ -1) := by
  obtain ⟨as1', d1', as2', r1, r2, rfl⟩ :=
    runLog_append_some G replace es1 es2 (Driver.init G frames) d2 as2 h2
  have hsame : (as1', d1') = (as1, d1) := by
    have : some (as1', d1') = some (as1, d1) := by rw [← r1]; exact h1
    simpa using this
  obtain ⟨rfl, rfl⟩ := Prod.mk.inj hsame
  have hfr : (Driver.init G frames).mmu.numFrames = frames := rfl
  obtain ⟨⟨hI1, hr1, ha1⟩, _, hn1⟩ := count_runLog G replace es1 (Driver.init G frames) 0
    (init_count G frames hN) (fun e he => hpages e (List.mem_append_left _ he)) as1' d1' r1
  rw [hfr] at hn1
  rw [Nat.zero_add] at hr1 ha1
  rw [hn1] at ha1
  obtain ⟨⟨hI2, _, ha2⟩, _, hn2⟩ := count_runLog G replace es2 d1' (faults as1').length
    ⟨hI1, hr1, by rw [hn1]; exact ha1⟩
    (fun e he => hpages e (List.mem_append_right _ he)) as2' d2 r2
  rw [hn1] at hn2
  rw [hn2] at ha2
  have hocc1 : ∀ i, i < frames → (d1'.mmu.frame_page.getD i 0 ≠ -1 ↔ i < d1'.allocated) :=
    fun i hi => occupied_iff d1' hI1 i (by omega)
  have hocc2 : ∀ i, i < frames → (d2.mmu.frame_page.getD i 0 ≠ -1 ↔ i < d2.allocated) :=
    fun i hi => occupied_iff d2 hI2 i (by omega)
  have hmono : d1'.allocated ≤ d2.allocated := by omega
  have hgrow : ∀ i, i < frames → d1'.mmu.frame_page.getD i 0 ≠ -1 →
      d2.mmu.frame_page.getD i 0 ≠ -1 := by
    intro i hi h
    have := (hocc1 i hi).1 h
    exact (hocc2 i hi).2 (by omega)
  refine ⟨ha1, by omega, hr1, ?_, ?_, hmono, hgrow, fun h i hi => hgrow i hi (h i hi)⟩
  · intro i hi
    rw [← ha1]
    exact hocc1 i hi
  · rw [faults_append, List.length_append]
    omega

/-- Witness of C13 with two frames under LRU: after `abaEvents` (two faults)
both frames are occupied, and they still are after the further access to page
12. -/
theorem frames_never_freed_witness :
    1 ≤ 2 ∧ (∀ e ∈ abaEvents ++ [((12 : Int), 'R')], 0 ≤ e.1) ∧
    run counterRand repl.lru 2 abaEvents = some (lruRecords, lruMid) ∧
    run counterRand repl.lru 2 (abaEvents ++ [((12 : Int), 'R')]) =
      some (lruRecords ++ [lruAccess], lruFinal) ∧
    (lruMid.allocated = min (faults lruRecords).length 2 ∧ lruMid.allocated ≤ 2 ∧
    lruMid.disk_reads = (faults lruRecords).length ∧
    (∀ i, i < 2 →
      (lruMid.mmu.frame_page.getD i 0 ≠ -1 ↔ i < min (faults lruRecords).length 2)) ∧
    (faults lruRecords).length ≤ (faults (lruRecords ++ [lruAccess])).length ∧
    lruMid.allocated ≤ lruFinal.allocated ∧
    (∀ i, i < 2 → lruMid.mmu.frame_page.getD i 0 ≠ -1 →
      lruFinal.mmu.frame_page.getD i 0 ≠ -1) ∧
    ((∀ i, i < 2 → lruMid.mmu.frame_page.getD i 0 ≠ -1) →
      ∀ i, i < 2 → lruFinal.mmu.frame_page.getD i 0 ≠ -1)) :=
  ⟨by decide, by decide, by decide, by decide,
   frames_never_freed counterRand repl.lru 2 abaEvents [((12 : Int), 'R')] lruRecords
     (lruRecords ++ [lruAccess]) lruMid lruFinal (by decide) (by decide) (by decide)
     (by decide)⟩

/-! ### What the victim choice changes -/

theorem choose_clock_loop_frame :
    ∀ (fuel : Nat) (s : MMU) (f : Nat) (s1 : MMU),
      choose_clock_loop fuel s = some (f, s1) →
      s1 = { s with frame_ref := s1.frame_ref, clock_hand := s1.clock_hand } ∧
      s1.frame_ref.length = s.frame_ref.length ∧
      ∀ j, s1.frame_ref.getD j 0 = s.frame_ref.getD j 0 ∨ s1.frame_ref.getD j 0 = 0 := by
  intro fuel
  induction fuel with
  | zero =>
    intro s f s1 h
    simp [choose_clock_loop] at h
  | succ fuel ih =>
    intro s f s1 h
    by_cases hz : s.frame_ref.getD s.clock_hand 0 = 0
    · simp only [choose_clock_loop, if_pos hz, Option.some.injEq, Prod.mk.injEq] at h
      obtain ⟨_, rfl⟩ := h
      exact ⟨rfl, rfl, fun j => Or.inl rfl⟩
    · simp only [choose_clock_loop, if_neg hz] at h
      obtain ⟨h1, h2, h3⟩ := ih _ f s1 h
      refine ⟨?_, ?_, ?_⟩
      · conv_lhs => rw [h1]
      · rw [h2]
        simp
      · intro j
        rcases h3 j with h | h
        · by_cases hj : s.clock_hand = j
          · right
            rw [h]
            show (s.frame_ref.set s.clock_hand 0).getD j 0 = 0
            rw [getD_set]
            by_cases hlt : s.clock_hand < s.frame_ref.length
            · rw [if_pos ⟨hj, hlt⟩]
            · rw [if_neg (fun hc => hlt hc.2), List.getD_eq_default _ _ (by omega)]
          · left
            rw [h]
            exact getD_set_ne _ _ _ _ _ hj
        · exact Or.inr h

/-- C15 (as stated, refuted): on `clockState`, whose two reference bits are
set, `choose_clock_victim` returns frame 0 and leaves both reference bits
cleared, so it does not leave every frame's reference bit unchanged. -/
theorem choose_clock_victim_clears_ref :
    choose_clock_victim clockState =
      some (0, { clockState with frame_ref := [0, 0], clock_hand := 1 }) ∧
    clockState.frame_ref = [1, 1] ∧
    (choose_clock_victim clockState).map (fun r => r.2.frame_ref) ≠
      some clockState.frame_ref := by
  decide

/-- C15 (amended): what the victim choice changes.  For every state,
`choose_random_victim` changes nothing but the state of the C library
generator, `choose_fifo_victim` nothing but `fifo_hand`, `choose_lru_victim`
nothing at all, and `choose_clock_victim`, when it returns, nothing but
`clock_hand` and `frame_ref`, where every bit is either unchanged or cleared.
So every frame's resident page, dirty bit and last_used, and `tnow`, are
unchanged by all four, and the reference bits by all but CLOCK.  (With
`numFrames >= 1`, `numFrames` reference bits and `clock_hand < numFrames`,
`choose_clock_victim` does return.) -/
theorem victim_choice_frame_content (G : LibcRand) (s : MMU) :
    (choose_random_victim G s).2 = { s with rng := (G.rand s.rng).2 } ∧
    (choose_fifo_victim s).2 = { s with fifo_hand := (s.fifo_hand + 1) % s.numFrames } ∧
    (choose_lru_victim s).2 = s ∧
    (∀ f s1, choose_clock_victim s = some (f, s1) →
      s1 = { s with frame_ref := s1.frame_ref, clock_hand := s1.clock_hand } ∧
      s1.frame_ref.length = s.frame_ref.length ∧
      ∀ j, s1.frame_ref.getD j 0 = s.frame_ref.getD j 0 ∨ s1.frame_ref.getD j 0 = 0) ∧
    (∀ mode f s1, choose_victim G s mode = some (f, s1) →
      s1.frame_page = s.frame_page ∧ s1.frame_dirty = s.frame_dirty ∧
      s1.frame_last = s.frame_last ∧ s1.tnow = s.tnow ∧ s1.numFrames = s.numFrames ∧
      s1.next_free_idx = s.next_free_idx ∧
      (mode ≠ repl.clock → s1.frame_ref = s.frame_ref)) ∧
    (1 ≤ s.numFrames → s.frame_ref.length = s.numFrames → s.clock_hand < s.numFrames →
      ∃ f s1, choose_clock_victim s = some (f, s1)) := by
  refine ⟨rfl, rfl, rfl, fun f s1 h => choose_clock_loop_frame _ s f s1 h, ?_, ?_⟩
  · intro mode f s1 h
    cases mode with
    | random =>
      simp only [choose_victim, choose_random_victim, Option.some.injEq, Prod.mk.injEq] at h
      obtain ⟨_, rfl⟩ := h
      exact ⟨rfl, rfl, rfl, rfl, rfl, rfl, fun _ => rfl⟩
    | fifo =>
      simp only [choose_victim, choose_fifo_victim, Option.some.injEq, Prod.mk.injEq] at h
      obtain ⟨_, rfl⟩ := h
      exact ⟨rfl, rfl, rfl, rfl, rfl, rfl, fun _ => rfl⟩
    | lru =>
      simp only [choose_victim, choose_lru_victim, Option.some.injEq, Prod.mk.injEq] at h
      obtain ⟨_, rfl⟩ := h
      exact ⟨rfl, rfl, rfl, rfl, rfl, rfl, fun _ => rfl⟩
    | clock =>
      obtain ⟨h1, _, _⟩ := choose_clock_loop_frame _ s f s1 h
      refine ⟨by rw [h1], by rw [h1], by rw [h1], by rw [h1], by rw [h1], by rw [h1], ?_⟩
      intro hne
      exact absurd rfl hne
  · intro hN hlen hh
    by_cases hex : ∃ k, k < s.numFrames ∧
        s.frame_ref.getD ((s.clock_hand + k) % s.numFrames) 0 = 0
    · obtain ⟨k, hk, hz, hmin⟩ := exists_least
        (fun k => s.frame_ref.getD ((s.clock_hand + k) % s.numFrames) 0 = 0) _ hex
      obtain ⟨s', hrun, _⟩ := choose_clock_loop_run k s hN hlen hh hk hmin hz
      exact ⟨_, s', (hrun (2 * s.numFrames) (by omega)).1⟩
    · have hall : ∀ j, j < s.numFrames → s.frame_ref.getD j 0 ≠ 0 := by
        intro j hj hz
        obtain ⟨m, hm, hmj⟩ := cyclic_cover s.clock_hand s.numFrames j hj
        exact hex ⟨m, hm, by rw [hmj]; exact hz⟩
      obtain ⟨s', hrun, _⟩ := choose_clock_loop_all_set s hN hlen hh hall
      exact ⟨_, s', (hrun (2 * s.numFrames) (by omega)).1⟩

/-! ### Dirty bits -/

theorem lastLoad_snoc (as : List Access) (a : Access) (q : Int) :
    lastLoad (as ++ [a]) q =
      if a.fault = true ∧ a.page_number = q then some as.length else lastLoad as q := by
  induction as with
  | nil =>
    simp only [List.nil_append, lastLoad, List.length_nil]
  | cons x xs ih =>
    have e : lastLoad ((x :: xs) ++ [a]) q =
        match lastLoad (xs ++ [a]) q with
        | some i => some (i + 1)
        | none => if x.fault = true ∧ x.page_number = q then some 0 else none := rfl
    rw [e, ih]
    by_cases h : a.fault = true ∧ a.page_number = q
    · simp only [if_pos h, List.length_cons]
    · simp only [if_neg h, lastLoad]

theorem lastLoad_some (as : List Access) (q : Int) :
    ∀ l, lastLoad as q = some l → l < as.length := by
  induction as with
  | nil => intro l h; simp [lastLoad] at h
  | cons x xs ih =>
    intro l h
    simp only [lastLoad] at h
    cases hl : lastLoad xs q with
    | some k =>
      simp only [hl, Option.some.injEq] at h
      subst h
      have := ih k hl
      simp only [List.length_cons]
      omega
    | none =>
      simp only [hl] at h
      by_cases hx : x.fault = true ∧ x.page_number = q
      · simp only [if_pos hx, Option.some.injEq] at h
        subst h
        simp
      · simp only [if_neg hx] at h
        exact absurd h (by simp)

theorem writtenSince_snoc (es : List (Int × Char)) (p q : Int) (c : Char) (l : Nat) :
    writtenSince (es ++ [(p, c)]) q l ↔
      writtenSince es q l ∨ (l ≤ es.length ∧ p = q ∧ isWrite c = true) := by
  constructor
  · rintro ⟨i, c', hli, hget, hw⟩
    by_cases hi : i < es.length
    · rw [List.getElem?_append_left hi] at hget
      exact Or.inl ⟨i, c', hli, hget, hw⟩
    · rw [List.getElem?_append_right (by omega)] at hget
      have h0 : i - es.length = 0 := by
        by_contra hne
        rw [List.getElem?_eq_none (by simp; omega)] at hget
        exact absurd hget (by simp)
      rw [h0] at hget
      simp only [List.getElem?_cons_zero, Option.some.injEq, Prod.mk.injEq] at hget
      obtain ⟨rfl, rfl⟩ := hget
      exact Or.inr ⟨by omega, rfl, hw⟩
  · rintro (⟨i, c', hli, hget, hw⟩ | ⟨hl, rfl, hw⟩)
    · have hi : i < es.length := (List.getElem?_eq_some.1 hget).1
      exact ⟨i, c', hli, by rw [List.getElem?_append_left hi]; exact hget, hw⟩
    · exact ⟨es.length, c, hl, by simp, hw⟩

theorem mark_dirty (d d2 : Driver) (x : Nat) (c : Char)
    (h : mark d (x : Int) c = some d2) :
    d2.mmu.frame_dirty =
      if isWrite c = true then d.mmu.frame_dirty.set x 1 else d.mmu.frame_dirty := by
  by_cases h1 : c = 'R' ∨ c = 'r'
  · have hw : isWrite c = false := by
      rcases h1 with h | h <;> subst h <;> decide
    simp only [mark, if_pos h1, Option.some.injEq] at h
    subst h
    simp [hw]
  · by_cases h2 : c = 'W' ∨ c = 'w'
    · have hw : isWrite c = true := by simp [isWrite, h2]
      have h0 : (0 : Int) ≤ (x : Int) := by omega
      simp only [mark, if_neg h1, if_pos h2, if_pos h0, Int.toNat_ofNat,
        Option.some.injEq] at h
      subst h
      simp [hw]
    · simp only [mark, if_neg h1, if_neg h2] at h
      exact absurd h (by simp)

theorem dirtyVictims_snoc (as : List Access) (a : Access) :
    (dirtyVictims (as ++ [a])).length =
      (dirtyVictims as).length +
        (match a.victim with
         | some v => if v.modified ≠ 0 then 1 else 0
         | none => 0) := by
  simp only [dirtyVictims, List.filter_append, List.length_append]
  congr 1
  cases hv : a.victim with
  | none => simp [List.filter_cons, hv]
  | some v =>
    by_cases hm : v.modified ≠ 0
    · simp [List.filter_cons, hv, hm]
    · simp [List.filter_cons, hv, hm]

/-- One iteration of the driver loop keeps the dirty-bit bookkeeping. -/
theorem dirty_step (G : LibcRand) (replace : repl) (d d2 : Driver) (as : List Access)
    (es : List (Int × Char)) (e : Int × Char) (a : Access)
    (hinv : d.DirtyInv as es) (hp : 0 ≤ e.1)
    (hb : loop_body G replace d e = some (a, d2)) :
    d2.DirtyInv (as ++ [a]) (es ++ [e]) := by
  obtain ⟨p, c⟩ := e
  obtain ⟨d1, hacc, hm⟩ := loop_body_some G replace d d2 (p, c) a hb
  obtain ⟨hI, hlen, hdw, hfr⟩ := hinv
  obtain ⟨a0, d0, x, hacc0, hinv1, hnum1, hpn, hfn, hxN, hx1, hpx, hrest, hhit, hfault⟩ :=
    access_frame G replace d p hI hp
  rw [hacc] at hacc0
  simp only [Option.some.injEq, Prod.mk.injEq] at hacc0
  obtain ⟨rfl, rfl⟩ := hacc0
  rw [hfn] at hm
  obtain ⟨hI2, hnum2⟩ := mark_inv d1 d2 (x : Int) c hinv1 hm
  obtain ⟨heq, _⟩ := (mark_spec d1 (x : Int) c).2 d2 hm
  have hD := mark_dirty d1 d2 x c hm
  have hpage2 : d2.mmu.frame_page = d1.mmu.frame_page := by rw [heq]
  have halloc2 : d2.allocated = d1.allocated := by rw [heq]
  have hdw2 : d2.disk_writes = d1.disk_writes := by rw [heq]
  have hdlen1 : d1.mmu.frame_dirty.length = d1.mmu.numFrames := hinv1.1.2.2.1
  have hocc1 := hinv1.2.2.2.2.2.1
  have huniq1 := hinv1.2.2.2.2.2.2.2
  have hdx : d2.mmu.frame_dirty.getD x 0 =
      if isWrite c = true then 1 else d1.mmu.frame_dirty.getD x 0 := by
    rw [hD]
    by_cases hw : isWrite c = true
    · rw [if_pos hw, if_pos hw]
      exact getD_set_self _ _ _ _ (by omega)
    · rw [if_neg hw, if_neg hw]
  have hdg : ∀ g, g ≠ x → d2.mmu.frame_dirty.getD g 0 = d.mmu.frame_dirty.getD g 0 := by
    intro g hg
    rw [hD, ← (hrest g hg).2]
    by_cases hw : isWrite c = true
    · rw [if_pos hw]
      exact getD_set_ne _ _ _ _ _ (Ne.symm hg)
    · rw [if_neg hw]
  refine ⟨hI2, by simp [hlen], ?_, ?_⟩
  · rw [dirtyVictims_snoc, hdw2]
    by_cases hf : a.fault = true
    · rcases (hfault hf).2.2.2 with ⟨hv, _, _, _, h5⟩ | ⟨_, _, hv, h5, _⟩
      · rw [hv, h5, hdw]
        rfl
      · rw [hv, h5, hdw]
        by_cases hz : d.mmu.frame_dirty.getD x 0 ≠ 0
        · simp only [if_pos hz]
        · simp only [if_neg hz, Nat.add_zero]
    · have hf' : a.fault = false := by simpa using hf
      obtain ⟨_, _, _, _, h5, hv⟩ := hhit hf'
      rw [hv, h5, hdw]
      rfl
  · intro g hg
    rw [halloc2] at hg
    rw [hpage2]
    by_cases hgx : g = x
    · subst hgx
      rw [hpx, hdx]
      by_cases hf : a.fault = true
      · rw [(hfault hf).2.1]
        refine ⟨by by_cases hw : isWrite c = true <;> simp [hw], as.length, ?_, ?_⟩
        · rw [lastLoad_snoc, if_pos ⟨hf, hpn⟩]
        · rw [writtenSince_snoc]
          constructor
          · intro h
            by_cases hw : isWrite c = true
            · exact Or.inr ⟨by omega, rfl, hw⟩
            · rw [if_neg hw] at h
              exact absurd h (by decide)
          · rintro (⟨i, c', hli, hget, _⟩ | ⟨_, _, hw⟩)
            · have := (List.getElem?_eq_some.1 hget).1
              omega
            · rw [if_pos hw]
      · have hf' : a.fault = false := by simpa using hf
        obtain ⟨hpold, hdold, haold, _⟩ := hhit hf'
        rw [hdold]
        obtain ⟨h01, l, hl, hiff⟩ := hfr g (by omega)
        rw [hpold] at hl hiff
        have hll := lastLoad_some as p l hl
        refine ⟨?_, l, ?_, ?_⟩
        · by_cases hw : isWrite c = true
          · rw [if_pos hw]; exact Or.inr rfl
          · rw [if_neg hw]; exact h01
        · rw [lastLoad_snoc, if_neg (fun h => hf h.1)]
          exact hl
        · rw [writtenSince_snoc]
          constructor
          · intro h
            by_cases hw : isWrite c = true
            · exact Or.inr ⟨by omega, rfl, hw⟩
            · rw [if_neg hw] at h
              exact Or.inl (hiff.1 h)
          · rintro (h | ⟨_, _, hw⟩)
            · by_cases hw : isWrite c = true
              · rw [if_pos hw]
              · rw [if_neg hw]; exact hiff.2 h
            · rw [if_pos hw]
    · obtain ⟨hpg, _⟩ := hrest g hgx
      have hgold : g < d.allocated := by
        by_cases hf : a.fault = true
        · rcases (hfault hf).2.2.2 with ⟨_, _, h3, h4, _⟩ | ⟨_, h2, _⟩
          · omega
          · omega
        · have hf' : a.fault = false := by simpa using hf
          have := (hhit hf').2.2.1
          omega
      have hgN : g < d1.mmu.numFrames := by
        have := hinv1.2.2.2.1
        omega
      have hne : d.mmu.frame_page.getD g 0 ≠ p := by
        have h1 := huniq1 g x hgN (by omega) hgx (by have := hocc1 g hg; omega)
        rw [hpx, hpg] at h1
        exact h1
      rw [hpg, hdg g hgx]
      obtain ⟨h01, l, hl, hiff⟩ := hfr g hgold
      refine ⟨h01, l, ?_, ?_⟩
      · rw [lastLoad_snoc, if_neg (fun h => hne (by rw [← h.2, hpn])), hl]
      · rw [writtenSince_snoc, hiff]
        constructor
        · intro h; exact Or.inl h
        · rintro (h | ⟨_, h2, _⟩)
          · exact h
          · exact absurd h2.symm hne

theorem dirty_runLog (G : LibcRand) (replace : repl) :
    ∀ (es : List (Int × Char)) (d : Driver) (as0 : List Access) (es0 : List (Int × Char)),
      d.DirtyInv as0 es0 → (∀ e ∈ es, 0 ≤ e.1) →
      ∀ as d2, runLog G replace d es = some (as, d2) →
        d2.DirtyInv (as0 ++ as) (es0 ++ es) := by
  intro es
  induction es with
  | nil =>
    intro d as0 es0 hinv _ as d2 h
    simp only [runLog, Option.some.injEq, Prod.mk.injEq] at h
    obtain ⟨rfl, rfl⟩ := h
    simpa using hinv
  | cons e es ih =>
    intro d as0 es0 hinv hpages as d2 h
    obtain ⟨a, d1, as', hb, hr, rfl⟩ := runLog_cons_some G replace d d2 e es as h
    have hstep := dirty_step G replace d d1 as0 es0 e a hinv
      (hpages e (List.mem_cons_self _ _)) hb
    have := ih d1 (as0 ++ [a]) (es0 ++ [e]) hstep
      (fun x hx => hpages x (List.mem_cons_of_mem _ hx)) as' d2 hr
    simpa using this

theorem init_dirty (G : LibcRand) (frames : Nat) (hN : 1 ≤ frames) :
    (Driver.init G frames).DirtyInv [] [] :=
  ⟨init_inv G frames hN, rfl, rfl, fun _ hf => absurd hf (Nat.not_lt_zero _)⟩

/-- C12: dirty propagation.  Run the driver with `numFrames >= 1` under any
policy over the events `es` (non-negative page numbers), and let the access to
a further page `p` evict a victim `v`.  Then `v.modified` is 0 or 1, and it is
1 exactly when `es` contains a write (`W` or `w`) to the victim page at or
after the event that most recently loaded it; `disk_writes` increases by 1 in
that case and by 0 otherwise; and the `disk_writes` reached after `es` is the
number of evictions of dirty pages so far. -/
theorem dirty_propagation (G : LibcRand) (replace : repl) (frames : Nat)
    (es : List (Int × Char)) (as : List Access) (d : Driver) (hN : 1 ≤ frames)
    (hpages : ∀ e ∈ es, 0 ≤ e.1) (hrun : run G replace frames es = some (as, d)) :
    d.disk_writes = (dirtyVictims as).length ∧
    ∀ p a d1 v, 0 ≤ p → access G replace d p = some (a, d1) → a.victim = some v →
      (v.modified = 0 ∨ v.modified = 1) ∧
      (∃ l, lastLoad as v.pageNo = some l ∧
        (v.modified = 1 ↔ writtenSince es v.pageNo l)) ∧
      d1.disk_writes = d.disk_writes + (if v.modified = 1 then 1 else 0) := by
  have hinv := dirty_runLog G replace es (Driver.init G frames) [] [] (init_dirty G frames hN)
    hpages as d hrun
  simp only [List.nil_append] at hinv
  obtain ⟨hI, _, hdw, hfr⟩ := hinv
  refine ⟨hdw, ?_⟩
  intro p a d1 v hp hacc hv
  obtain ⟨a0, d0, x, hacc0, _, _, _, _, hxN, _, _, _, hhit, hfault⟩ :=
    access_frame G replace d p hI hp
  rw [hacc] at hacc0
  simp only [Option.some.injEq, Prod.mk.injEq] at hacc0
  obtain ⟨rfl, rfl⟩ := hacc0
  have hf : a.fault = true := by
    by_contra hcon
    have hf' : a.fault = false := by simpa using hcon
    rw [(hhit hf').2.2.2.2.2] at hv
    exact absurd hv (by simp)
  rcases (hfault hf).2.2.2 with ⟨hnone, _⟩ | ⟨hfull, _, hsome, hdw1, _⟩
  · rw [hnone] at hv
    exact absurd hv (by simp)
  · rw [hsome] at hv
    simp only [Option.some.injEq] at hv
    subst hv
    obtain ⟨h01, l, hl, hiff⟩ := hfr x (by omega)
    refine ⟨h01, ⟨l, hl, hiff⟩, ?_⟩
    rw [hdw1]
    show (if d.mmu.frame_dirty.getD x 0 ≠ 0 then d.disk_writes + 1 else d.disk_writes) =
      d.disk_writes + (if d.mmu.frame_dirty.getD x 0 = 1 then 1 else 0)
    rcases h01 with h | h
    · rw [h]; simp
    · rw [h]; simp

/-- Witness of C12 with two frames under FIFO: after `dirtyTrace` (page 1
loaded at position 0 and written at position 2) the access to page 3 evicts
page 1 with `modified = 1`, and `disk_writes` goes from 0 to 1. -/
theorem dirty_propagation_witness :
    1 ≤ 2 ∧ (∀ e ∈ events dirtyTrace, 0 ≤ e.1) ∧
    run counterRand repl.fifo 2 (events dirtyTrace) = some (dirtyRecords, dirtyMid) ∧
    (0 : Int) ≤ 3 ∧
    access counterRand repl.fifo dirtyMid 3 = some (dirtyAccess, dirtyAfter) ∧
    dirtyAccess.victim = some dirtyVictim ∧
    lastLoad dirtyRecords 1 = some 0 ∧ dirtyMid.disk_writes = 0 ∧
    dirtyAfter.disk_writes = 1 ∧
    dirtyMid.disk_writes = (dirtyVictims dirtyRecords).length ∧
    ((dirtyVictim.modified = 0 ∨ dirtyVictim.modified = 1) ∧
      (∃ l, lastLoad dirtyRecords dirtyVictim.pageNo = some l ∧
        (dirtyVictim.modified = 1 ↔ writtenSince (events dirtyTrace) dirtyVictim.pageNo l)) ∧
      dirtyAfter.disk_writes =
        dirtyMid.disk_writes + (if dirtyVictim.modified = 1 then 1 else 0)) :=
  ⟨by decide, by decide, by decide, by decide, by decide, by decide, by decide, by decide,
   by decide,
   (dirty_propagation counterRand repl.fifo 2 (events dirtyTrace) dirtyRecords dirtyMid
      (by decide) (by decide) (by decide)).1,
   (dirty_propagation counterRand repl.fifo 2 (events dirtyTrace) dirtyRecords dirtyMid
      (by decide) (by decide) (by decide)).2 3 dirtyAccess dirtyAfter dirtyVictim
      (by decide) (by decide) (by decide)⟩

/-! ### Timestamps -/

/-- Writing the stamp `n + 1` into frame `i` keeps the timestamp
bookkeeping. -/
theorem stamp_frame (s s1 : MMU) (n i : Nat) (hinv : s.StampInv n) (hi : i < s.numFrames)
    (hwf : s1.WellFormed) (hnum : s1.numFrames = s.numFrames)
    (hfifo : s1.fifo_hand < s.numFrames) (hclock : s1.clock_hand < s.numFrames)
    (ht : s1.tnow = n + 1) (hlast : s1.frame_last = s.frame_last.set i (n + 1))
    (hpage : ∀ j, j ≠ i → s1.frame_page.getD j 0 = s.frame_page.getD j 0) :
    s1.StampInv (n + 1) := by
  obtain ⟨hwf0, _, _, _, hle, hdist, hocc⟩ := hinv
  have hllen : s.frame_last.length = s.numFrames := hwf0.2.2.2.2.1
  have hself : (s.frame_last.set i (n + 1)).getD i 0 = n + 1 :=
    getD_set_self _ _ _ _ (by omega)
  have hother : ∀ j, j ≠ i → (s.frame_last.set i (n + 1)).getD j 0 = s.frame_last.getD j 0 :=
    fun j hj => getD_set_ne _ _ _ _ _ (Ne.symm hj)
  refine ⟨hwf, by omega, by omega, ht, ?_, ?_, ?_⟩
  · intro j hj
    rw [hnum] at hj
    rw [hlast]
    by_cases hji : j = i
    · subst hji; rw [hself]
    · rw [hother j hji]
      exact le_trans (hle j hj) (Nat.le_succ _)
  · intro a b ha hb hab hnz
    rw [hnum] at ha hb
    rw [hlast] at hnz ⊢
    by_cases hai : a = i
    · subst hai
      rw [hself, hother b (Ne.symm hab)]
      have := hle b hb
      omega
    · rw [hother a hai] at hnz ⊢
      by_cases hbi : b = i
      · subst hbi
        rw [hself]
        have := hle a ha
        omega
      · rw [hother b hbi]
        exact hdist a b ha hb hab hnz
  · intro j hj hp
    rw [hnum] at hj
    rw [hlast]
    by_cases hji : j = i
    · subst hji; rw [hself]; omega
    · rw [hother j hji]
      rw [hpage j hji] at hp
      exact hocc j hj hp

/-- One call keeps the timestamp bookkeeping as long as `tnow` does not wrap:
it writes no stamp and leaves `tnow` alone, or writes the stamp `tnow + 1`. -/
theorem step_stamp (G : LibcRand) (s : MMU) (n : Nat) (c : Call) (hinv : s.StampInv n) :
    ∃ r s1, Call.step G s c = some (r, s1) ∧ s1.numFrames = s.numFrames ∧
      ((r = none ∧ s1.StampInv n) ∨
       (r = some ((n + 1) % ULL) ∧ (n + 1 < ULL → s1.StampInv (n + 1)))) := by
  have hinv' := hinv
  obtain ⟨hwf, hfifo, hclock, htn, hle, hdist, hocc⟩ := hinv'
  have hplen : s.frame_page.length = s.numFrames := hwf.2.1
  cases c with
  | check p =>
    by_cases hex : ∃ i, i < s.numFrames ∧ s.frame_page.getD i 0 = p
    · obtain ⟨i, hi, hp, hmin⟩ := exists_least (fun i => s.frame_page.getD i 0 = p) _ hex
      have hhit := checkInMemory_hit s p i hi hp hmin
      have hne : ((i : Nat) : Int) ≠ -1 := by omega
      refine ⟨_, _, rfl, by rw [hhit]; rfl, Or.inr ⟨?_, ?_⟩⟩
      · rw [hhit]
        simp only [if_neg hne]
        show some ((s.tnow + 1) % ULL) = _
        rw [htn]
      · intro hno
        rw [hhit]
        have hmod : (s.tnow + 1) % ULL = n + 1 := by rw [htn, Nat.mod_eq_of_lt hno]
        refine stamp_frame s (touch s i) n i hinv hi (touch_wf s i hwf) rfl hfifo hclock
          hmod ?_ (fun j _ => rfl)
        show s.frame_last.set i ((s.tnow + 1) % ULL) = _
        rw [hmod]
    · have hmiss := checkInMemory_miss s p (fun i hi hp => hex ⟨i, hi, hp⟩)
      refine ⟨_, _, rfl, by rw [hmiss], Or.inl ⟨?_, ?_⟩⟩
      · rw [hmiss]; rfl
      · rw [hmiss]; exact hinv
  | alloc p =>
    by_cases hex : ∃ i, i < s.numFrames ∧ s.frame_page.getD i 0 = -1
    · obtain ⟨k, hk, _, _, heq⟩ := allocateFrame_free s p hex
      have hi : (s.next_free_idx + k) % s.numFrames < s.numFrames := Nat.mod_lt _ (by omega)
      have hne : (((s.next_free_idx + k) % s.numFrames : Nat) : Int) ≠ -1 := by omega
      refine ⟨_, _, rfl, by rw [heq]; rfl, Or.inr ⟨?_, ?_⟩⟩
      · rw [heq]
        simp only [if_neg hne]
        show some ((s.tnow + 1) % ULL) = _
        rw [htn]
      · intro hno
        rw [heq]
        have hmod : (s.tnow + 1) % ULL = n + 1 := by rw [htn, Nat.mod_eq_of_lt hno]
        refine stamp_frame s _ n _ hinv hi (install_wf s _ p hwf) rfl hfifo hclock hmod ?_ ?_
        · show s.frame_last.set _ ((s.tnow + 1) % ULL) = _
          rw [hmod]
        · intro j hj
          show (s.frame_page.set _ p).getD j 0 = _
          exact getD_set_ne _ _ _ _ _ (Ne.symm hj)
    · have hfull := allocateFrame_full s p (fun i hi hp => hex ⟨i, hi, hp⟩)
      refine ⟨_, _, rfl, by rw [hfull], Or.inl ⟨?_, ?_⟩⟩
      · rw [hfull]; rfl
      · rw [hfull]; exact hinv
  | select p mode =>
    obtain ⟨f, s1, _, hf, hs1, hlen, h1, h2, hsel⟩ := selectVictim_spec G s p mode hwf hfifo hclock
    have hnum : s1.numFrames = s.numFrames := by rw [hs1]
    have hpage : s1.frame_page = s.frame_page := by rw [hs1]
    have hdirty : s1.frame_dirty = s.frame_dirty := by rw [hs1]
    have hlast : s1.frame_last = s.frame_last := by rw [hs1]
    have htnow : s1.tnow = s.tnow := by rw [hs1]
    obtain ⟨hN, hp', hd', hr', hl', ht', hb'⟩ := hwf
    have hwf1 : s1.WellFormed :=
      ⟨by omega, by rw [hpage, hnum]; exact hp', by rw [hdirty, hnum]; exact hd',
       by rw [hnum]; exact hlen, by rw [hlast, hnum]; exact hl', by rw [htnow]; exact ht',
       by rw [hlast]; exact hb'⟩
    refine ⟨some (install s1 f p).tnow, install s1 f p, by simp only [Call.step, hsel],
      hnum, Or.inr ⟨?_, ?_⟩⟩
    · show some ((s1.tnow + 1) % ULL) = _
      rw [htnow, htn]
    · intro hno
      have hmod : (s1.tnow + 1) % ULL = n + 1 := by rw [htnow, htn, Nat.mod_eq_of_lt hno]
      refine stamp_frame s _ n f hinv hf (install_wf s1 f p hwf1) hnum h1 h2 hmod ?_ ?_
      · show s1.frame_last.set f ((s1.tnow + 1) % ULL) = _
        rw [hmod, hlast]
      · intro j hj
        show (s1.frame_page.set f p).getD j 0 = _
        rw [hpage]
        exact getD_set_ne _ _ _ _ _ (Ne.symm hj)

theorem runCalls_stamps (G : LibcRand) :
    ∀ (calls : List Call) (s : MMU) (n : Nat) (stamps : List Nat) (s2 : MMU),
      s.StampInv n → runCalls G s calls = some (stamps, s2) → n + stamps.length < ULL →
      s2.StampInv (n + stamps.length) ∧ s2.numFrames = s.numFrames ∧
      ∀ i, i < stamps.length → stamps.getD i 0 = n + i + 1 := by
  intro calls
  induction calls with
  | nil =>
    intro s n stamps s2 hinv h _
    simp only [runCalls, Option.some.injEq, Prod.mk.injEq] at h
    obtain ⟨rfl, rfl⟩ := h
    exact ⟨hinv, rfl, fun i hi => absurd hi (Nat.not_lt_zero _)⟩
  | cons c cs ih =>
    intro s n stamps s2 hinv h hno
    obtain ⟨r, s1, hstep, hnum, hcase⟩ := step_stamp G s n c hinv
    cases hr : runCalls G s1 cs with
    | none => simp [runCalls, hstep, hr] at h
    | some q =>
      obtain ⟨st, s2'⟩ := q
      simp only [runCalls, hstep, hr, Option.some.injEq, Prod.mk.injEq] at h
      obtain ⟨rfl, rfl⟩ := h
      rcases hcase with ⟨rfl, hinv1⟩ | ⟨rfl, hinv1⟩
      · simp only [Option.toList, List.nil_append] at hno ⊢
        obtain ⟨h1, h2, h3⟩ := ih s1 n st s2' hinv1 hr hno
        exact ⟨h1, by rw [h2, hnum], h3⟩
      · simp only [Option.toList, List.singleton_append, List.length_cons] at hno ⊢
        have hn1 : n + 1 < ULL := by omega
        obtain ⟨h1, h2, h3⟩ := ih s1 (n + 1) st s2' (hinv1 hn1) hr (by omega)
        refine ⟨by rw [show n + (st.length + 1) = n + 1 + st.length by omega]; exact h1,
          by rw [h2, hnum], ?_⟩
        intro i hi
        cases i with
        | zero =>
          simp only [List.getD_cons_zero]
          rw [Nat.mod_eq_of_lt hn1]
        | succ i =>
          simp only [List.getD_cons_succ]
          rw [h3 i (by omega)]
          omega

theorem createMMU_stamp (G : LibcRand) (frames : Nat) (hN : 1 ≤ frames) :
    (createMMU G frames).StampInv 0 := by
  have hI := init_inv G frames hN
  refine ⟨hI.1, hI.2.1, hI.2.2.1, rfl, ?_, ?_, ?_⟩
  · intro i hi
    have hi' : i < frames := hi
    show (List.replicate frames 0).getD i 0 ≤ 0
    rw [getD_replicate_lt frames i (0 : Nat) 0 hi']
  · intro i j hi _ _ hnz
    have hi' : i < frames := hi
    exact absurd (getD_replicate_lt frames i (0 : Nat) 0 hi') hnz
  · intro i hi hp
    have hi' : i < frames := hi
    exact absurd (getD_replicate_lt frames i (-1 : Int) 0 hi') hp

/-- C14: timestamp uniqueness.  Start from `createMMU` with `numFrames >= 1`
and make any sequence of `checkInMemory`, `allocateFrame` and `selectVictim`
calls that writes fewer than `2 ^ 64` stamps.  Then `tnow` is the number of
stamps written, the `k`-th stamp written is `k`, so every stamp is strictly
greater than every stamp written before it; an occupied frame's `last_used`
lies in `[1, tnow]` and differs from the `last_used` of every other frame; and
a further call returns, does not decrease `tnow`, and a stamp it writes is the
new `tnow`, greater than all earlier stamps. -/
theorem timestamps_unique (G : LibcRand) (frames : Nat) (calls : List Call)
    (stamps : List Nat) (s : MMU) (hN : 1 ≤ frames)
    (hrun : runCalls G (createMMU G frames) calls = some (stamps, s))
    (hno : stamps.length < ULL) :
    s.tnow = stamps.length ∧
    (∀ i, i < stamps.length → stamps.getD i 0 = i + 1) ∧
    (∀ i j, i < j → j < stamps.length → stamps.getD i 0 < stamps.getD j 0) ∧
    (∀ i j, i < frames → j < frames → i ≠ j → s.frame_page.getD i 0 ≠ -1 →
      s.frame_last.getD i 0 ≠ s.frame_last.getD j 0) ∧
    (∀ i, i < frames → s.frame_page.getD i 0 ≠ -1 →
      1 ≤ s.frame_last.getD i 0 ∧ s.frame_last.getD i 0 ≤ s.tnow) ∧
    (∀ c, ∃ r s1, Call.step G s c = some (r, s1) ∧
      ((stamps ++ r.toList).length < ULL →
        s.tnow ≤ s1.tnow ∧ ∀ t, r = some t → t = s1.tnow ∧ ∀ u ∈ stamps, u < t)) := by
  obtain ⟨hinv, hnum, hst⟩ := runCalls_stamps G calls (createMMU G frames) 0 stamps s
    (createMMU_stamp G frames hN) hrun (by omega)
  have hfr : (createMMU G frames).numFrames = frames := rfl
  rw [hfr] at hnum
  rw [Nat.zero_add] at hinv
  have hst' : ∀ i, i < stamps.length → stamps.getD i 0 = i + 1 := by
    intro i hi
    rw [hst i hi]
    omega
  have hinv' := hinv
  obtain ⟨_, _, _, htn, hle, hdist, hocc⟩ := hinv'
  rw [hnum] at hle hdist hocc
  refine ⟨htn, hst', ?_, ?_, ?_, ?_⟩
  · intro i j hij hj
    rw [hst' i (by omega), hst' j hj]
    omega
  · intro i j hi hj hij hp
    exact hdist i j hi hj hij (by have := hocc i hi hp; omega)
  · intro i hi hp
    exact ⟨hocc i hi hp, by rw [htn]; exact hle i hi⟩
  · intro c
    obtain ⟨r, s1, hstep, _, hcase⟩ := step_stamp G s stamps.length c hinv
    refine ⟨r, s1, hstep, ?_⟩
    intro hlen
    rcases hcase with ⟨rfl, hinv1⟩ | ⟨rfl, hinv1⟩
    · exact ⟨by rw [htn, hinv1.2.2.2.1], fun t ht => absurd ht (by simp)⟩
    · simp only [Option.toList, List.length_append, List.length_singleton] at hlen
      have h1 := (hinv1 hlen).2.2.2.1
      refine ⟨by rw [htn, h1]; omega, ?_⟩
      intro t ht
      simp only [Option.some.injEq] at ht
      subst ht
      rw [Nat.mod_eq_of_lt hlen]
      refine ⟨h1.symm, ?_⟩
      intro u hu
      obtain ⟨k, hk, rfl⟩ := List.mem_iff_getElem.1 hu
      have := hst' k hk
      rw [List.getD_eq_getElem _ _ hk] at this
      omega

/-- Witness of C14 with two frames: the calls `allocateFrame(5)`,
`checkInMemory(5)`, `checkInMemory(9)` (a miss) and `selectVictim(6, fifo)`
write the stamps 1, 2, 3. -/
theorem timestamps_unique_witness :
    1 ≤ 2 ∧ runCalls counterRand (createMMU counterRand 2) stampCalls =
      some ([1, 2, 3], stampFinal) ∧
    [1, 2, 3].length < ULL ∧
    (stampFinal.tnow = [1, 2, 3].length ∧
    (∀ i, i < [1, 2, 3].length → [1, 2, 3].getD i 0 = i + 1) ∧
    (∀ i j, i < j → j < [1, 2, 3].length → [1, 2, 3].getD i 0 < [1, 2, 3].getD j 0) ∧
    (∀ i j, i < 2 → j < 2 → i ≠ j → stampFinal.frame_page.getD i 0 ≠ -1 →
      stampFinal.frame_last.getD i 0 ≠ stampFinal.frame_last.getD j 0) ∧
    (∀ i, i < 2 → stampFinal.frame_page.getD i 0 ≠ -1 →
      1 ≤ stampFinal.frame_last.getD i 0 ∧ stampFinal.frame_last.getD i 0 ≤ stampFinal.tnow) ∧
    (∀ c, ∃ r s1, Call.step counterRand stampFinal c = some (r, s1) ∧
      (([1, 2, 3] ++ r.toList).length < ULL →
        stampFinal.tnow ≤ s1.tnow ∧
          ∀ t, r = some t → t = s1.tnow ∧ ∀ u ∈ [1, 2, 3], u < t))) :=
  ⟨by decide, by decide, by decide,
   timestamps_unique counterRand 2 stampCalls [1, 2, 3] stampFinal (by decide) (by decide)
     (by decide)⟩

/-! ### The random policy -/

theorem mark_withRng (d : Driver) (r : Nat) (frame_no : Int) (c : Char) :
    mark (d.withRng r) frame_no c = (mark d frame_no c).map (fun x => x.withRng r) := by
  by_cases h1 : c = 'R' ∨ c = 'r'
  · simp only [mark, if_pos h1, Option.map_some']
    rfl
  · by_cases h2 : c = 'W' ∨ c = 'w'
    · simp only [mark, if_neg h1, if_pos h2, Option.map_some']
      by_cases h3 : 0 ≤ frame_no
      · simp only [if_pos h3]
        rfl
      · simp only [if_neg h3]
        rfl
    · simp only [mark, if_neg h1, if_neg h2, Option.map_none']

/-- Lines 264-283 under the random policy, in two runs whose generators have
the same output stream and have been drawn from equally often: same record,
and same state up to the state of the generator. -/
theorem random_access_sim (G1 G2 : LibcRand) (hsame : ∀ k, drawValue G1 k = drawValue G2 k)
    (d : Driver) (m : Nat) (p : Int) (hinv : d.Inv) (hp : 0 ≤ p)
    (hr : d.mmu.rng = drawState G2 m) :
    ∃ a d1 m1, access G2 repl.random d p = some (a, d1) ∧
      access G1 repl.random (d.withRng (drawState G1 m)) p =
        some (a, d1.withRng (drawState G1 m1)) ∧
      d1.mmu.rng = drawState G2 m1 ∧ d1.Inv := by
  have hinv1 : (d.withRng (drawState G1 m)).Inv := hinv
  obtain ⟨a0, d0, hacc0, hinv0, _⟩ := access_inv G2 repl.random d p hinv hp
  rcases access_cases G2 repl.random d p hinv with
    ⟨i, hi, hpi, hmin, heq⟩ | ⟨hmiss, hlt, heq⟩ |
    ⟨hmiss, hfull, f, s1, hc, hf, hs1, hlen, h1, h2, heq⟩
  · rw [heq] at hacc0
    simp only [Option.some.injEq, Prod.mk.injEq] at hacc0
    obtain ⟨rfl, rfl⟩ := hacc0
    refine ⟨_, _, m, heq, ?_, hr, hinv0⟩
    rcases access_cases G1 repl.random _ p hinv1 with
      ⟨i', hi', hpi', hmin', heq'⟩ | ⟨hmiss', _, _⟩ | ⟨hmiss', _⟩
    · have hii : i' = i := by
        rcases Nat.lt_trichotomy i' i with h | h | h
        · exact absurd hpi' (hmin i' h)
        · exact h
        · exact absurd hpi (hmin' i h)
      subst hii
      rw [heq']
      rfl
    · exact absurd hpi (hmiss' i hi)
    · exact absurd hpi (hmiss' i hi)
  · rw [heq] at hacc0
    simp only [Option.some.injEq, Prod.mk.injEq] at hacc0
    obtain ⟨rfl, rfl⟩ := hacc0
    refine ⟨_, _, m, heq, ?_, hr, hinv0⟩
    rcases access_cases G1 repl.random _ p hinv1 with
      ⟨i', hi', hpi', _, _⟩ | ⟨_, _, heq'⟩ | ⟨_, hfull', _⟩
    · exact absurd hpi' (hmiss i' hi')
    · rw [heq']
      rfl
    · have hfull'' : d.allocated = d.mmu.numFrames := hfull'
      omega
  · rw [heq] at hacc0
    simp only [Option.some.injEq, Prod.mk.injEq] at hacc0
    obtain ⟨rfl, rfl⟩ := hacc0
    simp only [choose_victim, choose_random_victim, Option.some.injEq, Prod.mk.injEq] at hc
    obtain ⟨hf2, hs2⟩ := hc
    refine ⟨_, _, m + 1, heq, ?_, ?_, hinv0⟩
    · rcases access_cases G1 repl.random _ p hinv1 with
        ⟨i', hi', hpi', _, _⟩ | ⟨_, hlt', _⟩ | ⟨_, _, f', s1', hc', _, _, _, _, _, heq'⟩
      · exact absurd hpi' (hmiss i' hi')
      · have hlt'' : d.allocated < d.mmu.numFrames := hlt'
        omega
      · simp only [choose_victim, choose_random_victim, Option.some.injEq,
          Prod.mk.injEq] at hc'
        obtain ⟨hf1, hs1'⟩ := hc'
        have hff : f' = f := by
          rw [← hf1, ← hf2, hr]
          show drawValue G1 m % d.mmu.numFrames = drawValue G2 m % d.mmu.numFrames
          rw [hsame m]
        subst hff
        rw [heq', ← hs1', ← hs2]
        rfl
    · show s1.rng = _
      rw [← hs2]
      show (G2.rand d.mmu.rng).2 = _
      rw [hr]
      rfl

theorem random_run_sim (G1 G2 : LibcRand) (hsame : ∀ k, drawValue G1 k = drawValue G2 k) :
    ∀ (es : List (Int × Char)) (d : Driver) (m : Nat), d.Inv → (∀ e ∈ es, 0 ≤ e.1) →
      d.mmu.rng = drawState G2 m →
      ∃ m1, runLog G1 repl.random (d.withRng (drawState G1 m)) es =
        (runLog G2 repl.random d es).map (fun r => (r.1, r.2.withRng (drawState G1 m1))) := by
  intro es
  induction es with
  | nil =>
    intro d m _ _ _
    exact ⟨m, rfl⟩
  | cons e es ih =>
    intro d m hinv hpages hr
    obtain ⟨a, d1, m1, hacc2, hacc1, hr1, hinv1⟩ :=
      random_access_sim G1 G2 hsame d m e.1 hinv (hpages e (List.mem_cons_self _ _)) hr
    cases hm : mark d1 a.frame_no e.2 with
    | none =>
      refine ⟨m, ?_⟩
      simp [runLog, loop_body, hacc1, hacc2, mark_withRng, hm]
    | some d2 =>
      obtain ⟨hinv2, _⟩ := mark_inv d1 d2 a.frame_no e.2 hinv1 hm
      have hr2 : d2.mmu.rng = drawState G2 m1 := by
        obtain ⟨heq, _⟩ := (mark_spec d1 a.frame_no e.2).2 d2 hm
        rw [heq]
        exact hr1
      obtain ⟨m2, hih⟩ := ih d2 m1 hinv2
        (fun x hx => hpages x (List.mem_cons_of_mem _ hx)) hr2
      refine ⟨m2, ?_⟩
      simp only [runLog, loop_body, hacc1, hacc2, mark_withRng, hm, Option.map_some', hih]
      cases runLog G2 repl.random d2 es with
      | none => rfl
      | some r => rfl

/-- C16: reproducible random policy.  Take two runs of the driver under
policy random with the same `numFrames >= 1` and the same trace, whose
generators, seeded by `createMMU` with `0xC0FFEE`, return the same sequence of
values (in particular two runs with the same generator).  Then both runs
complete or both stop, with the same iteration records (frame index, evicted
page and its modified flag at every eviction), the same `disk_reads` and
`disk_writes`, and the same final state up to the state of the generator. -/
theorem random_reproducible (G1 G2 : LibcRand) (frames : Nat) (es : List (Int × Char))
    (hN : 1 ≤ frames) (hpages : ∀ e ∈ es, 0 ≤ e.1)
    (hsame : ∀ k, drawValue G1 k = drawValue G2 k) :
    (run G1 repl.random frames es).map (fun r => r.1) =
      (run G2 repl.random frames es).map (fun r => r.1) ∧
    (run G1 repl.random frames es).map (fun r => (r.2.disk_reads, r.2.disk_writes)) =
      (run G2 repl.random frames es).map (fun r => (r.2.disk_reads, r.2.disk_writes)) ∧
    ∃ m, run G1 repl.random frames es =
      (run G2 repl.random frames es).map (fun r => (r.1, r.2.withRng (drawState G1 m))) := by
  obtain ⟨m, hm⟩ := random_run_sim G1 G2 hsame es (Driver.init G2 frames) 0
    (init_inv G2 frames hN) hpages rfl
  have hrun : run G1 repl.random frames es =
      (run G2 repl.random frames es).map (fun r => (r.1, r.2.withRng (drawState G1 m))) := hm
  refine ⟨?_, ?_, m, hrun⟩
  · rw [hrun]
    cases run G2 repl.random frames es with
    | none => rfl
    | some r => rfl
  · rw [hrun]
    cases run G2 repl.random frames es with
    | none => rfl
    | some r => rfl

theorem offsetRand_state : ∀ k, drawState offsetRand k = k + 5 ∧ drawState counterRand k = k := by
  intro k
  induction k with
  | zero => exact ⟨rfl, rfl⟩
  | succ k ih =>
    obtain ⟨h1, h2⟩ := ih
    constructor
    · show (offsetRand.rand (drawState offsetRand k)).2 = k + 1 + 5
      rw [h1]
      show k + 5 + 1 = k + 1 + 5
      omega
    · show (counterRand.rand (drawState counterRand k)).2 = k + 1
      rw [h2]
      rfl

theorem offsetRand_stream : ∀ k, drawValue counterRand k = drawValue offsetRand k := by
  intro k
  obtain ⟨h1, h2⟩ := offsetRand_state k
  show (counterRand.rand (drawState counterRand k)).1 = (offsetRand.rand (drawState offsetRand k)).1
  rw [h1, h2]
  show k = k + 5 - 5
  omega

/-- Witness of C16 on `demoTrace` with two frames: the generators
`counterRand` and `offsetRand` return the same values, and both runs evict
page 1 (dirty) from frame 0 at the fourth event, with `disk_reads = 3` and
`disk_writes = 1`. -/
theorem random_reproducible_witness :
    1 ≤ 2 ∧ (∀ e ∈ events demoTrace, 0 ≤ e.1) ∧
    (∀ k, drawValue counterRand k = drawValue offsetRand k) ∧
    run counterRand repl.random 2 (events demoTrace) = some (randRecords, randFinal) ∧
    (run offsetRand repl.random 2 (events demoTrace)).map (fun r => r.1) =
      some randRecords ∧
    ((run counterRand repl.random 2 (events demoTrace)).map (fun r => r.1) =
      (run offsetRand repl.random 2 (events demoTrace)).map (fun r => r.1) ∧
    (run counterRand repl.random 2 (events demoTrace)).map
        (fun r => (r.2.disk_reads, r.2.disk_writes)) =
      (run offsetRand repl.random 2 (events demoTrace)).map
        (fun r => (r.2.disk_reads, r.2.disk_writes)) ∧
    ∃ m, run counterRand repl.random 2 (events demoTrace) =
      (run offsetRand repl.random 2 (events demoTrace)).map
        (fun r => (r.1, r.2.withRng (drawState counterRand m)))) :=
  ⟨by decide, by decide, offsetRand_stream, by decide, by decide,
   random_reproducible counterRand offsetRand 2 (events demoTrace) (by decide) (by decide)
     offsetRand_stream⟩

/-! ### CLOCK along a run -/

/-- Where `choose_clock_victim` leaves the hand, and why it does not return a
frame whose reference bit is set when the hand starts one past it. -/
theorem choose_clock_victim_next (s : MMU) (f : Nat) (s1 : MMU) (hN : 1 ≤ s.numFrames)
    (hlen : s.frame_ref.length = s.numFrames) (hh : s.clock_hand < s.numFrames)
    (h : choose_clock_victim s = some (f, s1)) :
    f < s.numFrames ∧ s1.clock_hand = (f + 1) % s.numFrames ∧
    ∀ v, v < s.numFrames → s.frame_ref.getD v 0 ≠ 0 →
      s.clock_hand = (v + 1) % s.numFrames → 2 ≤ s.numFrames → f ≠ v := by
  by_cases hex : ∃ k, k < s.numFrames ∧
      s.frame_ref.getD ((s.clock_hand + k) % s.numFrames) 0 = 0
  · obtain ⟨k, hk, hz, hmin⟩ := exists_least
      (fun k => s.frame_ref.getD ((s.clock_hand + k) % s.numFrames) 0 = 0) _ hex
    obtain ⟨s', hrun, _, hs', _⟩ := choose_clock_loop_run k s hN hlen hh hk hmin hz
    have h2 := (hrun (2 * s.numFrames) (by omega)).1
    have h3 : choose_clock_loop (2 * s.numFrames) s = some (f, s1) := h
    rw [h2] at h3
    simp only [Option.some.injEq, Prod.mk.injEq] at h3
    obtain ⟨rfl, rfl⟩ := h3
    refine ⟨Nat.mod_lt _ (by omega), by rw [hs'], ?_⟩
    intro v _ hv _ _ hfv
    rw [hfv] at hz
    exact hv hz
  · have hall : ∀ j, j < s.numFrames → s.frame_ref.getD j 0 ≠ 0 := by
      intro j hj hz
      obtain ⟨m, hm, hmj⟩ := cyclic_cover s.clock_hand s.numFrames j hj
      exact hex ⟨m, hm, by rw [hmj]; exact hz⟩
    obtain ⟨s', hrun, _, hs', _⟩ := choose_clock_loop_all_set s hN hlen hh hall
    have h2 := (hrun (2 * s.numFrames) (by omega)).1
    have h3 : choose_clock_loop (2 * s.numFrames) s = some (f, s1) := h
    rw [h2] at h3
    simp only [Option.some.injEq, Prod.mk.injEq] at h3
    obtain ⟨rfl, rfl⟩ := h3
    refine ⟨hh, by rw [hs'], ?_⟩
    intro v hv _ hhand h2N hfv
    have := cyclic_ne v s.numFrames 1 hv (by omega) (by omega)
    rw [← hhand, hfv] at this
    exact this rfl

/-- Lines 264-283 under CLOCK with at least two frames: without an eviction
the CLOCK bookkeeping is kept; an eviction chooses a frame other than that of
the previous eviction and becomes the most recent one. -/
theorem clock_access (G : LibcRand) (d : Driver) (p : Int) (last : Option Int)
    (hinv : d.ClockInv last) (hp : 0 ≤ p) (h2N : 2 ≤ d.mmu.numFrames) :
    ∃ a d1, access G repl.clock d p = some (a, d1) ∧
      d1.mmu.numFrames = d.mmu.numFrames ∧
      ((a.victim = none ∧ d1.ClockInv last) ∨
       (a.victim.isSome = true ∧ d1.ClockInv (some a.frame_no) ∧
        ∀ w, last = some w → w ≠ a.frame_no)) := by
  obtain ⟨hI, hlast⟩ := hinv
  have hI' := hI
  obtain ⟨hwf, hfifo, hclock, _⟩ := hI'
  obtain ⟨hN, hplen, hdlen, hrlen, hllen, _, _⟩ := hwf
  obtain ⟨a0, d0, hacc0, hinv1, hnum1⟩ := access_inv G repl.clock d p hI hp
  rcases access_cases G repl.clock d p hI with
    ⟨i, hi, hpi, _, heq⟩ | ⟨hmiss, hlt, heq⟩ |
    ⟨hmiss, hfull, f, s1, hc, hf, hs1, hlen, h1, h2, heq⟩
  · rw [heq] at hacc0
    simp only [Option.some.injEq, Prod.mk.injEq] at hacc0
    obtain ⟨rfl, rfl⟩ := hacc0
    refine ⟨_, _, heq, rfl, Or.inl ⟨rfl, hinv1, ?_⟩⟩
    intro w hw
    obtain ⟨v, hwv, hv, hhand, href⟩ := hlast w hw
    refine ⟨v, hwv, hv, hhand, ?_⟩
    show (d.mmu.frame_ref.set i 1).getD v 0 ≠ 0
    by_cases hvi : v = i
    · subst hvi
      rw [getD_set_self _ _ _ _ (by omega)]
      decide
    · rw [getD_set_ne _ _ _ _ _ (Ne.symm hvi)]
      exact href
  · rw [heq] at hacc0
    simp only [Option.some.injEq, Prod.mk.injEq] at hacc0
    obtain ⟨rfl, rfl⟩ := hacc0
    refine ⟨_, _, heq, rfl, Or.inl ⟨rfl, hinv1, ?_⟩⟩
    intro w hw
    obtain ⟨v, hwv, hv, hhand, href⟩ := hlast w hw
    refine ⟨v, hwv, hv, hhand, ?_⟩
    show (d.mmu.frame_ref.set d.allocated 1).getD v 0 ≠ 0
    by_cases hvi : v = d.allocated
    · subst hvi
      rw [getD_set_self _ _ _ _ (by omega)]
      decide
    · rw [getD_set_ne _ _ _ _ _ (Ne.symm hvi)]
      exact href
  · rw [heq] at hacc0
    simp only [Option.some.injEq, Prod.mk.injEq] at hacc0
    obtain ⟨rfl, rfl⟩ := hacc0
    have hc' : choose_clock_victim d.mmu = some (f, s1) := hc
    obtain ⟨_, hnext, hne⟩ := choose_clock_victim_next d.mmu f s1 hN hrlen hclock hc'
    have hnum11 : s1.numFrames = d.mmu.numFrames := by rw [hs1]
    refine ⟨_, _, heq, hnum1, Or.inr ⟨rfl, ⟨hinv1, ?_⟩, ?_⟩⟩
    · intro w hw
      simp only [Option.some.injEq] at hw
      refine ⟨f, hw.symm, by show f < s1.numFrames; omega, ?_, ?_⟩
      · show s1.clock_hand = (f + 1) % s1.numFrames
        rw [hnum11]
        exact hnext
      · show ((s1.frame_ref.set f 1).set f 1).getD f 0 ≠ 0
        rw [getD_set_self _ _ _ _ (by rw [List.length_set]; omega)]
        decide
    · intro w hw hwf
      obtain ⟨v, hwv, hv, hhand, href⟩ := hlast w hw
      have hfv : f = v := by
        have : (v : Int) = (f : Int) := by rw [← hwv]; exact hwf
        omega
      exact hne v hv href hhand h2N hfv

theorem mark_clock (d d2 : Driver) (frame_no : Int) (rw : Char) (last : Option Int)
    (hinv : d.ClockInv last) (h : mark d frame_no rw = some d2) :
    d2.ClockInv last ∧ d2.mmu.numFrames = d.mmu.numFrames := by
  obtain ⟨hI, hlast⟩ := hinv
  obtain ⟨hI2, hnum⟩ := mark_inv d d2 frame_no rw hI h
  obtain ⟨heq, _⟩ := (mark_spec d frame_no rw).2 d2 h
  refine ⟨⟨hI2, ?_⟩, hnum⟩
  rw [heq]
  exact hlast

theorem evictFrames_cons (a : Access) (as : List Access) :
    evictFrames (a :: as) =
      if a.victim.isSome = true then a.frame_no :: evictFrames as else evictFrames as := by
  by_cases h : a.victim.isSome = true
  · simp [evictFrames, List.filter_cons, h]
  · simp [evictFrames, List.filter_cons, h]

theorem clock_runLog (G : LibcRand) :
    ∀ (es : List (Int × Char)) (d : Driver) (last : Option Int),
      d.ClockInv last → (∀ e ∈ es, 0 ≤ e.1) → 2 ≤ d.mmu.numFrames →
      ∀ as d2, runLog G repl.clock d es = some (as, d2) →
        d2.ClockInv (lastEvict last (evictFrames as)) ∧
        d2.mmu.numFrames = d.mmu.numFrames ∧
        List.Chain' (fun x y => x ≠ y) (evictFrames as) ∧
        ∀ w, last = some w → List.Chain (fun x y => x ≠ y) w (evictFrames as) := by
  intro es
  induction es with
  | nil =>
    intro d last hinv _ _ as d2 h
    simp only [runLog, Option.some.injEq, Prod.mk.injEq] at h
    obtain ⟨rfl, rfl⟩ := h
    exact ⟨hinv, rfl, List.chain'_nil, fun w _ => List.Chain.nil⟩
  | cons e es ih =>
    intro d last hinv hpages h2N as d2 h
    obtain ⟨a, d1', as', hb, hr, rfl⟩ := runLog_cons_some G repl.clock d d2 e es as h
    obtain ⟨d1, hacc, hm⟩ := loop_body_some G repl.clock d d1' e a hb
    obtain ⟨a0, d0, hacc0, hnum1, hcase⟩ :=
      clock_access G d e.1 last hinv (hpages e (List.mem_cons_self _ _)) h2N
    rw [hacc] at hacc0
    simp only [Option.some.injEq, Prod.mk.injEq] at hacc0
    obtain ⟨rfl, rfl⟩ := hacc0
    have hpages' : ∀ x ∈ es, 0 ≤ x.1 := fun x hx => hpages x (List.mem_cons_of_mem _ hx)
    rw [evictFrames_cons]
    rcases hcase with ⟨hv, hinv1⟩ | ⟨hv, hinv1, hne⟩
    · obtain ⟨hinv1', hnum1'⟩ := mark_clock d1 d1' a.frame_no e.2 last hinv1 hm
      obtain ⟨ih1, ih2, ih3, ih4⟩ := ih d1' last hinv1' hpages' (by omega) as' d2 hr
      have hno : ¬ (a.victim.isSome = true) := by rw [hv]; simp
      rw [if_neg hno]
      exact ⟨ih1, by rw [ih2, hnum1', hnum1], ih3, ih4⟩
    · obtain ⟨hinv1', hnum1'⟩ := mark_clock d1 d1' a.frame_no e.2 _ hinv1 hm
      obtain ⟨ih1, ih2, _, ih4⟩ := ih d1' (some a.frame_no) hinv1' hpages' (by omega) as' d2 hr
      rw [if_pos hv]
      refine ⟨ih1, by rw [ih2, hnum1', hnum1], ih4 _ rfl, ?_⟩
      intro w hw
      exact List.Chain.cons (hne w hw) (ih4 _ rfl)

theorem init_clock (G : LibcRand) (frames : Nat) (hN : 1 ≤ frames) :
    (Driver.init G frames).ClockInv none :=
  ⟨init_inv G frames hN, fun w hw => absurd hw (by simp)⟩

/-- C19: CLOCK never re-evicts the frame it has just loaded.  In a run with
`numFrames >= 2` under policy clock over non-negative page numbers, any two
consecutive evictions choose different frame indices, whatever hits occur in
between; this holds for the evictions of the completed iterations and for an
eviction at lines 264-283 of the iteration that follows them. -/
theorem clock_no_reeviction (G : LibcRand) (frames : Nat) (es : List (Int × Char))
    (as : List Access) (d : Driver) (hN : 2 ≤ frames) (hpages : ∀ e ∈ es, 0 ≤ e.1)
    (hrun : run G repl.clock frames es = some (as, d)) :
    List.Chain' (fun x y => x ≠ y) (evictFrames as) ∧
    (∀ j x y, (evictFrames as)[j]? = some x → (evictFrames as)[j + 1]? = some y → x ≠ y) ∧
    (∀ p a d1, 0 ≤ p → access G repl.clock d p = some (a, d1) → a.victim.isSome = true →
      ∀ w, lastEvict none (evictFrames as) = some w → w ≠ a.frame_no) := by
  have hfr : (Driver.init G frames).mmu.numFrames = frames := rfl
  obtain ⟨hinv, hnum, hchain, _⟩ := clock_runLog G es (Driver.init G frames) none
    (init_clock G frames (by omega)) hpages (by rw [hfr]; exact hN) as d hrun
  rw [hfr] at hnum
  refine ⟨hchain, ?_, ?_⟩
  · intro j x y hx hy
    obtain ⟨hj1, hx'⟩ := List.getElem?_eq_some.1 hx
    obtain ⟨hj2, hy'⟩ := List.getElem?_eq_some.1 hy
    have := List.chain'_iff_get.1 hchain j (by omega)
    simp only [List.get_eq_getElem] at this
    rw [hx', hy'] at this
    exact this
  · intro p a d1 hp hacc hv w hw
    obtain ⟨a0, d0, hacc0, _, hcase⟩ := clock_access G d p _ hinv hp (by omega)
    rw [hacc] at hacc0
    simp only [Option.some.injEq, Prod.mk.injEq] at hacc0
    obtain ⟨rfl, rfl⟩ := hacc0
    rcases hcase with ⟨hnone, _⟩ | ⟨_, _, hne⟩
    · rw [hnone] at hv
      exact absurd hv (by simp)
    · exact hne w hw

/-- Witness of C19 on `clockEvents` with two frames: the two evictions choose
frame 0 and then frame 1, although page 2 in frame 1 is hit in between. -/
theorem clock_no_reeviction_witness :
    2 ≤ 2 ∧ (∀ e ∈ clockEvents, 0 ≤ e.1) ∧
    run counterRand repl.clock 2 clockEvents = some (clockRecords, clockFinal) ∧
    evictFrames clockRecords = [0, 1] ∧
    List.Chain' (fun x y => x ≠ y) (evictFrames clockRecords) :=
  ⟨by decide, by decide, by decide, by decide,
   (clock_no_reeviction counterRand 2 clockEvents clockRecords clockFinal (by decide)
      (by decide) (by decide)).1⟩

/-! ### Distinct pages and disk reads -/

theorem distinct_snoc (hist : List Int) (p : Int) :
    (hist ++ [p]).dedup.length =
      if p ∈ hist then hist.dedup.length else hist.dedup.length + 1 := by
  rw [← List.card_toFinset, ← List.card_toFinset, List.toFinset_append]
  have hs : [p].toFinset = {p} := by simp
  rw [hs, Finset.union_comm, ← Finset.insert_eq]
  by_cases h : p ∈ hist
  · rw [if_pos h, Finset.card_insert_of_mem (List.mem_toFinset.2 h)]
  · rw [if_neg h, Finset.card_insert_of_not_mem (fun hc => h (List.mem_toFinset.1 hc))]

theorem distinct_le_append (l1 l2 : List Int) :
    l1.dedup.length ≤ (l1 ++ l2).dedup.length := by
  rw [← List.card_toFinset, ← List.card_toFinset, List.toFinset_append]
  exact Finset.card_le_card Finset.subset_union_left

/-- One iteration keeps the bookkeeping of the pages seen. -/
theorem seen_step (G : LibcRand) (replace : repl) (d d2 : Driver) (hist : List Int)
    (e : Int × Char) (a : Access) (hinv : d.SeenInv hist) (hp : 0 ≤ e.1)
    (hb : loop_body G replace d e = some (a, d2)) :
    d2.SeenInv (hist ++ [e.1]) := by
  obtain ⟨d1, hacc, hm⟩ := loop_body_some G replace d d2 e a hb
  obtain ⟨hI, hres, hcount⟩ := hinv
  obtain ⟨a0, d0, x, hacc0, hinv1, hnum1, hpn, hfn, hxN, hx1, hpx, hrest, hhit, hfault⟩ :=
    access_frame G replace d e.1 hI hp
  rw [hacc] at hacc0
  simp only [Option.some.injEq, Prod.mk.injEq] at hacc0
  obtain ⟨rfl, rfl⟩ := hacc0
  obtain ⟨hI2, _⟩ := mark_inv d1 d2 a.frame_no e.2 hinv1 hm
  obtain ⟨heq, _⟩ := (mark_spec d1 a.frame_no e.2).2 d2 hm
  have hpage2 : d2.mmu.frame_page = d1.mmu.frame_page := by rw [heq]
  have halloc2 : d2.allocated = d1.allocated := by rw [heq]
  have hreads2 : d2.disk_reads = d1.disk_reads := by rw [heq]
  have hgold : ∀ g, g < d1.allocated → g ≠ x → g < d.allocated := by
    intro g hg hgx
    by_cases hf : a.fault = true
    · rcases (hfault hf).2.2.2 with ⟨_, _, h3, h4, _⟩ | ⟨_, h2, _⟩
      · omega
      · omega
    · have hf' : a.fault = false := by simpa using hf
      have := (hhit hf').2.2.1
      omega
  refine ⟨hI2, ?_, ?_⟩
  · intro g hg
    rw [halloc2] at hg
    rw [hpage2]
    by_cases hgx : g = x
    · subst hgx
      rw [hpx]
      simp
    · rw [(hrest g hgx).1]
      exact List.mem_append_left _ (hres g (hgold g hg hgx))
  · rw [hreads2, distinct_snoc]
    by_cases hf : a.fault = true
    · rw [(hfault hf).2.2.1]
      split <;> omega
    · have hf' : a.fault = false := by simpa using hf
      obtain ⟨hpold, _, haold, hrold, _⟩ := hhit hf'
      have hmem : e.1 ∈ hist := by
        rw [← hpold]
        exact hres x (by omega)
      rw [if_pos hmem, hrold]
      exact hcount

theorem seen_runLog (G : LibcRand) (replace : repl) :
    ∀ (es : List (Int × Char)) (d : Driver) (hist : List Int),
      d.SeenInv hist → (∀ e ∈ es, 0 ≤ e.1) →
      ∀ as d2, runLog G replace d es = some (as, d2) →
        d2.SeenInv (hist ++ es.map (fun e => e.1)) := by
  intro es
  induction es with
  | nil =>
    intro d hist hinv _ as d2 h
    simp only [runLog, Option.some.injEq, Prod.mk.injEq] at h
    obtain ⟨_, rfl⟩ := h
    simpa using hinv
  | cons e es ih =>
    intro d hist hinv hpages as d2 h
    obtain ⟨a, d1, as', hb, hr, rfl⟩ := runLog_cons_some G replace d d2 e es as h
    have hstep := seen_step G replace d d1 hist e a hinv (hpages e (List.mem_cons_self _ _)) hb
    have := ih d1 (hist ++ [e.1]) hstep
      (fun x hx => hpages x (List.mem_cons_of_mem _ hx)) as' d2 hr
    simpa using this

/-- One iteration of a run that has not evicted yet, when the page accessed
does not bring the number of distinct pages above `numFrames`: no eviction. -/
theorem fill_step (G : LibcRand) (replace : repl) (d d2 : Driver) (hist : List Int)
    (e : Int × Char) (a : Access) (hinv : d.FillInv hist) (hp : 0 ≤ e.1)
    (hsmall : (hist ++ [e.1]).dedup.length ≤ d.mmu.numFrames)
    (hb : loop_body G replace d e = some (a, d2)) :
    d2.FillInv (hist ++ [e.1]) ∧ a.victim = none ∧ d2.mmu.numFrames = d.mmu.numFrames := by
  obtain ⟨d1, hacc, hm⟩ := loop_body_some G replace d d2 e a hb
  obtain ⟨hI, hreads, halloc, hwrites, hiff⟩ := hinv
  obtain ⟨a0, d0, x, hacc0, hinv1, hnum1, hpn, hfn, hxN, hx1, hpx, hrest, hhit, hfault⟩ :=
    access_frame G replace d e.1 hI hp
  rw [hacc] at hacc0
  simp only [Option.some.injEq, Prod.mk.injEq] at hacc0
  obtain ⟨rfl, rfl⟩ := hacc0
  obtain ⟨hI2, hnum2⟩ := mark_inv d1 d2 a.frame_no e.2 hinv1 hm
  obtain ⟨heq, _⟩ := (mark_spec d1 a.frame_no e.2).2 d2 hm
  have hpage2 : d2.mmu.frame_page = d1.mmu.frame_page := by rw [heq]
  have halloc2 : d2.allocated = d1.allocated := by rw [heq]
  have hreads2 : d2.disk_reads = d1.disk_reads := by rw [heq]
  have hwrites2 : d2.disk_writes = d1.disk_writes := by rw [heq]
  rw [distinct_snoc] at hsmall
  by_cases hf : a.fault = true
  · obtain ⟨hmiss, _, hr1, hcase⟩ := hfault hf
    have hnew : e.1 ∉ hist := by
      intro hmem
      obtain ⟨f, hfa, hfp⟩ := (hiff e.1).1 hmem
      exact hmiss f (by have := hI.2.2.2.1; omega) hfp
    rw [if_neg hnew] at hsmall
    rcases hcase with ⟨hv, _, hxa, ha1, hw1⟩ | ⟨hfull, _⟩
    · refine ⟨⟨hI2, ?_, ?_, ?_, ?_⟩, hv, by rw [hnum2, hnum1]⟩
      · rw [hreads2, hr1, distinct_snoc, if_neg hnew, hreads]
      · rw [halloc2, ha1, distinct_snoc, if_neg hnew, halloc]
      · rw [hwrites2, hw1, hwrites]
      · intro q
        rw [halloc2, ha1, hpage2]
        constructor
        · intro hq
          rcases List.mem_append.1 hq with h | h
          · obtain ⟨f, hfa, hfp⟩ := (hiff q).1 h
            exact ⟨f, by omega, by rw [(hrest f (by omega)).1]; exact hfp⟩
          · simp only [List.mem_singleton] at h
            exact ⟨x, by omega, by rw [hpx, h]⟩
        · rintro ⟨f, hfa, hfp⟩
          by_cases hfx : f = x
          · subst hfx
            rw [hpx] at hfp
            rw [← hfp]
            simp
          · rw [(hrest f hfx).1] at hfp
            exact List.mem_append_left _ ((hiff q).2 ⟨f, by omega, hfp⟩)
    · omega
  · have hf' : a.fault = false := by simpa using hf
    obtain ⟨hpold, _, haold, hrold, hwold, hv⟩ := hhit hf'
    have hmem : e.1 ∈ hist := (hiff e.1).2 ⟨x, by omega, hpold⟩
    have hpages_same : d1.mmu.frame_page.getD x 0 = d.mmu.frame_page.getD x 0 := by
      rw [hpx, hpold]
    refine ⟨⟨hI2, ?_, ?_, ?_, ?_⟩, hv, by rw [hnum2, hnum1]⟩
    · rw [hreads2, hrold, distinct_snoc, if_pos hmem, hreads]
    · rw [halloc2, haold, distinct_snoc, if_pos hmem, halloc]
    · rw [hwrites2, hwold, hwrites]
    · intro q
      rw [halloc2, haold, hpage2]
      have hsame : ∀ f, d1.mmu.frame_page.getD f 0 = d.mmu.frame_page.getD f 0 := by
        intro f
        by_cases hfx : f = x
        · subst hfx; exact hpages_same
        · exact (hrest f hfx).1
      constructor
      · intro hq
        have hq' : q ∈ hist := by
          rcases List.mem_append.1 hq with h | h
          · exact h
          · simp only [List.mem_singleton] at h
            rw [h]; exact hmem
        obtain ⟨f, hfa, hfp⟩ := (hiff q).1 hq'
        exact ⟨f, hfa, by rw [hsame f]; exact hfp⟩
      · rintro ⟨f, hfa, hfp⟩
        rw [hsame f] at hfp
        exact List.mem_append_left _ ((hiff q).2 ⟨f, hfa, hfp⟩)

theorem fill_runLog (G : LibcRand) (replace : repl) :
    ∀ (es : List (Int × Char)) (d : Driver) (hist : List Int),
      d.FillInv hist → (∀ e ∈ es, 0 ≤ e.1) →
      (hist ++ es.map (fun e => e.1)).dedup.length ≤ d.mmu.numFrames →
      ∀ as d2, runLog G replace d es = some (as, d2) →
        d2.FillInv (hist ++ es.map (fun e => e.1)) ∧ ∀ a ∈ as, a.victim = none := by
  intro es
  induction es with
  | nil =>
    intro d hist hinv _ _ as d2 h
    simp only [runLog, Option.some.injEq, Prod.mk.injEq] at h
    obtain ⟨rfl, rfl⟩ := h
    exact ⟨by simpa using hinv, fun a ha => absurd ha (List.not_mem_nil _)⟩
  | cons e es ih =>
    intro d hist hinv hpages hsmall as d2 h
    obtain ⟨a, d1, as', hb, hr, rfl⟩ := runLog_cons_some G replace d d2 e es as h
    have happ : hist ++ (e :: es).map (fun e => e.1) =
        (hist ++ [e.1]) ++ es.map (fun e => e.1) := by simp
    rw [happ] at hsmall ⊢
    obtain ⟨hstep, hv, hnum⟩ := fill_step G replace d d1 hist e a hinv
      (hpages e (List.mem_cons_self _ _))
      (le_trans (distinct_le_append _ _) hsmall) hb
    obtain ⟨ih1, ih2⟩ := ih d1 (hist ++ [e.1]) hstep
      (fun x hx => hpages x (List.mem_cons_of_mem _ hx)) (by rw [hnum]; exact hsmall) as' d2 hr
    refine ⟨ih1, ?_⟩
    intro b hb'
    rcases List.mem_cons.1 hb' with h | h
    · rw [h]; exact hv
    · exact ih2 b h

/-- C20: small working set never evicts.  In a run with `numFrames = N >= 1`
under any policy over non-negative page numbers, `disk_reads` is at least the
number of distinct pages of the trace and at most the number of events; and
when the trace touches at most `N` distinct pages, `selectVictim` is never
called (no iteration has a victim), `disk_reads` equals the number of distinct
pages and `disk_writes` is 0. -/
theorem small_working_set (G : LibcRand) (replace : repl) (frames : Nat)
    (es : List (Int × Char)) (as : List Access) (d : Driver) (hN : 1 ≤ frames)
    (hpages : ∀ e ∈ es, 0 ≤ e.1) (hrun : run G replace frames es = some (as, d)) :
    ((es.map (fun e => e.1)).dedup.length ≤ frames →
      (∀ a ∈ as, a.victim = none) ∧
      d.disk_reads = (es.map (fun e => e.1)).dedup.length ∧ d.disk_writes = 0) ∧
    (es.map (fun e => e.1)).dedup.length ≤ d.disk_reads ∧ d.disk_reads ≤ es.length := by
  have hI := init_inv G frames hN
  have hfr : (Driver.init G frames).mmu.numFrames = frames := rfl
  refine ⟨?_, ?_, ?_⟩
  · intro hsmall
    have hfill : (Driver.init G frames).FillInv [] := by
      refine ⟨hI, rfl, rfl, rfl, ?_⟩
      intro q
      constructor
      · intro h; exact absurd h (List.not_mem_nil _)
      · rintro ⟨f, hf, _⟩; exact absurd hf (Nat.not_lt_zero _)
    obtain ⟨⟨_, h1, _, h2, _⟩, h3⟩ := fill_runLog G replace es (Driver.init G frames) []
      hfill hpages (by rw [List.nil_append, hfr]; exact hsmall) as d hrun
    rw [List.nil_append] at h1
    exact ⟨h3, h1, h2⟩
  · have hseen : (Driver.init G frames).SeenInv [] :=
      ⟨hI, fun f hf => absurd hf (Nat.not_lt_zero _), Nat.zero_le _⟩
    have := (seen_runLog G replace es (Driver.init G frames) [] hseen hpages as d hrun).2.2
    rw [List.nil_append] at this
    exact this
  · obtain ⟨⟨_, hr, _⟩, hlen, _⟩ := count_runLog G replace es (Driver.init G frames) 0
      (init_count G frames hN) hpages as d hrun
    rw [hr, Nat.zero_add, ← hlen]
    exact List.length_filter_le _ _

/-- Witness of C20 with three frames under CLOCK: the accesses `A, B, A`
touch two distinct pages, cause two disk reads and no eviction. -/
theorem small_working_set_witness :
    1 ≤ 3 ∧ (∀ e ∈ abaEvents, 0 ≤ e.1) ∧
    run counterRand repl.clock 3 abaEvents = some (lruRecords, fillFinal) ∧
    (abaEvents.map (fun e => e.1)).dedup.length = 2 ∧ fillFinal.disk_reads = 2 ∧
    (((abaEvents.map (fun e => e.1)).dedup.length ≤ 3 →
      (∀ a ∈ lruRecords, a.victim = none) ∧
      fillFinal.disk_reads = (abaEvents.map (fun e => e.1)).dedup.length ∧
      fillFinal.disk_writes = 0) ∧
    (abaEvents.map (fun e => e.1)).dedup.length ≤ fillFinal.disk_reads ∧
    fillFinal.disk_reads ≤ abaEvents.length) :=
  ⟨by decide, by decide, by decide, by decide, by decide,
   small_working_set counterRand repl.clock 3 abaEvents lruRecords fillFinal (by decide)
     (by decide) (by decide)⟩

end Gpt
